import Mathlib

/-!
# GNU Zile: key-binding trie, encoded strings and redisplay

A shallow embedding of `src/bind.c` (the key-sequence trie and the dispatch),
`src/estr.c` (end-of-line detection, line navigation, replacement),
`src/term_redisplay.c` (horizontal scroll, drawing of lines, windows and the
status line) and of `universal_argument` of `src/funcs.c`, with theorems about
the embedded functions.

Conventions of the embedding:

* a `Function` (a C function pointer) is an `Option Nat`: `none` is `NULL`,
  `some n` is the command with handle `n`;
* a chord (`size_t` key code) is a `Nat`;
* a `gl_list_t keys` read from index `from` on is the Lean list of the chords
  `keys[from], keys[from+1], ...`; `gl_list_size (keys) - from` is its length;
* in-place mutation of a node reached through a pointer is explicit state
  passing: the function returns the updated tree.
-/

namespace Zile

/-! ## Data model (`struct Binding`, bind.c 42-50) -/

/-- A trie node: `key`, `func`, the branch vector `vec` (`vecnum` is its
length) and the allocated capacity `vecmax`. -/
structure Binding where
  key : Nat
  func : Option Nat
  vec : List Binding
  vecmax : Nat

/-- The function `node_new`: a zero-filled node with the given capacity. -/
def node_new (vecmax : Nat) : Binding :=
  { key := 0, func := none, vec := [], vecmax := vecmax }

/-- The function `init_bindings`: the empty root. -/
def init_bindings : Binding := node_new 10

/-- The function `search_node`: the first child of `tree` whose key is `key`,
or `NULL`. -/
def search_node (tree : Binding) (key : Nat) : Option Binding :=
  tree.vec.find? (fun c => decide (c.key = key))

/-- The insertion loop of `add_node` (bind.c 96-105): `p` goes in front of the
first child whose key is greater than `p`'s, or at the end. -/
def insert_sorted (p : Binding) : List Binding → List Binding
  | [] => [p]
  | c :: cs => if c.key > p.key then p :: c :: cs else c :: insert_sorted p cs

/-- The function `add_node`: clears `func` when the node had no child, grows
the capacity when needed, inserts `p` at its sorted position. -/
def add_node (tree p : Binding) : Binding :=
  { key := tree.key
    func := if tree.vec.length = 0 then none else tree.func
    vec := insert_sorted p tree.vec
    vecmax := if tree.vec.length + 1 ≥ tree.vecmax then tree.vecmax + 5 else tree.vecmax }

/-- Writing through the pointer returned by `search_node tree key`: the first
child whose key is `key` becomes `s`. -/
def replace_node (s : Binding) (key : Nat) : List Binding → List Binding
  | [] => []
  | c :: cs => if c.key = key then s :: cs else c :: replace_node s key cs

/-- The function `bind_key_vec`. The chord list is `keys[from..]`; reading
`keys[from]` past the end of the list makes `gl_list_get_at` abort, which is
`none`. A fresh node `p` is placed by `add_node` through its key alone, and
that key never changes afterwards, so the node is inserted here in its final
state (`replace_node_insert_sorted` below: writing through `p` after the
insertion gives the same branch vector). -/
def bind_key_vec (tree : Binding) (keys : List Nat) (func : Option Nat) : Option Binding :=
  match keys with
  | [] => none
  | k :: rest =>
    match search_node tree k with
    | none =>
      let p : Binding := { node_new (if rest.length + 1 = 1 then 1 else 5) with key := k }
      if rest.length + 1 = 1 then
        some (add_node tree { p with func := func })
      else
        (bind_key_vec p rest func).map (fun q => add_node tree q)
    | some s =>
      if rest.length + 1 > 1 then
        (bind_key_vec s rest func).map
          (fun q => { tree with vec := replace_node q k tree.vec })
      else
        some { tree with vec := replace_node { s with func := func } k tree.vec }

/-- The function `search_key`, on the chord list `keys[from..]`; `none` is
`NULL`. The source only calls it with `from` inside the list. -/
def search_key (tree : Binding) (keys : List Nat) : Option Binding :=
  match keys with
  | [] => none
  | k :: rest =>
    match search_node tree k with
    | some p => if rest.length + 1 = 1 then some p else search_key p rest
    | none => none

/-! ## Whole-trie notions used to state the invariants -/

mutual
/-- Every node of the trie rooted at a node, that node first. -/
def Binding.nodes : Binding → List Binding
  | ⟨k, f, vec, m⟩ => ⟨k, f, vec, m⟩ :: nodes_of_vec vec
/-- Every node of the tries rooted at the members of a branch vector. -/
def nodes_of_vec : List Binding → List Binding
  | [] => []
  | c :: cs => c.nodes ++ nodes_of_vec cs
end

/-- The keys of a branch vector are strictly ascending: `vec[i].key < vec[j].key`
whenever `i < j` (so neighbours ascend and no key occurs twice). -/
def keys_ascending (vec : List Binding) : Prop :=
  (vec.map Binding.key).Pairwise (fun a b => a < b)

instance (vec : List Binding) : Decidable (keys_ascending vec) := by
  unfold keys_ascending; infer_instance

/-- A sequence of `bind_key_vec (root, keys, 0, func)` calls, threading the
root through them. -/
def bind_all (tree : Binding) : List (List Nat × Option Nat) → Option Binding
  | [] => some tree
  | (keys, func) :: rest => (bind_key_vec tree keys func).bind (fun t => bind_all t rest)

/-- A leaf: a command and no child. -/
def is_leaf (n : Binding) : Prop := n.func ≠ none ∧ n.vec.length = 0

/-- A prefix node: no command and at least one child. -/
def is_prefix_node (n : Binding) : Prop := n.func = none ∧ n.vec.length ≥ 1

instance (n : Binding) : Decidable (is_leaf n) := by unfold is_leaf; infer_instance

instance (n : Binding) : Decidable (is_prefix_node n) := by unfold is_prefix_node; infer_instance

/-- No bind of the run puts its command on a node that already has children:
when a bind is made, its chord list has no node yet or a node without child. -/
def binds_on_childless (tree : Binding) : List (List Nat × Nat) → Bool
  | [] => true
  | (keys, f) :: rest =>
    (match search_key tree keys with
      | some p => p.vec.length == 0
      | none => true) &&
    (match bind_key_vec tree keys (some f) with
      | some t => binds_on_childless t rest
      | none => false)

/-! ## Dispatch (`completion_scan`, `process_key`)

The keyboard is the list of chords that `getkey` will deliver, in order.
`do_binding_completion` shows the chords typed so far and returns the next
chord of that list; when the list is used up the read never returns, which is
`none`. What is written to the minibuffer is not part of the model. -/

/-- What `completion_scan` leaves behind: the returned `Function`, the chord
list stored in `*keys`, the chords not yet read, and the trie. -/
structure Scan where
  func : Option Nat
  keys : List Nat
  input : List Nat
  bindings : Binding

/-- The test at the head of the loop body of `completion_scan` (bind.c
230-234): `some f` when the loop returns `f` there (`f` is `NULL` when the
chord list has no node), `none` when the node has no command and the loop goes
on to read a chord. -/
def scan_lookup (bindings : Binding) (keys : List Nat) : Option (Option Nat) :=
  match search_key bindings keys with
  | none => some none
  | some p =>
    match p.func with
    | some f => some (some f)
    | none => none

/-- The `for (;;)` loop of `completion_scan` (bind.c 227-238). -/
def completion_scan_loop (bindings : Binding) (keys : List Nat) (input : List Nat) :
    Option Scan :=
  match scan_lookup bindings keys, input with
  | some f, _ => some { func := f, keys := keys, input := input, bindings := bindings }
  | none, [] => none
  | none, c :: rest => completion_scan_loop bindings (keys ++ [c]) rest

/-- The function `completion_scan`: the chord list starts as `[key]`. -/
def completion_scan (bindings : Binding) (key : Nat) (input : List Nat) : Option Scan :=
  completion_scan_loop bindings [key] input

/-- The largest `size_t` (64-bit). -/
def SIZE_MAX : Nat := 2 ^ 64 - 1

/-- The constant `KBD_NOKEY`, `(-1)` converted to `size_t`. -/
def KBD_NOKEY : Nat := SIZE_MAX

/-- The constant `KBD_CTRL` (`01000`). -/
def KBD_CTRL : Nat := 0o1000

/-- The constant `KBD_META` (`02000`). -/
def KBD_META : Nat := 0o2000

/-- The constant `KBD_CANCEL`, `C-g`. -/
def KBD_CANCEL : Nat := KBD_CTRL ||| 103

/-- The C library's `isdigit` on a byte. -/
def isdigit (c : Nat) : Bool := decide (48 ≤ c ∧ c ≤ 57)

/-- What one call of `process_key` did. -/
inductive Dispatch where
  /-- `KBD_NOKEY`: the call returns at once. -/
  | nokey
  /-- `universal_argument (KBD_META, digit)` was called. -/
  | uniarg (digit : Nat)
  /-- The command `f` was called and stored as the last command. -/
  | executed (f : Nat) (keys : List Nat) (input : List Nat)
  /-- No command was called; "`keys` is undefined" was reported. -/
  | undefined (keys : List Nat) (input : List Nat)
deriving DecidableEq

/-- The function `process_key` up to the macro-recording tail (bind.c 303-306),
which reads flags that are not part of the model. -/
def process_key (bindings : Binding) (key : Nat) (input : List Nat) : Option Dispatch :=
  if key = KBD_NOKEY then some Dispatch.nokey
  else if key &&& KBD_META ≠ 0 ∧ isdigit (key &&& 0xff) = true then
    some (Dispatch.uniarg ((key &&& 0xff) - 48))
  else
    match completion_scan bindings key input with
    | none => none
    | some r =>
      match r.func with
      | some f => some (Dispatch.executed f r.keys r.input)
      | none => some (Dispatch.undefined r.keys r.input)

/-- The trie in which only `C-x C-f` is bound, to command 1. -/
def bindings_cx_cf : Binding :=
  { key := 0, func := none, vecmax := 10
    vec := [{ key := 632, func := none, vecmax := 5
              vec := [{ key := 614, func := some 1, vec := [], vecmax := 1 }] }] }

/-! ## Enumeration (`walk_bindings`, `gather_bindings`)

An `astr` is the list of its characters. `chordtostr` is not part of the
sources at hand and is a parameter `cts` of the model. The calls made to the
callback `process` are returned as the list of their arguments `(key, p)`, in
the order of the calls. -/

/-- The string built for the callback (bind.c 428-435): every entry of `keys`
but the first, each followed by a blank, then the name of the key of `p`. -/
def binding_name (cts : Nat → List Char) (keys : List (List Char)) (p : Binding) : List Char :=
  ((keys.drop 1).map (fun a => a ++ [' '])).flatten ++ cts p.key

mutual
/-- The function `walk_bindings_tree`: the name of the key of `tree` is pushed
on `keys` for the time of the loop over the children. -/
def walk_bindings_tree (cts : Nat → List Char) :
    Binding → List (List Char) → List (List Char × Binding)
  | ⟨k, _, vec, _⟩, keys => walk_bindings_vec cts vec (keys ++ [cts k])
/-- The loop of `walk_bindings_tree` over the branch vector (bind.c 423-441). -/
def walk_bindings_vec (cts : Nat → List Char) :
    List Binding → List (List Char) → List (List Char × Binding)
  | [], _ => []
  | p :: ps, keys =>
    (if p.func ≠ none then [(binding_name cts keys p, p)]
      else walk_bindings_tree cts p keys) ++ walk_bindings_vec cts ps keys
end

/-- The function `walk_bindings`: the walk starts with an empty list. -/
def walk_bindings (cts : Nat → List Char) (tree : Binding) : List (List Char × Binding) :=
  walk_bindings_tree cts tree []

/-- The callback `gather_bindings` on the state `g->bindings`, for the queried
function `f`. -/
def gather_bindings (f : Option Nat) (bindings : List Char) (e : List Char × Binding) :
    List Char :=
  if e.2.func = f then
    (if bindings.length > 0 then bindings ++ [',', ' '] else bindings) ++ e.1
  else bindings

/-- The string `g.bindings` that `where-is` builds for the function `f`. -/
def where_is_bindings (cts : Nat → List Char) (tree : Binding) (f : Nat) : List Char :=
  (walk_bindings cts tree).foldl (gather_bindings (some f)) []

/-- The names of the chords of a sequence joined by single blanks. -/
def chord_names (cts : Nat → List Char) (s : List Nat) : List Char :=
  List.intercalate [' '] (s.map cts)

mutual
/-- The chord paths of the calls of `walk_bindings_vec`, `path` being the chords
from the root down to the node that owns the branch vector. -/
def walk_paths_vec : List Binding → List Nat → List (List Nat × Binding)
  | [], _ => []
  | p :: ps, path =>
    (if p.func ≠ none then [(path ++ [p.key], p)]
      else walk_paths_tree p (path ++ [p.key])) ++ walk_paths_vec ps path
/-- The chord paths of the calls of `walk_bindings_tree` on a node below the
root, `path` being the chords from the root down to that node. -/
def walk_paths_tree : Binding → List Nat → List (List Nat × Binding)
  | ⟨_, _, vec, _⟩, path => walk_paths_vec vec path
end

/-- The chord sequence `s` resolves to the node `p`: `search_key` finds `p`,
`p` has a command, and every shorter non-empty beginning of `s` reaches a node
without command. -/
def resolves (tree : Binding) (s : List Nat) (p : Binding) : Prop :=
  search_key tree s = some p ∧ p.func ≠ none ∧
    ∀ m, 0 < m → m < s.length → ∃ q, search_key tree (s.take m) = some q ∧ q.func = none

/-! ## Encoded strings (`estr.c`)

The content of an `astr` is the list of its bytes. -/

/-- The three end-of-line formats `coding_eol_lf`, `coding_eol_crlf` and
`coding_eol_cr`. -/
inductive Eol where
  | lf
  | crlf
  | cr
deriving DecidableEq, Repr

/-- The bytes of an end-of-line format. -/
def Eol.bytes : Eol → List Nat
  | Eol.lf => [10]
  | Eol.crlf => [13, 10]
  | Eol.cr => [13]

/-- The type `estr`: a content and its end-of-line format. -/
structure estr where
  as : List Nat
  eol : Eol

/-- The constant `MAX_EOL_CHECK_COUNT`. -/
def MAX_EOL_CHECK_COUNT : Nat := 3

/-- The `for` loop of `estr_new_astr` (estr.c 46-74), entered with the values
of `i`, `total_eols`, `first_eol` and `es.eol`; the result is `es.eol` when the
loop is left. Each turn moves `i` forward, and `fuel` bounds the number of
turns. -/
def estr_new_astr_loop (as : List Nat) : Nat → Nat → Nat → Bool → Eol → Eol
  | 0, _, _, _, eol => eol
  | fuel + 1, i, total_eols, first_eol, eol =>
    if i < as.length ∧ total_eols < MAX_EOL_CHECK_COUNT then
      let c := as.getD i 0
      if c = 10 ∨ c = 13 then
        let this_eol_type :=
          if c = 10 then Eol.lf
          else if i = as.length - 1 ∨ as.getD (i + 1) 0 ≠ 10 then Eol.cr
          else Eol.crlf
        let j := if this_eol_type = Eol.crlf then i + 1 else i
        if first_eol then
          estr_new_astr_loop as fuel (j + 1) (total_eols + 1) false this_eol_type
        else if eol ≠ this_eol_type then Eol.lf
        else estr_new_astr_loop as fuel (j + 1) (total_eols + 1) first_eol eol
      else estr_new_astr_loop as fuel (i + 1) total_eols first_eol eol
    else eol

/-- The function `estr_new_astr`. The loop makes at most `astr_len (as)` turns. -/
def estr_new_astr (as : List Nat) : estr :=
  { as := as, eol := estr_new_astr_loop as as.length 0 0 true Eol.lf }

/-- The end-of-line occurrences of a content, classified from left to right:
a CR immediately followed by LF is one CRLF occurrence and uses up both bytes,
any other LF is an LF occurrence, any other CR a CR occurrence. -/
def eol_kinds : List Nat → List Eol
  | [] => []
  | [c] => if c = 10 then [Eol.lf] else if c = 13 then [Eol.cr] else []
  | c :: d :: rest =>
    if c = 10 then Eol.lf :: eol_kinds (d :: rest)
    else if c = 13 then
      if d = 10 then Eol.crlf :: eol_kinds rest else Eol.cr :: eol_kinds (d :: rest)
    else eol_kinds (d :: rest)

/-- The marker named by a list of end-of-line occurrences, of which only the
first three count: LF when there is none, LF when one of them differs in kind
from the first, and otherwise the kind of the first. -/
def marker_of_kinds (kinds : List Eol) : Eol :=
  match kinds.take 3 with
  | [] => Eol.lf
  | k :: more => if more.all (fun j => decide (j = k)) then k else Eol.lf

/-- The loop of `estr_new_astr` seen on the list of the end-of-line occurrences
still ahead. -/
def marker_run : List Eol → Nat → Bool → Eol → Eol
  | [], _, _, eol => eol
  | k :: ks, total_eols, first_eol, eol =>
    if total_eols < MAX_EOL_CHECK_COUNT then
      if first_eol then marker_run ks (total_eols + 1) false k
      else if eol ≠ k then Eol.lf
      else marker_run ks (total_eols + 1) first_eol eol
    else eol

/-! ## Line navigation and replacement (`estr.c`) -/

/-- The marker `m` occurs in the content `as` at offset `j`: the bytes of `m`
are the bytes of `as` from `j` on. -/
def occurs_at (m as : List Nat) (j : Nat) : Prop := m <+: as.drop j

instance (m as : List Nat) (j : Nat) : Decidable (occurs_at m as j) := by
  unfold occurs_at; infer_instance

/-- The C library's `memmem`: the offset of the first occurrence of `needle`
in `hay`, or `none` for `NULL`. -/
def memmem : List Nat → List Nat → Option Nat
  | [], needle => if needle.isPrefixOf [] then some 0 else none
  | c :: rest, needle =>
    if needle.isPrefixOf (c :: rest) then some 0 else (memmem rest needle).map (fun j => j + 1)

/-- The descending scan of `memrmem`: the greatest offset `i ≤ n` at which
`needle` occurs in `hay`. -/
def memrmem_scan (hay needle : List Nat) : Nat → Option Nat
  | 0 => if needle.isPrefixOf hay then some 0 else none
  | i + 1 =>
    if needle.isPrefixOf (hay.drop (i + 1)) then some (i + 1) else memrmem_scan hay needle i

/-- Modelled from the spec: `memrmem` (declared in `memrmem.h`) is not among the
sources at hand. It is `memmem` read backwards, "the nearest preceding
occurrence of the marker": the offset of the last occurrence of `needle` that
lies within `hay`, or `none` for `NULL`. -/
def memrmem (hay needle : List Nat) : Option Nat :=
  if needle.length ≤ hay.length then memrmem_scan hay needle (hay.length - needle.length)
  else none

/-- The function `estr_start_of_line`; the haystack is the first `o` bytes. -/
def estr_start_of_line (es : estr) (o : Nat) : Nat :=
  match memrmem (es.as.take o) es.eol.bytes with
  | some prev => prev + es.eol.bytes.length
  | none => 0

/-- The function `estr_end_of_line`; the haystack is the content from `o` on. -/
def estr_end_of_line (es : estr) (o : Nat) : Nat :=
  match memmem (es.as.drop o) es.eol.bytes with
  | some next => o + next
  | none => es.as.length

/-- The function `estr_prev_line`. -/
def estr_prev_line (es : estr) (o : Nat) : Nat :=
  let so := estr_start_of_line es o
  if so = 0 then SIZE_MAX else estr_start_of_line es (so - es.eol.bytes.length)

/-- The function `estr_next_line`. -/
def estr_next_line (es : estr) (o : Nat) : Nat :=
  let eo := estr_end_of_line es o
  if eo = es.as.length then SIZE_MAX else eo + es.eol.bytes.length

/-- Subtraction of `size_t` values, which wraps around below zero. -/
def size_sub (a b : Nat) : Nat := if b ≤ a then a - b else a + (SIZE_MAX + 1) - b

/-- The function `estr_line_len`. -/
def estr_line_len (es : estr) (o : Nat) : Nat :=
  size_sub (estr_end_of_line es o) (estr_start_of_line es o)

/-- The marker occurrence at `j` is the last one that lies entirely before the
offset `o`: it ends at or before `o`, and no occurrence that starts after `j`
does. -/
def last_before (m as : List Nat) (o j : Nat) : Prop :=
  j + m.length ≤ o ∧ occurs_at m as j ∧
    ∀ i, i < o → j < i → i + m.length ≤ o → ¬ occurs_at m as i

instance (m as : List Nat) (o j : Nat) : Decidable (last_before m as o j) := by
  unfold last_before; infer_instance

/-- The marker occurrence at `j` is the first one that starts at or after the
offset `o`. -/
def first_from (m as : List Nat) (o j : Nat) : Prop :=
  o ≤ j ∧ occurs_at m as j ∧ ∀ i, i < j → o ≤ i → ¬ occurs_at m as i

instance (m as : List Nat) (o j : Nat) : Decidable (first_from m as o j) := by
  unfold first_from; infer_instance

/-- Modelled from the spec: `astr_remove` (astr.c is not among the sources)
removes `size` bytes at `pos`. -/
def astr_remove (as : List Nat) (pos size : Nat) : List Nat :=
  as.take pos ++ as.drop (pos + size)

/-- Modelled from the spec: `astr_insert` (astr.c is not among the sources)
makes room for `size` bytes at `pos`, zero-filled. -/
def astr_insert (as : List Nat) (pos size : Nat) : List Nat :=
  as.take pos ++ List.replicate size 0 ++ as.drop pos

/-- Modelled from the spec: `astr_replace_nstr` (astr.c is not among the
sources) overwrites the bytes at `pos` with the bytes `s`. -/
def astr_replace_nstr (as : List Nat) (pos : Nat) (s : List Nat) : List Nat :=
  as.take pos ++ s ++ as.drop (pos + s.length)

/-- The `for` loop of `estr_replace` (estr.c 121-138). The pointer `s` and the
count `len` are the list of the `len` bytes at `s`; `as` is the content of
`es.as`. Each turn shortens `s`, and `fuel` bounds the number of turns. -/
def estr_replace_loop (es_eol ins_eol : List Nat) :
    Nat → List Nat → Nat → List Nat → List Nat
  | 0, as, _, _ => as
  | fuel + 1, as, pos, s =>
    if s.length > 0 then
      let line_len :=
        match memmem s ins_eol with
        | some next => next
        | none => s.length
      let as1 := astr_replace_nstr (astr_insert as pos line_len) pos (s.take line_len)
      let pos1 := pos + line_len
      let s1 := s.drop line_len
      if s1.length > 0 then
        let as2 := astr_replace_nstr (astr_insert as1 pos1 es_eol.length) pos1 es_eol
        estr_replace_loop es_eol ins_eol fuel as2 (pos1 + es_eol.length)
          (s1.drop ins_eol.length)
      else estr_replace_loop es_eol ins_eol fuel as1 pos1 s1
    else as

/-- The function `estr_replace`. The loop makes at most `astr_len (ins.as)`
turns. -/
def estr_replace (es : estr) (pos del : Nat) (ins : estr) : estr :=
  { as := estr_replace_loop es.eol.bytes ins.eol.bytes ins.as.length
      (astr_remove es.as pos del) pos ins.as
    eol := es.eol }

/-- The function `estr_cat`. -/
def estr_cat (es src : estr) : estr := estr_replace es es.as.length 0 src

/-- A content cut at the occurrences of the marker `m` found from left to
right, each search starting after the occurrence found before: the piece up to
the first occurrence, then the pieces of what follows it. At most `fuel`
occurrences are looked for. -/
def split_marker (m : List Nat) : Nat → List Nat → List (List Nat)
  | 0, s => [s]
  | fuel + 1, s =>
    match memmem s m with
    | none => [s]
    | some j => s.take j :: split_marker m fuel (s.drop (j + m.length))

/-- The pieces of a content between the left-to-right, non-overlapping
occurrences of the marker `m`; a content that starts or ends with `m` has an
empty first or last piece. -/
def pieces (m s : List Nat) : List (List Nat) := split_marker m s.length s

/-! ## Redisplay (`term_redisplay.c`)

The terminal is seen through the calls made to it: `term_move`,
`term_clrtoeol`, `term_attrset` and `term_addstr`, in the order of the calls.
A window carries the fields read here; `window_o`, the offset of point in the
window, is a field too. -/

/-- The C library's `isprint` on an `int`, in the "C" locale. -/
def isprint (c : Int) : Bool := decide (32 ≤ c ∧ c ≤ 126)

/-- The function `astr_get` as used by the redisplay: the byte at `i`
converted to `char` (signed) and then to `int`. -/
def astr_get (as : List Nat) (i : Nat) : Int :=
  if as.getD i 0 < 128 then (as.getD i 0 : Int) else (as.getD i 0 : Int) - 256

/-- The function `make_char_printable`; the result of `xasprintf` is the list
of its characters. The tab width is at least 1 (`x % cur_tab_width`), and `x`
and the tab width are within the range of `int`. -/
def make_char_printable (c : Int) (x cur_tab_width : Nat) : List Char :=
  if c = 9 then List.replicate (cur_tab_width - x % cur_tab_width) ' '
  else if isprint c then [Char.ofNat c.toNat]
  else if c = 0 then ['^', '@']
  else if c > 0 ∧ c ≤ 26 then ['^', Char.ofNat (65 + c.toNat - 1)]
  else '\\' :: Nat.toDigits 8 (c % 256).toNat

/-- The type `Region`: the offsets from `start` up to `end`, the latter
excluded. -/
structure Region where
  start : Nat
  finish : Nat

/-- The function `in_region`. -/
def in_region (o x : Nat) (r : Region) : Bool :=
  decide (o + x ≥ r.start ∧ o + x < r.finish)

/-- The fields of a buffer read by the redisplay; the name and the flags are
read by the status line only. -/
structure Buffer where
  text : estr
  tab_width : Nat
  mark : Option Nat
  mark_active : Bool
  name : List Char := []
  modified : Bool := false
  readonly : Bool := false
  autofill : Bool := false
  overwrite : Bool := false
  isearch : Bool := false

/-- The fields of a window read or written by the redisplay; `o` is what
`window_o` returns. -/
structure Window where
  bp : Buffer
  o : Nat
  topdelta : Nat
  start_column : Nat
  ewidth : Nat
  eheight : Nat
  fheight : Nat
  all_displayed : Bool

/-- The two fonts passed to `term_attrset`. -/
inductive Font where
  | FONT_NORMAL
  | FONT_REVERSE
deriving DecidableEq

/-- A call to the terminal. -/
inductive TermOp where
  | move (y x : Nat)
  | clrtoeol
  | attrset (f : Font)
  | addstr (s : List Char)
deriving DecidableEq

/-- The inner `for` loop of `term_redisplay` (term_redisplay.c 221-222) with
`n` characters still to measure: `col` grows by the printed width of the
character at `o + p`. -/
def line_col_loop (as : List Nat) (t o : Nat) : Nat → Nat → Nat → Nat
  | 0, _, col => col
  | n + 1, p, col =>
    line_col_loop as t o n (p + 1)
      (col + (make_char_printable (astr_get as (o + p)) col t).length)

/-- The value of `col` after the inner loop of `term_redisplay` run from `lp`:
the printed width, from column 0, of the characters `lp ≤ p < lineo` of the
line that starts at `o`. -/
def point_col (as : List Nat) (t o lineo lp : Nat) : Nat :=
  line_col_loop as t o (lineo - lp) lp 0

/-- The test `col >= ew - 1 || (lp / (ew / 3)) + 2 < lineo / (ew / 3)` of
`term_redisplay`, on `size_t` values; `none` is the division by zero that the
second operand makes when it is evaluated with `ew / 3 = 0`. -/
def scroll_test (as : List Nat) (t o lineo ew lp : Nat) : Option Bool :=
  if point_col as t o lineo lp ≥ size_sub ew 1 then some true
  else if ew / 3 = 0 then none
  else some (decide (lp / (ew / 3) + 2 < lineo / (ew / 3)))

/-- The outer `for` loop of `term_redisplay` (term_redisplay.c 218-232), `lp`
running down to 0; the result is the start column and the final `col`. -/
def start_column_loop (as : List Nat) (t o lineo ew : Nat) : Nat → Nat → Option (Nat × Nat)
  | 0, lastcol =>
    match scroll_test as t o lineo ew 0 with
    | none => none
    | some true => some (0 + 1, lastcol)
    | some false => some (0, point_col as t o lineo 0)
  | lp + 1, lastcol =>
    match scroll_test as t o lineo ew (lp + 1) with
    | none => none
    | some true => some (lp + 1 + 1, lastcol)
    | some false => start_column_loop as t o lineo ew lp (point_col as t o lineo (lp + 1))

/-- The index of point on its line, `lineo` in `term_redisplay`. -/
def window_lineo (wp : Window) : Nat :=
  size_sub wp.o (estr_start_of_line wp.bp.text wp.o)

/-- The offset of the start of the line of point, `o` in `term_redisplay` after
`o -= lineo`. -/
def window_line_o (wp : Window) : Nat := size_sub wp.o (window_lineo wp)

/-- The first part of `term_redisplay` (term_redisplay.c 209-232) for the
current window `wp`: the window with its start column set, and `col`; `none`
is a division by zero, or the loop entered with `lineo = SIZE_MAX`, which
leaves it at once and `col` without a value. -/
def term_redisplay_scroll (wp : Window) : Option (Window × Nat) :=
  if window_lineo wp = SIZE_MAX then none
  else
    (start_column_loop wp.bp.text.as wp.bp.tab_width (window_line_o wp) (window_lineo wp)
        wp.ewidth (window_lineo wp) 0).map
      (fun r => ({ wp with start_column := r.1 }, r.2))

/-- A window of height 3 on a buffer with tab width 8, no mark and the LF
marker, with point at `o`. -/
def window_on (as : List Nat) (o ewidth : Nat) : Window :=
  { bp := { text := { as := as, eol := Eol.lf }, tab_width := 8, mark := none,
            mark_active := false }
    o := o, topdelta := 0, start_column := 0, ewidth := ewidth, eheight := 3, fheight := 4,
    all_displayed := false }

/-- The font chosen at column index `i` of the line at `o`. -/
def line_font (highlight : Bool) (o i : Nat) (r : Region) : Font :=
  if highlight && in_region o i r then Font.FONT_REVERSE else Font.FONT_NORMAL

/-- The body loop of `draw_line` (term_redisplay.c 62-72) with `n` characters
of the line still ahead of `i`: the calls made and the final `x`. -/
def draw_line_loop (wp : Window) (o : Nat) (r : Region) (highlight : Bool) (t : Nat) :
    Nat → Nat → Nat → List TermOp × Nat
  | 0, i, x => ([TermOp.attrset (line_font highlight o i r)], x)
  | n + 1, i, x =>
    if x ≥ wp.ewidth then ([TermOp.attrset (line_font highlight o i r)], x)
    else
      let s := make_char_printable (astr_get wp.bp.text.as (o + i)) x t
      let rest := draw_line_loop wp o r highlight t n (i + 1) (x + s.length)
      (TermOp.attrset (line_font highlight o i r) :: TermOp.addstr s :: rest.1, rest.2)

/-- The function `draw_line`, for a terminal of width `term_width`. -/
def draw_line (line startcol : Nat) (wp : Window) (o : Nat) (r : Region) (highlight : Bool)
    (cur_tab_width term_width : Nat) : List TermOp :=
  let body := draw_line_loop wp o r highlight cur_tab_width
    (estr_line_len wp.bp.text o - startcol) startcol 0
  [TermOp.move line 0] ++ body.1 ++
    (if body.2 ≥ term_width then
      [TermOp.move line (size_sub term_width 1), TermOp.attrset Font.FONT_NORMAL,
        TermOp.addstr ['$']]
    else
      [TermOp.addstr (List.replicate (Int.natAbs ((wp.ewidth : Int) - (body.2 : Int))) ' ')]) ++
    [TermOp.attrset Font.FONT_NORMAL]

/-- Modelled from the spec: `region_new` is not among the sources at hand; the
region is the span between the two offsets. -/
def region_new (o1 o2 : Nat) : Region := { start := min o1 o2, finish := max o1 o2 }

/-- The function `calculate_highlight_region`; `none` is the result `false`.
Whether `wp` is `cur_wp` and the value of `highlight-nonselected-windows` are
given. -/
def calculate_highlight_region (wp : Window) (is_cur highlight_nonselected : Bool) :
    Option Region :=
  match wp.bp.mark with
  | none => none
  | some m =>
    if (!is_cur && !highlight_nonselected) || !wp.bp.mark_active then none
    else some (region_new wp.o m)

/-- The first loop of `draw_window` (term_redisplay.c 107-110), `i` lines
still to go back from `o`; `none` is a failed assertion. -/
def draw_window_first_line (text : estr) : Nat → Nat → Option Nat
  | 0, o => some o
  | i + 1, o =>
    if o > 0 then
      if estr_prev_line text o ≠ SIZE_MAX then
        draw_window_first_line text i (estr_prev_line text o)
      else none
    else some o

/-- One turn of the second loop of `draw_window` (term_redisplay.c 116-132),
for the screen line `i` and the offset `o`: the calls made and the next `o`. -/
def draw_window_row (wp : Window) (r : Region) (highlight : Bool) (t term_width : Nat)
    (i o : Nat) : List TermOp × Nat :=
  if o = SIZE_MAX then ([TermOp.move i 0, TermOp.clrtoeol], o)
  else
    ([TermOp.move i 0, TermOp.clrtoeol] ++
        draw_line i wp.start_column wp o r highlight t term_width ++
        (if wp.start_column > 0 then [TermOp.move i 0, TermOp.addstr ['$']] else []),
      estr_next_line wp.bp.text o)

/-- The second loop of `draw_window`, `n` screen lines still to draw from the
screen line `i`: the calls of each turn, and the final `o`. -/
def draw_window_rows (wp : Window) (r : Region) (highlight : Bool) (t term_width : Nat) :
    Nat → Nat → Nat → List (List TermOp) × Nat
  | 0, _, o => ([], o)
  | n + 1, i, o =>
    let row := draw_window_row wp r highlight t term_width i o
    let rest := draw_window_rows wp r highlight t term_width n (i + 1) row.2
    (row.1 :: rest.1, rest.2)

/-- The function `draw_window`: the window with `all_displayed` set and the
calls made, or `none` when the assertion of the first loop fails. The size of
the buffer is the length of its text. -/
def draw_window (topline : Nat) (wp : Window) (is_cur highlight_nonselected : Bool)
    (term_width : Nat) : Option (Window × List TermOp) :=
  let hr := calculate_highlight_region wp is_cur highlight_nonselected
  match draw_window_first_line wp.bp.text wp.topdelta
      (estr_start_of_line wp.bp.text wp.o) with
  | none => none
  | some o =>
    let rows := draw_window_rows wp (hr.getD { start := 0, finish := 0 }) hr.isSome
      wp.bp.tab_width term_width wp.eheight topline o
    some ({ wp with all_displayed := decide (rows.2 ≥ wp.bp.text.as.length) }, rows.1.flatten)

/-- The offset `o` at the `k`-th turn of the second loop of `draw_window`
entered with the offset `o`. -/
def row_offset (text : estr) : Nat → Nat → Nat
  | 0, o => o
  | k + 1, o => row_offset text k (if o = SIZE_MAX then o else estr_next_line text o)

/-- The number of characters that the calls `ops` write with `term_addstr`:
how far they move the cursor along its row. -/
def written_width : List TermOp → Nat
  | [] => 0
  | TermOp.addstr s :: ops => s.length + written_width ops
  | _ :: ops => written_width ops

/-! ## Reference notions: rendering of a byte, lines, typed sequences -/

/-- Reference for the rendering of a byte value over 26 and outside the
printable range: the octal digits of `b < 256`, most significant first,
without leading zeros. -/
def octal_of_byte (b : Nat) : List Char :=
  (if 64 ≤ b then [Char.ofNat (48 + b / 64)] else []) ++
    (if 8 ≤ b then [Char.ofNat (48 + b / 8 % 8)] else []) ++ [Char.ofNat (48 + b % 8)]

/-- Reference rendering of the byte value `b` at column `x` with tab width
`w`: for a tab `w - x mod w` blanks, for a printable byte the byte, for NUL
"^@", for the other bytes from 1 to 26 a caret and the letter `'A' + b - 1`,
for every other byte a backslash and its octal digits. -/
def make_char_printable_ref (b x w : Nat) : List Char :=
  if b = 9 then List.replicate (w - x % w) ' '
  else if 32 ≤ b ∧ b ≤ 126 then [Char.ofNat b]
  else if b = 0 then ['^', '@']
  else if 1 ≤ b ∧ b ≤ 26 then ['^', Char.ofNat (65 + b - 1)]
  else '\\' :: octal_of_byte b

/-- The number of lines before the line of the offset `o`: the number of
marker occurrences that lie entirely before `o`, those at a `j` with
`j + strlen (eol) ≤ o`, that is `j < o + 1 - strlen (eol)`. -/
def lines_before (es : estr) (o : Nat) : Nat :=
  (List.range (o + 1 - es.eol.bytes.length)).countP
    (fun j => decide (occurs_at es.eol.bytes es.as j))

/-- The offset `r` is the start of a line: 0, or the offset just after a
marker occurrence. -/
def line_start (es : estr) (r : Nat) : Prop :=
  r = 0 ∨ ∃ j, j < r ∧ occurs_at es.eol.bytes es.as j ∧ r = j + es.eol.bytes.length

instance (es : estr) (r : Nat) : Decidable (line_start es r) := by
  unfold line_start; infer_instance

/-- Typing the chord sequence `s` invokes the command `f`: `completion_scan`,
given the first chord of `s` and the others as the chords to be read, reads
them all and returns `f`, the chord list it leaves being `s`. -/
def invokes (bindings : Binding) (s : List Nat) (f : Nat) : Prop :=
  match s with
  | [] => False
  | k :: rest =>
    (completion_scan bindings k rest).map (fun r => (r.func, r.keys, r.input)) =
      some (some f, k :: rest, [])

instance (bindings : Binding) (s : List Nat) (f : Nat) : Decidable (invokes bindings s f) := by
  unfold invokes
  cases s with
  | nil => exact isFalse (fun h => h)
  | cons k rest => exact inferInstanceAs (Decidable (_ = _))

/-! ## Status line (`term_redisplay.c`)

The calls `window_top_visible`, `window_bottom_visible`, `offset_to_point` and
`get_goalc_bp` are not among the sources at hand; what they return is given to
the functions that use it. -/

/-- The conversion `%Ns` of `printf`: the string set to the right in a field
of `n` characters. -/
def pad_left (n : Nat) (s : List Char) : List Char := List.replicate (n - s.length) ' ' ++ s

/-- The conversion `%-Ns` of `printf`: the string set to the left in a field
of `n` characters. -/
def pad_right (n : Nat) (s : List Char) : List Char := s ++ List.replicate (n - s.length) ' '

/-- The function `make_mode_line_flags`. -/
def make_mode_line_flags (wp : Window) : List Char :=
  if wp.bp.modified && wp.bp.readonly then ['%', '*']
  else if wp.bp.modified then ['*', '*']
  else if wp.bp.readonly then ['%', '%']
  else ['-', '-']

/-- The function `make_screen_pos`. What `window_top_visible` and
`window_bottom_visible` return (they are not among the sources at hand) is
given as `tv` and `bv`; the size of the buffer is the length of its text.
`window_o (wp) / get_buffer_size (bp)` is a division of `size_t` values, made
before the conversion to `float`; `none` is the division by zero. The
conversions to `float` and back to `int` are exact as long as the quotient is
below `2 ^ 24`, as it is for an offset within the buffer. -/
def make_screen_pos (wp : Window) (tv bv : Bool) : Option (List Char) :=
  if tv && bv then some ['A', 'l', 'l']
  else if tv then some ['T', 'o', 'p']
  else if bv then some ['B', 'o', 't']
  else if wp.bp.text.as.length = 0 then none
  else some (pad_left 2 (Nat.toDigits 10 (wp.o / wp.bp.text.as.length * 100)) ++ ['%'])

/-- The local `eol_type` of `draw_status_line` (term_redisplay.c 176-182): it
is chosen by the marker of the text of `cur_bp`. -/
def eol_type (cur_bp : Buffer) : List Char :=
  if cur_bp.text.eol = Eol.cr then ['(', 'M', 'a', 'c', ')']
  else if cur_bp.text.eol = Eol.crlf then ['(', 'D', 'O', 'S', ')']
  else [':']

/-- The string `as` built by `draw_status_line` (term_redisplay.c 186-199).
`pt_n` and `goalc` are what `offset_to_point` and `get_goalc_bp` give for the
window (they are not among the sources at hand), `recording` is
`thisflag & FLAG_DEFINING_MACRO`. -/
def status_line_text (wp : Window) (cur_bp : Buffer) (pos : List Char) (pt_n goalc : Nat)
    (recording : Bool) : List Char :=
  ['-', '-'] ++ eol_type cur_bp ++ pad_left 2 (make_mode_line_flags wp) ++ [' ', ' '] ++
    pad_right 15 wp.bp.name ++ [' ', ' ', ' '] ++ pos ++ [' '] ++
    pad_right 9 (['('] ++ Nat.toDigits 10 (pt_n + 1) ++ [','] ++ Nat.toDigits 10 goalc ++ [')']) ++
    [' ', '(', 'F', 'u', 'n', 'd', 'a', 'm', 'e', 'n', 't', 'a', 'l'] ++
    (if wp.bp.autofill then [' ', 'F', 'i', 'l', 'l'] else []) ++
    (if wp.bp.overwrite then [' ', 'O', 'v', 'w', 'r', 't'] else []) ++
    (if recording then [' ', 'D', 'e', 'f'] else []) ++
    (if wp.bp.isearch then [' ', 'I', 's', 'e', 'a', 'r', 'c', 'h'] else []) ++ [')']

/-- The function `draw_status_line` for the window `wp`, `cur_bp` being the
buffer of the focused window: the calls made to the terminal; `none` is the
division by zero of `make_screen_pos`. -/
def draw_status_line (line : Nat) (wp : Window) (cur_bp : Buffer) (tv bv : Bool)
    (pt_n goalc : Nat) (recording : Bool) : Option (List TermOp) :=
  match make_screen_pos wp tv bv with
  | none => none
  | some pos =>
    some ([TermOp.attrset Font.FONT_REVERSE, TermOp.move line 0] ++
      List.replicate wp.ewidth (TermOp.addstr ['-']) ++
      [TermOp.move line 0,
        TermOp.addstr (status_line_text wp cur_bp pos pt_n goalc recording),
        TermOp.attrset Font.FONT_NORMAL])

/-- A buffer named "a" of 100 empty lines ended by CR, and a window of height 3
and width 3 on it with point at offset 50, neither end of the buffer in view. -/
def window_cr_sample : Window :=
  { bp := { text := { as := List.replicate 100 13, eol := Eol.cr }, tab_width := 8,
            mark := none, mark_active := false, name := ['a'] }
    o := 50, topdelta := 1, start_column := 0, ewidth := 3, eheight := 3, fheight := 4,
    all_displayed := false }

/-- A buffer named "b" with the text "x" and the LF marker. -/
def buffer_lf_sample : Buffer :=
  { text := { as := [120], eol := Eol.lf }, tab_width := 8, mark := none,
    mark_active := false, name := ['b'] }

/-! ## Numeric argument (`universal_argument`, funcs.c)

The keyboard is the list of the keys that `do_binding_completion` returns, as
for the dispatch. -/

/-- The locals of `universal_argument` and the flag `FLAG_UNIARG_EMPTY` of
`thisflag`. -/
structure Uniarg where
  i : Nat
  arg : Int
  sgn : Int
  as : List Char
  uniarg_empty : Bool

/-- What `universal_argument` leaves behind: whether `ok` is `leT`, the
locals, and the keys not read, a key given back by `ungetkey` first. -/
structure UniargEnd where
  ok : Bool
  st : Uniarg
  input : List Nat

/-- The `for (;;)` loop of `universal_argument` (funcs.c 374-429) on the keys
that `do_binding_completion` returns, in order; when they are used up the
read never returns, which is `none`. `arg` is not bounded here. -/
def universal_argument_loop : List Nat → Uniarg → Option UniargEnd
  | [], _ => none
  | key :: rest, st =>
    if key = KBD_CANCEL then some { ok := false, st := st, input := rest }
    else if isdigit (key &&& 0xff) = true then
      universal_argument_loop rest
        { i := st.i + 1
          arg := if st.i = 0 then (((key &&& 0xff) - 48 : Nat) : Int)
            else st.arg * 10 + (((key &&& 0xff) - 48 : Nat) : Int)
          sgn := st.sgn
          as := (if key &&& KBD_META ≠ 0 then
              (if st.as.length > 0 then st.as ++ [' '] else st.as) ++ ['E', 'S', 'C']
            else st.as) ++ ' ' :: Nat.toDigits 10 ((key &&& 0xff) - 48)
          uniarg_empty := false }
    else if key = KBD_CTRL ||| 117 then
      if st.i = 0 then
        universal_argument_loop rest
          { st with as := st.as ++ ['C', '-', 'u'], arg := st.arg * 4 }
      else some { ok := true, st := { st with as := st.as ++ ['C', '-', 'u'] }, input := rest }
    else if key = 45 ∧ st.i = 0 then
      if st.sgn > 0 then
        universal_argument_loop rest
          { st with sgn := -st.sgn, as := st.as ++ [' ', '-'], arg := 1, uniarg_empty := false }
      else universal_argument_loop rest st
    else some { ok := true, st := st, input := key :: rest }

/-- The function `universal_argument`, called with `lastkey` as the last key
read and `input` as the keys still to come: `lastkey` is pushed back and read
first. -/
def universal_argument (lastkey : Nat) (input : List Nat) : Option UniargEnd :=
  universal_argument_loop (lastkey :: input)
    { i := 0, arg := 1, sgn := 1, as := [], uniarg_empty := true }

/-- The value stored in `last_uniarg` at the end of `universal_argument`, when
`ok` is `leT`. -/
def UniargEnd.last_uniarg (r : UniargEnd) : Option Int :=
  if r.ok then some (r.st.arg * r.st.sgn) else none

/-! ## Basic facts about the child vector -/

theorem search_node_eq (tree : Binding) (k : Nat) :
    search_node tree k = tree.vec.find? (fun c => decide (c.key = k)) := rfl

theorem find_insert_sorted_self (p : Binding) (vec : List Binding)
    (h : vec.find? (fun c => decide (c.key = p.key)) = none) :
    (insert_sorted p vec).find? (fun c => decide (c.key = p.key)) = some p := by
  induction vec with
  | nil => simp [insert_sorted]
  | cons c cs ih =>
    have hc : ¬ c.key = p.key := by
      intro hk
      simp [List.find?, hk] at h
    have hcs : cs.find? (fun c => decide (c.key = p.key)) = none := by
      simpa [List.find?, hc] using h
    by_cases hgt : c.key > p.key
    · simp [insert_sorted, hgt]
    · simp [insert_sorted, hgt, List.find?, hc, ih hcs]

theorem find_insert_sorted_other (p : Binding) (k : Nat) (vec : List Binding)
    (h : p.key ≠ k) :
    (insert_sorted p vec).find? (fun c => decide (c.key = k)) =
      vec.find? (fun c => decide (c.key = k)) := by
  induction vec with
  | nil => simp [insert_sorted, h]
  | cons c cs ih =>
    by_cases hgt : c.key > p.key
    · simp [insert_sorted, hgt, List.find?, h]
    · simp only [insert_sorted, if_neg hgt]
      by_cases hc : c.key = k
      · simp [List.find?, hc]
      · simp [List.find?, hc, ih]

theorem find_replace_node_self (q s : Binding) (k : Nat) (vec : List Binding)
    (hq : q.key = k) (h : vec.find? (fun c => decide (c.key = k)) = some s) :
    (replace_node q k vec).find? (fun c => decide (c.key = k)) = some q := by
  induction vec with
  | nil => simp at h
  | cons c cs ih =>
    by_cases hc : c.key = k
    · simp [replace_node, hc, List.find?, hq]
    · have hcs : cs.find? (fun c => decide (c.key = k)) = some s := by
        simpa [List.find?, hc] using h
      simp [replace_node, hc, List.find?, ih hcs]

theorem find_replace_node_other (q : Binding) (k k' : Nat) (vec : List Binding)
    (hq : q.key = k) (h : k ≠ k') :
    (replace_node q k vec).find? (fun c => decide (c.key = k')) =
      vec.find? (fun c => decide (c.key = k')) := by
  induction vec with
  | nil => simp [replace_node]
  | cons c cs ih =>
    by_cases hc : c.key = k
    · have hc' : ¬ c.key = k' := fun e => h (hc.symm.trans e)
      have hq' : ¬ q.key = k' := fun e => h (hq.symm.trans e)
      simp [replace_node, hc, List.find?, hc', hq']
      subst hc
      simp [hc', hq']
    · simp only [replace_node, if_neg hc]
      by_cases hc' : c.key = k'
      · simp [List.find?, hc']
      · simp [List.find?, hc', ih]

/-- The order of the source, `add_node (tree, p)` first and the writes through
`p` afterwards, gives the branch vector in which the finished node is inserted:
the order used by `bind_key_vec` above. -/
theorem replace_node_insert_sorted (p q : Binding) (k : Nat) (vec : List Binding)
    (hp : p.key = k) (hq : q.key = k)
    (h : vec.find? (fun c => decide (c.key = k)) = none) :
    replace_node q k (insert_sorted p vec) = insert_sorted q vec := by
  induction vec with
  | nil => simp [insert_sorted, replace_node, hp]
  | cons c cs ih =>
    have hc : ¬ c.key = k := by
      intro hk
      simp [List.find?, hk] at h
    have hcs : cs.find? (fun c => decide (c.key = k)) = none := by
      simpa [List.find?, hc] using h
    by_cases hgt : c.key > k
    · simp [insert_sorted, replace_node, hp, hq, hgt]
    · simp [insert_sorted, replace_node, hp, hq, hgt, hc, ih hcs]

theorem search_node_key (tree s : Binding) (k : Nat) (h : search_node tree k = some s) :
    s.key = k := by
  have := List.find?_some h
  simpa using this

/-- A bind never changes the key stored in the node it is applied to. -/
theorem bind_key_vec_key (keys : List Nat) (func : Option Nat) :
    ∀ tree t : Binding, bind_key_vec tree keys func = some t → t.key = tree.key := by
  cases keys with
  | nil => intro tree t h; simp [bind_key_vec] at h
  | cons k rest =>
    intro tree t h
    unfold bind_key_vec at h
    cases hs : search_node tree k with
    | none =>
      simp only [hs] at h
      split at h
      · cases h; rfl
      · simp only [Option.map_eq_some'] at h
        obtain ⟨q, _, rfl⟩ := h
        rfl
    | some s =>
      simp only [hs] at h
      split at h
      · simp only [Option.map_eq_some'] at h
        obtain ⟨q, _, rfl⟩ := h
        rfl
      · cases h; rfl

/-- Binding a non-empty chord list always succeeds, and the bound list then
resolves to a node carrying the bound function. -/
theorem bind_key_vec_search (keys : List Nat) (func : Option Nat) :
    ∀ tree : Binding, keys ≠ [] →
      ∃ t, bind_key_vec tree keys func = some t ∧
        ∃ p, search_key t keys = some p ∧ p.func = func := by
  induction keys with
  | nil => intro tree h; exact absurd rfl h
  | cons k rest ih =>
    intro tree _
    unfold bind_key_vec
    cases hs : search_node tree k with
    | none =>
      by_cases hr : rest = []
      · subst hr
        simp only [List.length_nil, Nat.zero_add, if_true]
        refine ⟨_, rfl, ?_⟩
        refine ⟨{ key := k, func := func, vec := [], vecmax := 1 }, ?_, rfl⟩
        have hf := find_insert_sorted_self
          { key := k, func := func, vec := [], vecmax := 1 } tree.vec hs
        simp [search_key, search_node_eq, add_node, node_new, hf]
      · have hlen : ¬ rest.length + 1 = 1 := by
          simpa using hr
        obtain ⟨q, hq, p, hp, hpf⟩ := ih { node_new 5 with key := k } hr
        have hqk : q.key = k := bind_key_vec_key rest func _ q hq
        refine ⟨add_node tree q, by simp [hlen, hq], p, ?_, hpf⟩
        have hf := find_insert_sorted_self q tree.vec (by rw [hqk]; exact hs)
        rw [hqk] at hf
        simp [search_key, search_node_eq, add_node, hf, hlen, hp]
    | some s =>
      have hsk : s.key = k := search_node_key tree s k hs
      by_cases hr : rest = []
      · subst hr
        simp only [List.length_nil, Nat.zero_add, gt_iff_lt, Nat.lt_irrefl, if_false]
        refine ⟨_, rfl, { s with func := func }, ?_, rfl⟩
        have hf := find_replace_node_self { s with func := func } s k tree.vec hsk hs
        simp [search_key, search_node_eq, hf]
      · have hlen : rest.length + 1 > 1 := by
          have : rest.length ≠ 0 := by simpa using hr
          omega
        have hlen' : ¬ rest.length + 1 = 1 := by omega
        obtain ⟨q, hq, p, hp, hpf⟩ := ih s hr
        have hqk : q.key = k := (bind_key_vec_key rest func _ q hq).trans hsk
        refine ⟨{ tree with vec := replace_node q k tree.vec }, by simp [hlen, hq], p, ?_, hpf⟩
        have hf := find_replace_node_self q s k tree.vec hqk hs
        simp [search_key, search_node_eq, hf, hlen', hp]

/-! ## Facts about the nodes of a trie -/

theorem nodes_eq (t : Binding) : t.nodes = t :: nodes_of_vec t.vec := by
  cases t; simp [Binding.nodes]

theorem mem_nodes_self (t : Binding) : t ∈ t.nodes := by
  rw [nodes_eq]; exact List.mem_cons_self _ _

theorem mem_nodes_of_vec (n : Binding) (vec : List Binding) :
    n ∈ nodes_of_vec vec ↔ ∃ c ∈ vec, n ∈ c.nodes := by
  induction vec with
  | nil => simp [nodes_of_vec]
  | cons c cs ih => simp [nodes_of_vec, ih]

/-- A property holds at every node of a trie iff it holds at the root and at
every node of every child. -/
theorem forall_nodes_iff (P : Binding → Prop) (t : Binding) :
    (∀ n ∈ t.nodes, P n) ↔ P t ∧ ∀ c ∈ t.vec, ∀ n ∈ c.nodes, P n := by
  rw [nodes_eq]
  constructor
  · intro h
    refine ⟨h t (List.mem_cons_self _ _), fun c hc n hn => ?_⟩
    exact h n (List.mem_cons_of_mem _ ((mem_nodes_of_vec n t.vec).2 ⟨c, hc, hn⟩))
  · rintro ⟨h0, h1⟩ n hn
    rcases List.mem_cons.1 hn with rfl | hn
    · exact h0
    · obtain ⟨c, hc, hn⟩ := (mem_nodes_of_vec n t.vec).1 hn
      exact h1 c hc n hn

theorem mem_insert_sorted (p c : Binding) (vec : List Binding) :
    c ∈ insert_sorted p vec ↔ c = p ∨ c ∈ vec := by
  induction vec with
  | nil => simp [insert_sorted]
  | cons d ds ih =>
    by_cases hgt : d.key > p.key
    · simp [insert_sorted, hgt]
    · simp only [insert_sorted, if_neg hgt, List.mem_cons, ih]
      tauto

theorem mem_replace_node (q c : Binding) (k : Nat) (vec : List Binding)
    (h : c ∈ replace_node q k vec) : c = q ∨ c ∈ vec := by
  induction vec with
  | nil => simp [replace_node] at h
  | cons d ds ih =>
    by_cases hd : d.key = k
    · simp only [replace_node, if_pos hd, List.mem_cons] at h
      rcases h with h | h
      · exact Or.inl h
      · exact Or.inr (List.mem_cons_of_mem _ h)
    · simp only [replace_node, if_neg hd, List.mem_cons] at h
      rcases h with h | h
      · exact Or.inr (h ▸ List.mem_cons_self _ _)
      · rcases ih h with h | h
        · exact Or.inl h
        · exact Or.inr (List.mem_cons_of_mem _ h)

theorem map_key_replace_node (q : Binding) (k : Nat) (vec : List Binding) (hq : q.key = k) :
    (replace_node q k vec).map Binding.key = vec.map Binding.key := by
  induction vec with
  | nil => simp [replace_node]
  | cons d ds ih =>
    by_cases hd : d.key = k
    · simp [replace_node, hd, hq]
    · simp [replace_node, hd, ih]

theorem keys_ascending_insert_sorted (p : Binding) (vec : List Binding)
    (hv : keys_ascending vec)
    (hp : vec.find? (fun c => decide (c.key = p.key)) = none) :
    keys_ascending (insert_sorted p vec) := by
  unfold keys_ascending at *
  induction vec with
  | nil => simp [insert_sorted]
  | cons d ds ih =>
    have hd : ¬ d.key = p.key := by
      intro hk
      simp [List.find?, hk] at hp
    have hds : ds.find? (fun c => decide (c.key = p.key)) = none := by
      simpa [List.find?, hd] using hp
    simp only [List.map_cons, List.pairwise_cons] at hv
    by_cases hgt : d.key > p.key
    · simp only [insert_sorted, if_pos hgt, List.map_cons, List.pairwise_cons]
      refine ⟨?_, hv.1, hv.2⟩
      intro a ha
      rcases List.mem_cons.1 ha with rfl | ha
      · exact hgt
      · exact lt_trans hgt (hv.1 a ha)
    · simp only [insert_sorted, if_neg hgt, List.map_cons, List.pairwise_cons]
      refine ⟨?_, ih hv.2 hds⟩
      intro a ha
      obtain ⟨c, hc, rfl⟩ := List.mem_map.1 ha
      rcases (mem_insert_sorted p c ds).1 hc with rfl | hc
      · omega
      · exact hv.1 _ (List.mem_map.2 ⟨c, hc, rfl⟩)

/-- One bind keeps every branch vector of the trie strictly ascending. -/
theorem bind_key_vec_ascending (keys : List Nat) (func : Option Nat) :
    ∀ tree t : Binding, (∀ n ∈ tree.nodes, keys_ascending n.vec) →
      bind_key_vec tree keys func = some t → ∀ n ∈ t.nodes, keys_ascending n.vec := by
  induction keys with
  | nil => intro tree t _ h; simp [bind_key_vec] at h
  | cons k rest ih =>
    intro tree t hinv h
    rw [forall_nodes_iff] at hinv ⊢
    unfold bind_key_vec at h
    cases hs : search_node tree k with
    | none =>
      simp only [hs] at h
      split at h
      · cases h
        refine ⟨keys_ascending_insert_sorted _ _ hinv.1 hs, ?_⟩
        intro c hc
        rcases (mem_insert_sorted _ c tree.vec).1 hc with rfl | hc
        · intro n hn
          simp only [nodes_eq, node_new, nodes_of_vec, List.mem_singleton] at hn
          subst hn
          simp [keys_ascending]
        · exact hinv.2 c hc
      · simp only [Option.map_eq_some'] at h
        obtain ⟨q, hq, rfl⟩ := h
        have hqk : q.key = k := bind_key_vec_key rest func _ q hq
        refine ⟨keys_ascending_insert_sorted _ _ hinv.1 (by rw [hqk]; exact hs), ?_⟩
        intro c hc
        rcases (mem_insert_sorted _ c tree.vec).1 hc with rfl | hc
        · refine ih _ c ?_ hq
          intro n hn
          simp only [nodes_eq, node_new, nodes_of_vec, List.mem_singleton] at hn
          subst hn
          simp [keys_ascending]
        · exact hinv.2 c hc
    | some s =>
      have hsk : s.key = k := search_node_key tree s k hs
      have hsm : s ∈ tree.vec := List.mem_of_find?_eq_some hs
      simp only [hs] at h
      split at h
      · simp only [Option.map_eq_some'] at h
        obtain ⟨q, hq, rfl⟩ := h
        have hqk : q.key = k := (bind_key_vec_key rest func _ q hq).trans hsk
        refine ⟨?_, ?_⟩
        · show keys_ascending (replace_node q k tree.vec)
          unfold keys_ascending
          rw [map_key_replace_node q k tree.vec hqk]
          exact hinv.1
        · intro c hc
          rcases mem_replace_node q c k tree.vec hc with rfl | hc
          · exact ih s c (hinv.2 s hsm) hq
          · exact hinv.2 c hc
      · cases h
        refine ⟨?_, ?_⟩
        · show keys_ascending (replace_node _ k tree.vec)
          unfold keys_ascending
          rw [map_key_replace_node { s with func := func } k tree.vec hsk]
          exact hinv.1
        · intro c hc
          rcases mem_replace_node _ c k tree.vec hc with rfl | hc
          · have := hinv.2 s hsm
            rw [forall_nodes_iff] at this ⊢
            exact this
          · exact hinv.2 c hc

/-- A run of binds with non-empty chord lists always succeeds. -/
theorem bind_all_some (binds : List (List Nat × Option Nat)) :
    ∀ tree : Binding, (∀ b ∈ binds, b.1 ≠ []) → ∃ t, bind_all tree binds = some t := by
  induction binds with
  | nil => intro tree _; exact ⟨tree, rfl⟩
  | cons b bs ih =>
    intro tree hb
    obtain ⟨keys, func⟩ := b
    obtain ⟨t, ht, _⟩ := bind_key_vec_search keys func tree (hb (keys, func) (List.mem_cons_self _ _))
    obtain ⟨u, hu⟩ := ih t (fun b hb' => hb b (List.mem_cons_of_mem _ hb'))
    exact ⟨u, by simp [bind_all, ht, hu]⟩

/-- A property of tries kept by every single bind is kept by a run of binds. -/
theorem bind_all_induction (P : Binding → Prop)
    (hstep : ∀ tree keys func t, P tree → bind_key_vec tree keys func = some t → P t)
    (binds : List (List Nat × Option Nat)) :
    ∀ tree t : Binding, P tree → bind_all tree binds = some t → P t := by
  induction binds with
  | nil => intro tree t hP h; simp only [bind_all, Option.some.injEq] at h; exact h ▸ hP
  | cons b bs ih =>
    intro tree t hP h
    obtain ⟨keys, func⟩ := b
    simp only [bind_all, Option.bind_eq_some] at h
    obtain ⟨u, hu, ht⟩ := h
    exact ih u t (hstep tree keys func u hP hu) ht

theorem length_insert_sorted (p : Binding) (vec : List Binding) :
    (insert_sorted p vec).length = vec.length + 1 := by
  induction vec with
  | nil => simp [insert_sorted]
  | cons d ds ih =>
    by_cases hgt : d.key > p.key
    · simp [insert_sorted, hgt]
    · simp [insert_sorted, hgt, ih]

theorem length_replace_node (q : Binding) (k : Nat) (vec : List Binding) :
    (replace_node q k vec).length = vec.length := by
  induction vec with
  | nil => simp [replace_node]
  | cons d ds ih =>
    by_cases hd : d.key = k
    · simp [replace_node, hd]
    · simp [replace_node, hd, ih]

theorem search_node_mem (tree s : Binding) (k : Nat) (h : search_node tree k = some s) :
    s ∈ tree.vec := List.mem_of_find?_eq_some h

theorem search_node_none_of_nil (tree : Binding) (k : Nat) (h : tree.vec.length = 0) :
    search_node tree k = none := by
  have : tree.vec = [] := List.length_eq_zero.1 h
  simp [search_node, this]

/-- What one bind does to the node it is applied to: the node keeps at least
one child afterwards, and its command is cleared exactly when it had no child. -/
theorem bind_key_vec_root (keys : List Nat) (func : Option Nat) (tree t : Binding)
    (h : bind_key_vec tree keys func = some t) :
    t.vec.length ≥ 1 ∧ t.func = (if tree.vec.length = 0 then none else tree.func) := by
  cases keys with
  | nil => simp [bind_key_vec] at h
  | cons k rest =>
    unfold bind_key_vec at h
    cases hs : search_node tree k with
    | none =>
      simp only [hs] at h
      split at h
      · cases h
        simp [add_node, length_insert_sorted]
      · simp only [Option.map_eq_some'] at h
        obtain ⟨q, _, rfl⟩ := h
        simp [add_node, length_insert_sorted]
    | some s =>
      have hpos : tree.vec.length ≠ 0 := by
        have := List.length_pos_of_mem (search_node_mem tree s k hs)
        omega
      simp only [hs] at h
      split at h
      · simp only [Option.map_eq_some'] at h
        obtain ⟨q, _, rfl⟩ := h
        simp only [length_replace_node, if_neg hpos, and_true]
        omega
      · cases h
        simp only [length_replace_node, if_neg hpos, and_true]
        omega

/-- With a non-null command, one bind keeps "every node below the root has a
command or a child". -/
theorem bind_key_vec_nonempty_nodes (keys : List Nat) (f : Nat) :
    ∀ tree t : Binding,
      (∀ c ∈ tree.vec, ∀ n ∈ c.nodes, n.func ≠ none ∨ n.vec.length ≥ 1) →
      bind_key_vec tree keys (some f) = some t →
      ∀ c ∈ t.vec, ∀ n ∈ c.nodes, n.func ≠ none ∨ n.vec.length ≥ 1 := by
  induction keys with
  | nil => intro tree t _ h; simp [bind_key_vec] at h
  | cons k rest ih =>
    intro tree t hinv h
    unfold bind_key_vec at h
    cases hs : search_node tree k with
    | none =>
      simp only [hs] at h
      split at h
      · cases h
        intro c hc
        rcases (mem_insert_sorted _ c tree.vec).1 hc with rfl | hc
        · intro n hn
          simp only [nodes_eq, node_new, nodes_of_vec, List.mem_singleton] at hn
          subst hn
          simp
        · exact hinv c hc
      · simp only [Option.map_eq_some'] at h
        obtain ⟨q, hq, rfl⟩ := h
        intro c hc
        rcases (mem_insert_sorted _ c tree.vec).1 hc with rfl | hc
        · rw [forall_nodes_iff]
          refine ⟨Or.inr (bind_key_vec_root rest _ _ c hq).1, ih _ c ?_ hq⟩
          simp [node_new]
        · exact hinv c hc
    | some s =>
      have hsm : s ∈ tree.vec := search_node_mem tree s k hs
      have hS := (forall_nodes_iff _ s).1 (hinv s hsm)
      simp only [hs] at h
      split at h
      · simp only [Option.map_eq_some'] at h
        obtain ⟨q, hq, rfl⟩ := h
        intro c hc
        rcases mem_replace_node q c k tree.vec hc with rfl | hc
        · rw [forall_nodes_iff]
          exact ⟨Or.inr (bind_key_vec_root rest _ _ c hq).1, ih s c hS.2 hq⟩
        · exact hinv c hc
      · cases h
        intro c hc
        rcases mem_replace_node _ c k tree.vec hc with rfl | hc
        · rw [forall_nodes_iff]
          exact ⟨Or.inl (by simp), hS.2⟩
        · exact hinv c hc

/-- With a non-null command put on a chord list that has no node yet or a
childless node, one bind keeps "every node below the root is a leaf or a
prefix node". -/
theorem bind_key_vec_leaf_xor (keys : List Nat) (f : Nat) :
    ∀ tree t : Binding,
      (∀ c ∈ tree.vec, ∀ n ∈ c.nodes, is_leaf n ∨ is_prefix_node n) →
      (∀ p, search_key tree keys = some p → p.vec.length = 0) →
      bind_key_vec tree keys (some f) = some t →
      ∀ c ∈ t.vec, ∀ n ∈ c.nodes, is_leaf n ∨ is_prefix_node n := by
  induction keys with
  | nil => intro tree t _ _ h; simp [bind_key_vec] at h
  | cons k rest ih =>
    intro tree t hinv hchild h
    unfold bind_key_vec at h
    cases hs : search_node tree k with
    | none =>
      simp only [hs] at h
      split at h
      · cases h
        intro c hc
        rcases (mem_insert_sorted _ c tree.vec).1 hc with rfl | hc
        · intro n hn
          simp only [nodes_eq, node_new, nodes_of_vec, List.mem_singleton] at hn
          subst hn
          exact Or.inl ⟨by simp, rfl⟩
        · exact hinv c hc
      · simp only [Option.map_eq_some'] at h
        obtain ⟨q, hq, rfl⟩ := h
        intro c hc
        rcases (mem_insert_sorted _ c tree.vec).1 hc with rfl | hc
        · rw [forall_nodes_iff]
          have hroot := bind_key_vec_root rest _ _ c hq
          refine ⟨Or.inr ⟨?_, hroot.1⟩, ih _ c ?_ ?_ hq⟩
          · rw [hroot.2]; simp [node_new]
          · simp [node_new]
          · intro p hp
            cases rest with
            | nil => simp [search_key] at hp
            | cons r rs => simp [search_key, search_node, node_new] at hp
        · exact hinv c hc
    | some s =>
      have hsm : s ∈ tree.vec := search_node_mem tree s k hs
      have hS := (forall_nodes_iff _ s).1 (hinv s hsm)
      simp only [hs] at h
      split at h
      · rename_i hlen
        simp only [Option.map_eq_some'] at h
        obtain ⟨q, hq, rfl⟩ := h
        intro c hc
        rcases mem_replace_node q c k tree.vec hc with rfl | hc
        · rw [forall_nodes_iff]
          have hroot := bind_key_vec_root rest _ _ c hq
          refine ⟨Or.inr ⟨?_, hroot.1⟩, ih s c hS.2 ?_ hq⟩
          · rw [hroot.2]
            rcases hS.1 with hl | hp
            · simp [hl.2]
            · simp [hp.1]
          · intro p hp
            refine hchild p ?_
            have hne : ¬ rest.length + 1 = 1 := by omega
            simp [search_key, hs, hne, hp]
        · exact hinv c hc
      · rename_i hlen
        cases h
        have hrest : rest.length + 1 = 1 := by omega
        have hz : s.vec.length = 0 := hchild s (by simp [search_key, hs, hrest])
        intro c hc
        rcases mem_replace_node _ c k tree.vec hc with rfl | hc
        · rw [forall_nodes_iff]
          refine ⟨Or.inl ⟨by simp, hz⟩, ?_⟩
          intro d hd
          have : s.vec = [] := List.length_eq_zero.1 hz
          simp [this] at hd
        · exact hinv c hc

/-- The invariant kept by a run of binds none of which puts its command on a
node that already has children. -/
theorem bind_all_leaf_xor (binds : List (List Nat × Nat)) :
    ∀ tree t : Binding,
      (∀ c ∈ tree.vec, ∀ n ∈ c.nodes, is_leaf n ∨ is_prefix_node n) →
      binds_on_childless tree binds = true →
      bind_all tree (binds.map (fun b => (b.1, some b.2))) = some t →
      ∀ c ∈ t.vec, ∀ n ∈ c.nodes, is_leaf n ∨ is_prefix_node n := by
  induction binds with
  | nil =>
    intro tree t hinv _ h
    simp only [List.map_nil, bind_all, Option.some.injEq] at h
    exact h ▸ hinv
  | cons b bs ih =>
    intro tree t hinv hc h
    obtain ⟨keys, f⟩ := b
    simp only [List.map_cons, bind_all, Option.bind_eq_some] at h
    obtain ⟨u, hu, ht⟩ := h
    simp only [binds_on_childless, hu, Bool.and_eq_true] at hc
    refine ih u t (bind_key_vec_leaf_xor keys f tree u hinv ?_ hu) hc.2 ht
    intro p hp
    have := hc.1
    simp only [hp] at this
    simpa using this

/-- A property of tries kept by every bind of a non-null command is kept by a
run of such binds. -/
theorem bind_all_commands_induction (P : Binding → Prop)
    (hstep : ∀ tree keys f t, P tree → bind_key_vec tree keys (some f) = some t → P t)
    (binds : List (List Nat × Nat)) :
    ∀ tree t : Binding, P tree →
      bind_all tree (binds.map (fun b => (b.1, some b.2))) = some t → P t := by
  induction binds with
  | nil =>
    intro tree t hP h
    simp only [List.map_nil, bind_all, Option.some.injEq] at h
    exact h ▸ hP
  | cons b bs ih =>
    intro tree t hP h
    obtain ⟨keys, f⟩ := b
    simp only [List.map_cons, bind_all, Option.bind_eq_some] at h
    obtain ⟨u, hu, ht⟩ := h
    exact ih u t (hstep tree keys f u hP hu) ht

theorem search_key_cons_cons (tree : Binding) (k r : Nat) (rs : List Nat) :
    search_key tree (k :: r :: rs) =
      (match search_node tree k with
        | some p => search_key p (r :: rs)
        | none => none) := by
  rw [search_key]
  cases search_node tree k <;> simp

theorem search_key_singleton (tree : Binding) (k : Nat) :
    search_key tree [k] = search_node tree k := by
  rw [search_key]
  cases search_node tree k <;> simp

/-- A bind onto a chord list that has no node yet, or a childless node, leaves
the node of that chord list without child. -/
theorem bind_key_vec_childless (keys : List Nat) (func : Option Nat) :
    ∀ tree t : Binding,
      (∀ p, search_key tree keys = some p → p.vec.length = 0) →
      bind_key_vec tree keys func = some t →
      ∃ p, search_key t keys = some p ∧ p.vec.length = 0 := by
  induction keys with
  | nil => intro tree t _ h; simp [bind_key_vec] at h
  | cons k rest ih =>
    intro tree t hchild h
    unfold bind_key_vec at h
    cases hs : search_node tree k with
    | none =>
      simp only [hs] at h
      split at h
      · rename_i hlen
        cases h
        have hr : rest = [] := List.length_eq_zero.1 (by omega)
        subst hr
        have hf := find_insert_sorted_self
          { key := k, func := func, vec := [], vecmax := 1 } tree.vec hs
        refine ⟨{ key := k, func := func, vec := [], vecmax := 1 }, ?_, rfl⟩
        simpa [search_key_singleton, search_node_eq, add_node, node_new] using hf
      · rename_i hlen
        simp only [Option.map_eq_some'] at h
        obtain ⟨q, hq, rfl⟩ := h
        have hqk : q.key = k := bind_key_vec_key rest func _ q hq
        obtain ⟨p, hp, hz⟩ := ih _ q (by
          intro p hp
          cases rest with
          | nil => simp [search_key] at hp
          | cons r rs => simp [search_key, search_node, node_new] at hp) hq
        have hf := find_insert_sorted_self q tree.vec (by rw [hqk]; exact hs)
        rw [hqk] at hf
        refine ⟨p, ?_, hz⟩
        simp [search_key, search_node_eq, add_node, hf, hlen, hp]
    | some s =>
      have hsk : s.key = k := search_node_key tree s k hs
      simp only [hs] at h
      split at h
      · rename_i hlen
        have hne : ¬ rest.length + 1 = 1 := by omega
        simp only [Option.map_eq_some'] at h
        obtain ⟨q, hq, rfl⟩ := h
        have hqk : q.key = k := (bind_key_vec_key rest func _ q hq).trans hsk
        obtain ⟨p, hp, hz⟩ := ih s q (by
          intro p hp
          exact hchild p (by simp [search_key, hs, hne, hp])) hq
        have hf := find_replace_node_self q s k tree.vec hqk hs
        refine ⟨p, ?_, hz⟩
        simp [search_key, search_node_eq, hf, hne, hp]
      · rename_i hlen
        cases h
        have hr : rest = [] := List.length_eq_zero.1 (by omega)
        subst hr
        have hz : s.vec.length = 0 := hchild s (by simp [search_key_singleton, hs])
        have hf := find_replace_node_self { s with func := func } s k tree.vec hsk hs
        refine ⟨{ s with func := func }, ?_, hz⟩
        simpa [search_key_singleton, search_node_eq] using hf

/-- Binding a proper extension of a chord list whose node has no child clears
the command of that node. -/
theorem bind_key_vec_extension_clears (keys ext : List Nat) (func : Option Nat)
    (hext : ext ≠ []) :
    ∀ tree t p : Binding, search_key tree keys = some p → p.vec.length = 0 →
      bind_key_vec tree (keys ++ ext) func = some t →
      ∃ q, search_key t keys = some q ∧ q.func = none := by
  induction keys with
  | nil => intro tree t p h; simp [search_key] at h
  | cons k rest ih =>
    intro tree t p hp hz h
    have hlen : (rest ++ ext).length + 1 > 1 := by
      have : ext.length ≠ 0 := by simpa using hext
      simp only [List.length_append]
      omega
    rw [List.cons_append] at h
    unfold bind_key_vec at h
    cases hs : search_node tree k with
    | none => simp [search_key, hs] at hp
    | some s =>
      have hsk : s.key = k := search_node_key tree s k hs
      simp only [hs, if_pos hlen, Option.map_eq_some'] at h
      obtain ⟨q, hq, rfl⟩ := h
      have hqk : q.key = k := (bind_key_vec_key _ func _ q hq).trans hsk
      have hf := find_replace_node_self q s k tree.vec hqk hs
      cases rest with
      | nil =>
        have hps : s = p := by simpa [search_key_singleton, hs] using hp
        subst hps
        refine ⟨q, by simpa [search_key_singleton, search_node_eq] using hf, ?_⟩
        rw [(bind_key_vec_root _ func _ q hq).2]
        simp [hz]
      | cons r rs =>
        have hp' : search_key s (r :: rs) = some p := by
          simpa [search_key_cons_cons, hs] using hp
        obtain ⟨q', hq', hfn⟩ := ih s q p hp' hz hq
        refine ⟨q', ?_, hfn⟩
        simp [search_key_cons_cons, search_node_eq, hf, hq']

/-! ## Facts about dispatch -/

theorem scan_lookup_stop (bindings : Binding) (keys : List Nat)
    (h : ∀ p, search_key bindings keys = some p → p.func ≠ none) :
    scan_lookup bindings keys = some ((search_key bindings keys).bind Binding.func) := by
  unfold scan_lookup
  cases hk : search_key bindings keys with
  | none => simp
  | some p =>
    cases hf : p.func with
    | none => exact absurd hf (h p hk)
    | some f => simp [hf]

theorem scan_lookup_continue (bindings : Binding) (keys : List Nat) (p : Binding)
    (hp : search_key bindings keys = some p) (hf : p.func = none) :
    scan_lookup bindings keys = none := by
  simp [scan_lookup, hp, hf]

/-- The chords `completion_scan_loop` reads: if the chord lists `keys`,
`keys ++ input[0..1)`, ... up to `n - 1` further chords all reach nodes without
command, and `keys ++ input[0..n)` reaches no node or a node with a command,
the loop reads exactly `n` chords and returns what that last lookup gives. -/
theorem completion_scan_loop_stops (bindings : Binding) :
    ∀ (input keys : List Nat) (n : Nat), n ≤ input.length →
      (∀ m, m < n → ∃ p, search_key bindings (keys ++ input.take m) = some p ∧ p.func = none) →
      (∀ p, search_key bindings (keys ++ input.take n) = some p → p.func ≠ none) →
      completion_scan_loop bindings keys input =
        some { func := (search_key bindings (keys ++ input.take n)).bind Binding.func
               keys := keys ++ input.take n
               input := input.drop n
               bindings := bindings } := by
  intro input
  induction input with
  | nil =>
    intro keys n hn _ hstop
    have hn0 : n = 0 := by simpa using hn
    subst hn0
    simp only [List.take_nil, List.append_nil, List.drop_nil] at hstop ⊢
    simp [completion_scan_loop, scan_lookup_stop bindings keys hstop]
  | cons c rest ih =>
    intro keys n hn hpre hstop
    cases n with
    | zero =>
      simp only [List.take_zero, List.append_nil, List.drop_zero] at hstop ⊢
      simp [completion_scan_loop, scan_lookup_stop bindings keys hstop]
    | succ n =>
      obtain ⟨p, hp, hpf⟩ := hpre 0 (Nat.succ_pos n)
      simp only [List.take_zero, List.append_nil] at hp
      have hrec := ih (keys ++ [c]) n (by simpa using hn)
        (by
          intro m hm
          have := hpre (m + 1) (by omega)
          simpa [List.take_succ_cons] using this)
        (by
          intro q hq
          refine hstop q ?_
          simpa [List.take_succ_cons] using hq)
      simp [completion_scan_loop, scan_lookup_continue bindings keys p hp hpf, hrec,
        List.take_succ_cons]

/-- The scan of a chord stream `pre ++ c :: more` whose chords `pre` keep the
lookup on nodes without command and whose chord `c` leads to no node. -/
theorem completion_scan_no_node (bindings : Binding) (key c : Nat) (pre more : List Nat)
    (hpre : ∀ m, m ≤ pre.length →
      ∃ p, search_key bindings (key :: pre.take m) = some p ∧ p.func = none)
    (hnone : search_key bindings (key :: (pre ++ [c])) = none) :
    completion_scan bindings key (pre ++ c :: more) =
      some { func := none, keys := key :: (pre ++ [c]), input := more, bindings := bindings } := by
  have htake : (pre ++ c :: more).take (pre.length + 1) = pre ++ [c] := by
    rw [List.take_append_eq_append_take]
    simp
  have hdrop : (pre ++ c :: more).drop (pre.length + 1) = more := by
    rw [List.drop_append_eq_append_drop]
    simp
  have h := completion_scan_loop_stops bindings (pre ++ c :: more) [key] (pre.length + 1)
    (by simp)
    (by
      intro m hm
      have hle : m ≤ pre.length := by omega
      rw [List.take_append_of_le_length hle]
      exact hpre m hle)
    (by
      intro p hp
      rw [htake] at hp
      simp [hnone] at hp)
  rw [htake, hdrop] at h
  simpa [completion_scan, hnone] using h

/-! ## Facts about the enumeration -/

theorem walk_bindings_tree_eq (cts : Nat → List Char) (t : Binding) (keys : List (List Char)) :
    walk_bindings_tree cts t keys = walk_bindings_vec cts t.vec (keys ++ [cts t.key]) := by
  cases t; simp [walk_bindings_tree]

theorem walk_paths_tree_eq (t : Binding) (path : List Nat) :
    walk_paths_tree t path = walk_paths_vec t.vec path := by
  cases t; simp [walk_paths_tree]

theorem binding_name_eq (cts : Nat → List Char) (r : List Char) (path : List Nat) (p : Binding) :
    binding_name cts (r :: path.map cts) p = chord_names cts (path ++ [p.key]) := by
  unfold binding_name chord_names
  simp only [List.drop_succ_cons, List.drop_zero]
  induction path with
  | nil => simp [List.intercalate]
  | cons a as ih =>
    cases as with
    | nil => simp [List.intercalate, List.intersperse]
    | cons b bs =>
      simp only [List.map_cons, List.flatten_cons, List.append_assoc, List.cons_append] at ih ⊢
      rw [ih]
      simp [List.intercalate, List.intersperse]

mutual
theorem walk_bindings_vec_paths (cts : Nat → List Char) (r : List Char) :
    ∀ (vec : List Binding) (path : List Nat),
      walk_bindings_vec cts vec (r :: path.map cts) =
        (walk_paths_vec vec path).map (fun e => (chord_names cts e.1, e.2))
  | [], path => by simp [walk_bindings_vec, walk_paths_vec]
  | p :: ps, path => by
    rw [walk_bindings_vec, walk_paths_vec, List.map_append,
      walk_bindings_vec_paths cts r ps path]
    by_cases hf : p.func ≠ none
    · simp only [if_pos hf, List.map_cons, List.map_nil, binding_name_eq]
    · simp only [if_neg hf]
      rw [walk_bindings_tree_paths cts r p path]
theorem walk_bindings_tree_paths (cts : Nat → List Char) (r : List Char) :
    ∀ (t : Binding) (path : List Nat),
      walk_bindings_tree cts t (r :: path.map cts) =
        (walk_paths_tree t (path ++ [t.key])).map (fun e => (chord_names cts e.1, e.2))
  | ⟨k, f, vec, m⟩, path => by
    rw [walk_bindings_tree, walk_paths_tree]
    have := walk_bindings_vec_paths cts r vec (path ++ [k])
    simpa using this
end

theorem search_key_cons (tree : Binding) (k : Nat) (rest : List Nat) :
    search_key tree (k :: rest) =
      (match search_node tree k with
        | some c => if rest = [] then some c else search_key c rest
        | none => none) := by
  cases rest with
  | nil => rw [search_key_singleton]; cases search_node tree k <;> simp
  | cons r rs => rw [search_key_cons_cons]; cases search_node tree k <;> simp

theorem take_ne_nil (l : List Nat) (m : Nat) (hm : 0 < m) (hl : l ≠ []) : l.take m ≠ [] := by
  cases l with
  | nil => exact absurd rfl hl
  | cons a as =>
    cases m with
    | zero => omega
    | succ m => simp

theorem search_key_nil (tree : Binding) : search_key tree [] = none := by
  simp [search_key]

theorem resolves_ne_nil (tree : Binding) (s : List Nat) (p : Binding) (h : resolves tree s p) :
    s ≠ [] := by
  rintro rfl
  simp [resolves, search_key_nil] at h

/-- How `resolves` descends one level of the trie. -/
theorem resolves_cons (tree : Binding) (k : Nat) (rest : List Nat) (p : Binding) :
    resolves tree (k :: rest) p ↔
      ∃ c, search_node tree k = some c ∧
        ((rest = [] ∧ c = p ∧ p.func ≠ none) ∨
          (rest ≠ [] ∧ c.func = none ∧ resolves c rest p)) := by
  constructor
  · rintro ⟨hs, hf, hpre⟩
    rw [search_key_cons] at hs
    cases hc : search_node tree k with
    | none => simp [hc] at hs
    | some c =>
      simp only [hc] at hs
      refine ⟨c, rfl, ?_⟩
      by_cases hr : rest = []
      · left
        simp only [hr, if_true, Option.some.injEq] at hs
        exact ⟨hr, hs, hf⟩
      · right
        simp only [hr, if_false] at hs
        have hlen : 0 < rest.length := List.length_pos.2 hr
        refine ⟨hr, ?_, hs, hf, ?_⟩
        · obtain ⟨q, hq, hqf⟩ := hpre 1 (by omega) (by simp; omega)
          simp only [List.take_succ_cons, List.take_zero, search_key_singleton, hc,
            Option.some.injEq] at hq
          exact hq ▸ hqf
        · intro m hm hml
          obtain ⟨q, hq, hqf⟩ := hpre (m + 1) (by omega) (by simp; omega)
          refine ⟨q, ?_, hqf⟩
          have hne : rest.take m ≠ [] := take_ne_nil rest m hm hr
          simpa [List.take_succ_cons, search_key_cons, hc, hne] using hq
  · rintro ⟨c, hc, h | h⟩
    · obtain ⟨hr, hcp, hf⟩ := h
      subst hr
      subst hcp
      refine ⟨by simp [search_key_singleton, hc], hf, ?_⟩
      intro m hm hml
      simp at hml
      omega
    · obtain ⟨hr, hcf, hs, hf, hpre⟩ := h
      refine ⟨by simp [search_key_cons, hc, hr, hs], hf, ?_⟩
      intro m hm hml
      cases m with
      | zero => omega
      | succ m =>
        by_cases hm0 : m = 0
        · subst hm0
          exact ⟨c, by simp [search_key_singleton, hc], hcf⟩
        · obtain ⟨q, hq, hqf⟩ := hpre m (by omega) (by simpa using hml)
          refine ⟨q, ?_, hqf⟩
          have hne : rest.take m ≠ [] := take_ne_nil rest m (by omega) hr
          simp [List.take_succ_cons, search_key_cons, hc, hne, hq]

theorem resolves_congr (t u : Binding) (h : t.vec = u.vec) (s : List Nat) (p : Binding) :
    resolves t s p ↔ resolves u s p := by
  cases s with
  | nil => simp [resolves, search_key_nil]
  | cons k rest => simp only [resolves_cons, search_node_eq, h]

theorem keys_ascending_cons (c : Binding) (cs : List Binding) (h : keys_ascending (c :: cs)) :
    (∀ d ∈ cs, c.key < d.key) ∧ keys_ascending cs := by
  unfold keys_ascending at *
  simp only [List.map_cons, List.pairwise_cons] at h
  exact ⟨fun d hd => h.1 d.key (List.mem_map.2 ⟨d, hd, rfl⟩), h.2⟩

theorem search_node_cons (tree : Binding) (c : Binding) (cs : List Binding) (k : Nat)
    (hv : tree.vec = c :: cs) :
    search_node tree k =
      if c.key = k then some c else search_node { tree with vec := cs } k := by
  by_cases hk : c.key = k
  · simp [search_node, hv, List.find?, hk]
  · simp [search_node, hv, List.find?, hk]

mutual
/-- In a trie with ascending branch vectors, the walk over a branch vector
reports exactly the chord sequences that resolve below the owner of it. -/
theorem mem_walk_paths_vec :
    ∀ (vec : List Binding) (tree : Binding) (path : List Nat), tree.vec = vec →
      keys_ascending vec → (∀ c ∈ vec, ∀ n ∈ c.nodes, keys_ascending n.vec) →
      ∀ s p, (s, p) ∈ walk_paths_vec vec path ↔ ∃ r, s = path ++ r ∧ resolves tree r p
  | [], tree, path, hv, _, _ => by
    intro s p
    simp only [walk_paths_vec, List.not_mem_nil, false_iff]
    rintro ⟨r, _, hr⟩
    cases r with
    | nil => exact resolves_ne_nil tree [] p hr rfl
    | cons k rest =>
      obtain ⟨c, hc, _⟩ := (resolves_cons tree k rest p).1 hr
      simp [search_node, hv] at hc
  | c :: cs, tree, path, hv, hasc, hall => by
    intro s p
    have hsn := fun k => search_node_cons tree c cs k hv
    have hlt := (keys_ascending_cons c cs hasc).1
    have ihT := mem_walk_paths_vec cs { tree with vec := cs } path rfl
      (keys_ascending_cons c cs hasc).2
      (fun d hd => hall d (List.mem_cons_of_mem _ hd)) s p
    have ihH := mem_walk_paths_tree c (path ++ [c.key]) (hall c (List.mem_cons_self _ _)) s p
    rw [walk_paths_vec, List.mem_append]
    constructor
    · rintro (h | h)
      · by_cases hf : c.func ≠ none
        · rw [if_pos hf] at h
          simp only [List.mem_singleton, Prod.mk.injEq] at h
          refine ⟨[c.key], h.1, (resolves_cons tree c.key [] p).2 ⟨c, ?_, Or.inl ⟨rfl, h.2.symm, ?_⟩⟩⟩
          · rw [hsn, if_pos rfl]
          · rw [h.2]; exact hf
        · rw [if_neg hf] at h
          obtain ⟨r, hs, hr⟩ := ihH.1 h
          refine ⟨c.key :: r, by simp [hs], (resolves_cons tree c.key r p).2 ⟨c, ?_, Or.inr
            ⟨resolves_ne_nil c r p hr, not_not.1 hf, hr⟩⟩⟩
          rw [hsn, if_pos rfl]
      · obtain ⟨r, hs, hr⟩ := ihT.1 h
        refine ⟨r, hs, ?_⟩
        cases r with
        | nil => exact absurd rfl (resolves_ne_nil _ [] p hr)
        | cons k rest =>
          rw [resolves_cons] at hr ⊢
          obtain ⟨d, hd, hrest⟩ := hr
          have hdk : d.key = k := search_node_key _ d k hd
          have hdm : d ∈ cs := search_node_mem { tree with vec := cs } d k hd
          have hk : ¬ c.key = k := by
            have := hlt d hdm
            omega
          exact ⟨d, by rw [hsn, if_neg hk]; exact hd, hrest⟩
    · rintro ⟨r, hs, hr⟩
      cases r with
      | nil => exact absurd rfl (resolves_ne_nil _ [] p hr)
      | cons k rest =>
        rw [resolves_cons] at hr
        obtain ⟨d, hd, hrest⟩ := hr
        by_cases hk : c.key = k
        · rw [hsn, if_pos hk, Option.some.injEq] at hd
          subst hd
          left
          rcases hrest with ⟨hr0, hcp, hf⟩ | ⟨hr0, hcf, hres⟩
          · subst hcp
            rw [if_pos hf]
            simp [hs, hk, hr0]
          · rw [if_neg (by simp [hcf])]
            exact ihH.2 ⟨rest, by simp [hs, hk], hres⟩
        · right
          rw [hsn, if_neg hk] at hd
          exact ihT.2 ⟨k :: rest, hs, (resolves_cons _ k rest p).2 ⟨d, hd, hrest⟩⟩
/-- In a trie with ascending branch vectors, the walk below a node reports
exactly the chord sequences that resolve below it. -/
theorem mem_walk_paths_tree :
    ∀ (t : Binding) (path : List Nat), (∀ n ∈ t.nodes, keys_ascending n.vec) →
      ∀ s p, (s, p) ∈ walk_paths_tree t path ↔ ∃ r, s = path ++ r ∧ resolves t r p
  | ⟨k, f, vec, m⟩, path, h => by
    intro s p
    rw [walk_paths_tree]
    have h' := (forall_nodes_iff _ _).1 h
    exact mem_walk_paths_vec vec ⟨k, f, vec, m⟩ path rfl h'.1 h'.2 s p
end

mutual
/-- In a trie with ascending branch vectors, the walk over a branch vector
reports no chord sequence twice. -/
theorem nodup_walk_paths_vec :
    ∀ (vec : List Binding) (path : List Nat),
      keys_ascending vec → (∀ c ∈ vec, ∀ n ∈ c.nodes, keys_ascending n.vec) →
      ((walk_paths_vec vec path).map Prod.fst).Nodup
  | [], path, _, _ => by simp [walk_paths_vec]
  | c :: cs, path, hasc, hall => by
    have hlt := (keys_ascending_cons c cs hasc).1
    have hcs := (keys_ascending_cons c cs hasc).2
    have hallT : ∀ d ∈ cs, ∀ n ∈ d.nodes, keys_ascending n.vec :=
      fun d hd => hall d (List.mem_cons_of_mem _ hd)
    have hallH := hall c (List.mem_cons_self _ _)
    rw [walk_paths_vec, List.map_append, List.nodup_append]
    refine ⟨?_, nodup_walk_paths_vec cs path hcs hallT, ?_⟩
    · by_cases hf : c.func ≠ none
      · simp [if_pos hf]
      · rw [if_neg hf]
        exact nodup_walk_paths_tree c (path ++ [c.key]) hallH
    · intro a ha hb
      obtain ⟨⟨a1, p1⟩, hm1, rfl⟩ := List.mem_map.1 ha
      obtain ⟨⟨a2, p2⟩, hm2, h12⟩ := List.mem_map.1 hb
      simp only at h12
      subst h12
      have hhead : ∃ x, a2 = path ++ c.key :: x := by
        by_cases hf : c.func ≠ none
        · rw [if_pos hf] at hm1
          simp only [List.mem_singleton, Prod.mk.injEq] at hm1
          exact ⟨[], hm1.1⟩
        · rw [if_neg hf] at hm1
          obtain ⟨r, hr, _⟩ := (mem_walk_paths_tree c (path ++ [c.key]) hallH a2 p1).1 hm1
          exact ⟨r, by simp [hr]⟩
      obtain ⟨x, hx⟩ := hhead
      obtain ⟨r, hr, hres⟩ := (mem_walk_paths_vec cs ⟨0, none, cs, 0⟩ path rfl hcs hallT a2 p2).1 hm2
      cases r with
      | nil => exact resolves_ne_nil _ [] p2 hres rfl
      | cons k rest =>
        obtain ⟨d, hd, _⟩ := (resolves_cons _ k rest p2).1 hres
        have hdk : d.key = k := search_node_key _ d k hd
        have hdm : d ∈ cs := search_node_mem ⟨0, none, cs, 0⟩ d k hd
        have hlt' := hlt d hdm
        rw [hx] at hr
        have := List.append_cancel_left hr
        simp only [List.cons.injEq] at this
        omega
/-- In a trie with ascending branch vectors, the walk below a node reports no
chord sequence twice. -/
theorem nodup_walk_paths_tree :
    ∀ (t : Binding) (path : List Nat), (∀ n ∈ t.nodes, keys_ascending n.vec) →
      ((walk_paths_tree t path).map Prod.fst).Nodup
  | ⟨k, f, vec, m⟩, path, h => by
    rw [walk_paths_tree]
    have h' := (forall_nodes_iff _ _).1 h
    exact nodup_walk_paths_vec vec path h'.1 h'.2
end

theorem walk_bindings_eq_paths (cts : Nat → List Char) (t : Binding) :
    walk_bindings cts t =
      (walk_paths_vec t.vec []).map (fun e => (chord_names cts e.1, e.2)) := by
  rw [walk_bindings, walk_bindings_tree_eq]
  exact walk_bindings_vec_paths cts (cts t.key) t.vec []

theorem intercalate_cons_cons (sep a b : List Char) (l : List (List Char)) :
    List.intercalate sep (a :: b :: l) = a ++ sep ++ List.intercalate sep (b :: l) := by
  simp [List.intercalate, List.intersperse]

theorem intercalate_cons (sep : List Char) (names : List (List Char)) :
    ∀ a : List Char,
      List.intercalate sep (a :: names) = a ++ (names.map (fun n => sep ++ n)).flatten := by
  induction names with
  | nil => intro a; simp [List.intercalate]
  | cons b bs ih =>
    intro a
    rw [intercalate_cons_cons, ih b]
    simp

theorem chord_names_ne_nil (cts : Nat → List Char) (hname : ∀ k, cts k ≠ []) (s : List Nat)
    (hs : s ≠ []) : chord_names cts s ≠ [] := by
  cases s with
  | nil => exact absurd rfl hs
  | cons a as =>
    cases as with
    | nil => simpa [chord_names, List.intercalate] using hname a
    | cons b bs =>
      simp only [chord_names, List.map_cons, intercalate_cons_cons]
      simp [hname a]

/-- What the calls of `gather_bindings` add to a non-empty `g->bindings`: every
matching name, each behind a comma and a blank. -/
theorem foldl_gather_nonempty (f : Option Nat) (l : List (List Char × Binding)) :
    ∀ acc : List Char, acc ≠ [] →
      l.foldl (gather_bindings f) acc =
        acc ++ (((l.filter (fun e => decide (e.2.func = f))).map
          (fun e => [',', ' '] ++ e.1)).flatten) := by
  induction l with
  | nil => intro acc _; simp
  | cons e es ih =>
    intro acc hacc
    have hlen : acc.length > 0 := List.length_pos.2 hacc
    by_cases he : e.2.func = f
    · simp only [List.foldl_cons, gather_bindings, if_pos he, if_pos hlen]
      rw [ih _ (by simp [hacc])]
      simp [List.filter_cons, he]
    · simp only [List.foldl_cons, gather_bindings, if_neg he]
      rw [ih _ hacc]
      simp [List.filter_cons, he]

/-- The string built by the calls of `gather_bindings` from an empty
`g->bindings`, when no name is empty: the matching names, joined by a comma
and a blank. -/
theorem foldl_gather (f : Option Nat) (l : List (List Char × Binding))
    (hne : ∀ e ∈ l, e.1 ≠ []) :
    l.foldl (gather_bindings f) [] =
      List.intercalate [',', ' '] ((l.filter (fun e => decide (e.2.func = f))).map Prod.fst) := by
  induction l with
  | nil => simp [List.intercalate]
  | cons e es ih =>
    by_cases he : e.2.func = f
    · have h1 : e.1 ≠ [] := hne e (List.mem_cons_self _ _)
      simp only [List.foldl_cons, gather_bindings, if_pos he, List.length_nil, gt_iff_lt,
        Nat.lt_irrefl, if_false, List.nil_append]
      rw [foldl_gather_nonempty f es e.1 h1]
      simp only [List.filter_cons, he, decide_True, if_true, List.map_cons]
      rw [intercalate_cons, List.map_map]
      rfl
    · simp only [List.foldl_cons, gather_bindings, if_neg he]
      rw [ih (fun d hd => hne d (List.mem_cons_of_mem _ hd))]
      simp [List.filter_cons, he]

/-- The calls of `walk_bindings` and the string of `where-is` in a trie whose
branch vectors are all ascending. -/
theorem walk_bindings_ascending (cts : Nat → List Char) (hname : ∀ k, cts k ≠ [])
    (t : Binding) (hasc : ∀ n ∈ t.nodes, keys_ascending n.vec) :
    ∃ l : List (List Nat × Binding),
      walk_bindings cts t = l.map (fun e => (chord_names cts e.1, e.2)) ∧
      (l.map Prod.fst).Nodup ∧
      (∀ s p, (s, p) ∈ l ↔ resolves t s p) ∧
      ∀ f, where_is_bindings cts t f =
        List.intercalate [',', ' ']
          ((l.filter (fun e => decide (e.2.func = some f))).map
            (fun e => chord_names cts e.1)) := by
  have h' := (forall_nodes_iff _ _).1 hasc
  have hmem : ∀ s p, (s, p) ∈ walk_paths_vec t.vec [] ↔ resolves t s p := by
    intro s p
    rw [mem_walk_paths_vec t.vec t [] rfl h'.1 h'.2 s p]
    simp
  refine ⟨walk_paths_vec t.vec [], walk_bindings_eq_paths cts t,
    nodup_walk_paths_vec t.vec [] h'.1 h'.2, hmem, ?_⟩
  intro f
  rw [where_is_bindings, walk_bindings_eq_paths, foldl_gather]
  · rw [List.filter_map, List.map_map]
    rfl
  · intro e he
    obtain ⟨⟨s, p⟩, hsp, rfl⟩ := List.mem_map.1 he
    exact chord_names_ne_nil cts hname s (resolves_ne_nil t s p ((hmem s p).1 hsp))

/-! ## Facts about end-of-line detection -/

theorem marker_run_full (ks : List Eol) (total_eols : Nat) (first_eol : Bool) (eol : Eol)
    (h : MAX_EOL_CHECK_COUNT ≤ total_eols) : marker_run ks total_eols first_eol eol = eol := by
  cases ks with
  | nil => rfl
  | cons k ks =>
    have : ¬ total_eols < MAX_EOL_CHECK_COUNT := by omega
    simp [marker_run, this]

/-- The occurrences ahead of index `i`, by the byte at `i` and the one after. -/
theorem eol_kinds_drop (as : List Nat) (i : Nat) (hi : i < as.length) :
    eol_kinds (as.drop i) =
      if as.getD i 0 = 10 then Eol.lf :: eol_kinds (as.drop (i + 1))
      else if as.getD i 0 = 13 then
        if i = as.length - 1 ∨ as.getD (i + 1) 0 ≠ 10 then Eol.cr :: eol_kinds (as.drop (i + 1))
        else Eol.crlf :: eol_kinds (as.drop (i + 1 + 1))
      else eol_kinds (as.drop (i + 1)) := by
  have hc : as.getD i 0 = as[i] := by
    rw [List.getD_eq_getElem?_getD, List.getElem?_eq_getElem hi]; rfl
  rw [List.drop_eq_getElem_cons hi, hc]
  by_cases hlast : i + 1 < as.length
  · have hd : as.getD (i + 1) 0 = as[i + 1] := by
      rw [List.getD_eq_getElem?_getD, List.getElem?_eq_getElem hlast]; rfl
    have hne : ¬ i = as.length - 1 := by omega
    rw [List.drop_eq_getElem_cons hlast, hd]
    simp only [eol_kinds, hne, false_or]
    by_cases h10 : as[i] = 10
    · simp [h10]
    · by_cases h13 : as[i] = 13
      · by_cases hd10 : as[i + 1] = 10
        · simp [h13, hd10]
        · simp [h13, hd10]
      · simp [h10, h13]
  · have hlen : i = as.length - 1 := by omega
    have hnil : as.drop (i + 1) = [] := List.drop_eq_nil_of_le (by omega)
    rw [hnil]
    by_cases h10 : as[i] = 10
    · simp [eol_kinds, h10]
    · by_cases h13 : as[i] = 13
      · simp [eol_kinds, h13, hlen]
      · simp [eol_kinds, h10, h13]

/-- The loop of `estr_new_astr` from index `i` on computes `marker_run` on the
occurrences ahead of `i`, as soon as `fuel` covers the bytes left. -/
theorem estr_new_astr_loop_eq (as : List Nat) :
    ∀ (fuel i total_eols : Nat) (first_eol : Bool) (eol : Eol), as.length - i ≤ fuel →
      estr_new_astr_loop as fuel i total_eols first_eol eol =
        marker_run (eol_kinds (as.drop i)) total_eols first_eol eol := by
  intro fuel
  induction fuel with
  | zero =>
    intro i total_eols first_eol eol h
    have hnil : as.drop i = [] := List.drop_eq_nil_of_le (by omega)
    simp [estr_new_astr_loop, hnil, eol_kinds, marker_run]
  | succ fuel ih =>
    intro i total_eols first_eol eol h
    rw [estr_new_astr_loop]
    by_cases hi : i < as.length
    · by_cases ht : total_eols < MAX_EOL_CHECK_COUNT
      · rw [if_pos ⟨hi, ht⟩, eol_kinds_drop as i hi]
        by_cases h10 : as.getD i 0 = 10
        · simp only [h10, true_or, if_true, marker_run, ht, reduceCtorEq, if_false]
          rw [ih (i + 1) _ _ _ (by omega), ih (i + 1) _ _ _ (by omega)]
        · by_cases h13 : as.getD i 0 = 13
          · by_cases hcr : i = as.length - 1 ∨ as.getD (i + 1) 0 ≠ 10
            · have h1310 : ¬ (13 : Nat) = 10 := by decide
              simp only [h13, h1310, or_true, if_true, if_false, hcr, marker_run, ht,
                reduceCtorEq]
              rw [ih (i + 1) _ _ _ (by omega), ih (i + 1) _ _ _ (by omega)]
            · have h1310 : ¬ (13 : Nat) = 10 := by decide
              simp only [h13, h1310, or_true, if_true, if_false, hcr, marker_run, ht]
              rw [ih (i + 1 + 1) _ _ _ (by omega), ih (i + 1 + 1) _ _ _ (by omega)]
          · simp only [h10, h13, or_self, if_false]
            rw [ih (i + 1) _ _ _ (by omega)]
      · have hge : MAX_EOL_CHECK_COUNT ≤ total_eols := by omega
        rw [if_neg (fun hc => ht hc.2), marker_run_full _ _ _ _ hge]
    · have hnil : as.drop i = [] := List.drop_eq_nil_of_le (by omega)
      rw [if_neg (fun hc => hi hc.1), hnil]
      rfl

theorem marker_run_eq_marker_of_kinds (ks : List Eol) :
    marker_run ks 0 true Eol.lf = marker_of_kinds ks := by
  cases ks with
  | nil => rfl
  | cons a t =>
    cases t with
    | nil => cases a <;> simp [marker_run, marker_of_kinds, MAX_EOL_CHECK_COUNT]
    | cons b t =>
      cases t with
      | nil => cases a <;> cases b <;> simp [marker_run, marker_of_kinds, MAX_EOL_CHECK_COUNT]
      | cons c t =>
        have hfull : ∀ e, marker_run t 3 false e = e :=
          fun e => marker_run_full t 3 false e (by simp [MAX_EOL_CHECK_COUNT])
        cases a <;> cases b <;> cases c <;>
          simp [marker_run, marker_of_kinds, MAX_EOL_CHECK_COUNT, hfull]

/-- The marker chosen by `estr_new_astr` is the one named by the first three
end-of-line occurrences of the content. -/
theorem estr_new_astr_eol (as : List Nat) :
    (estr_new_astr as).eol = marker_of_kinds (eol_kinds as) := by
  have h := estr_new_astr_loop_eq as as.length 0 0 true Eol.lf (by omega)
  rw [List.drop_zero, marker_run_eq_marker_of_kinds] at h
  exact h

theorem eol_kinds_no_cr (as : List Nat) (h : 13 ∉ as) : ∀ k ∈ eol_kinds as, k = Eol.lf := by
  induction as using eol_kinds.induct with
  | case1 => simp [eol_kinds]
  | case2 => simp [eol_kinds]
  | case3 => simp at h
  | case4 c h10 h13 => simp [eol_kinds, h10, h13]
  | case5 d rest ih =>
    have := ih (fun hm => h (List.mem_cons_of_mem _ hm))
    simpa [eol_kinds] using this
  | case6 rest _ ih => simp at h
  | case7 d rest _ _ ih => simp at h
  | case8 c d rest h10 h13 ih =>
    have := ih (fun hm => h (List.mem_cons_of_mem _ hm))
    simpa [eol_kinds, h10, h13] using this

theorem eol_kinds_no_lf (as : List Nat) (h : 10 ∉ as) : ∀ k ∈ eol_kinds as, k = Eol.cr := by
  induction as using eol_kinds.induct with
  | case1 => simp [eol_kinds]
  | case2 => simp at h
  | case3 => simp [eol_kinds]
  | case4 c h10 h13 => simp [eol_kinds, h10, h13]
  | case5 d rest ih => simp at h
  | case6 rest _ ih => simp at h
  | case7 d rest hd _ ih =>
    have := ih (fun hm => h (List.mem_cons_of_mem _ hm))
    simpa [eol_kinds, hd] using this
  | case8 c d rest h10 h13 ih =>
    have := ih (fun hm => h (List.mem_cons_of_mem _ hm))
    simpa [eol_kinds, h10, h13] using this

/-- When every CR is immediately followed by LF and every LF immediately
preceded by CR, every end-of-line occurrence is a CRLF. -/
theorem eol_kinds_paired (as : List Nat)
    (hcr : ∀ i, as[i]? = some 13 → as[i + 1]? = some 10)
    (hlf : ∀ i, as[i]? = some 10 → ∃ j, i = j + 1 ∧ as[j]? = some 13) :
    ∀ k ∈ eol_kinds as, k = Eol.crlf := by
  induction as using eol_kinds.induct with
  | case1 => simp [eol_kinds]
  | case2 =>
    obtain ⟨j, hj, _⟩ := hlf 0 (by simp)
    omega
  | case3 =>
    have := hcr 0 (by simp)
    simp at this
  | case4 c h10 h13 => simp [eol_kinds, h10, h13]
  | case5 d rest ih =>
    obtain ⟨j, hj, _⟩ := hlf 0 (by simp)
    omega
  | case6 rest _ ih =>
    have hcr' : ∀ i, rest[i]? = some 13 → rest[i + 1]? = some 10 := by
      intro i hi
      have := hcr (i + 2) (by simpa using hi)
      simpa using this
    have hlf' : ∀ i, rest[i]? = some 10 → ∃ j, i = j + 1 ∧ rest[j]? = some 13 := by
      intro i hi
      obtain ⟨j, hj, hj13⟩ := hlf (i + 2) (by simpa using hi)
      have hji : j = i + 1 := by omega
      subst hji
      cases i with
      | zero => simp at hj13
      | succ i => exact ⟨i, rfl, by simpa using hj13⟩
    have := ih hcr' hlf'
    simpa [eol_kinds] using this
  | case7 d rest hd _ ih =>
    have := hcr 0 (by simp)
    simp at this
    exact absurd this hd
  | case8 c d rest h10 h13 ih =>
    have hcr' : ∀ i, (d :: rest)[i]? = some 13 → (d :: rest)[i + 1]? = some 10 := by
      intro i hi
      have := hcr (i + 1) (by simpa using hi)
      simpa using this
    have hlf' : ∀ i, (d :: rest)[i]? = some 10 → ∃ j, i = j + 1 ∧ (d :: rest)[j]? = some 13 := by
      intro i hi
      obtain ⟨j, hj, hj13⟩ := hlf (i + 1) (by simpa using hi)
      have hji : j = i := by omega
      subst hji
      cases j with
      | zero => simp at hj13; exact absurd hj13 h13
      | succ j => exact ⟨j, rfl, by simpa using hj13⟩
    have := ih hcr' hlf'
    simpa [eol_kinds, h10, h13] using this

theorem eol_kinds_ne_nil (as : List Nat) (h : 10 ∈ as ∨ 13 ∈ as) : eol_kinds as ≠ [] := by
  induction as using eol_kinds.induct with
  | case1 => simp at h
  | case2 => simp [eol_kinds]
  | case3 => simp [eol_kinds]
  | case4 c h10 h13 =>
    simp at h
    rcases h with h | h
    · exact absurd h.symm h10
    · exact absurd h.symm h13
  | case5 d rest ih => simp [eol_kinds]
  | case6 rest _ ih => simp [eol_kinds]
  | case7 d rest hd _ ih => simp [eol_kinds, hd]
  | case8 c d rest h10 h13 ih =>
    have h' : 10 ∈ d :: rest ∨ 13 ∈ d :: rest := by
      rcases h with h | h
      · rcases List.mem_cons.1 h with h | h
        · exact absurd h.symm h10
        · exact Or.inl h
      · rcases List.mem_cons.1 h with h | h
        · exact absurd h.symm h13
        · exact Or.inr h
    have := ih h'
    simpa [eol_kinds, h10, h13] using this

theorem eol_kinds_eq_nil (as : List Nat) (h10 : 10 ∉ as) (h13 : 13 ∉ as) :
    eol_kinds as = [] := by
  have h := eol_kinds_no_cr as h13
  have h' := eol_kinds_no_lf as h10
  cases hk : eol_kinds as with
  | nil => rfl
  | cons k ks =>
    have h1 := h k (by simp [hk])
    have h2 := h' k (by simp [hk])
    rw [h1] at h2
    cases h2

theorem marker_of_kinds_uniform (ks : List Eol) (e : Eol) (hne : ks ≠ [])
    (h : ∀ k ∈ ks, k = e) : marker_of_kinds ks = e := by
  cases ks with
  | nil => exact absurd rfl hne
  | cons k more =>
    have hk : k = e := h k (List.mem_cons_self _ _)
    have hall : (more.take 2).all (fun j => decide (j = k)) = true := by
      rw [List.all_eq_true]
      intro j hj
      have := h j (List.mem_cons_of_mem _ (List.mem_of_mem_take hj))
      simp [this, hk]
    unfold marker_of_kinds
    simp only [List.take_succ_cons]
    rw [if_pos hall]
    exact hk

/-- A first end-of-line occurrence of kind LF settles the marker. -/
theorem marker_of_kinds_lf_mem (ks : List Eol) (h : Eol.lf ∈ ks.take 3) :
    marker_of_kinds ks = Eol.lf := by
  unfold marker_of_kinds
  cases hk : ks.take 3 with
  | nil => rfl
  | cons k more =>
    rw [hk] at h
    by_cases hall : more.all (fun j => decide (j = k)) = true
    · simp only [hall, if_true]
      rcases List.mem_cons.1 h with h | h
      · exact h.symm
      · rw [List.all_eq_true] at hall
        have := hall Eol.lf h
        exact (of_decide_eq_true this).symm
    · simp [hall]

theorem eol_kinds_lf_cons (rest : List Nat) :
    eol_kinds (10 :: rest) = Eol.lf :: eol_kinds rest := by
  cases rest with
  | nil => simp [eol_kinds]
  | cons d r => simp [eol_kinds]

theorem eol_kinds_crlf_cons (rest : List Nat) :
    eol_kinds (13 :: 10 :: rest) = Eol.crlf :: eol_kinds rest := by
  simp [eol_kinds]

theorem eol_kinds_cr_cons (d : Nat) (rest : List Nat) (hd : d ≠ 10) :
    eol_kinds (13 :: d :: rest) = Eol.cr :: eol_kinds (d :: rest) := by
  simp [eol_kinds, hd]

theorem eol_kinds_other_cons (c : Nat) (rest : List Nat) (h10 : c ≠ 10) (h13 : c ≠ 13) :
    eol_kinds (c :: rest) = eol_kinds rest := by
  cases rest with
  | nil => simp [eol_kinds, h10, h13]
  | cons d r => simp [eol_kinds, h10, h13]

/-- The classification of the end-of-line occurrences of a content splits at
every place that is not between a CR and the LF that follows it. -/
theorem eol_kinds_append (pre rest : List Nat)
    (h : ¬ (pre.getLast? = some 13 ∧ rest.head? = some 10)) :
    eol_kinds (pre ++ rest) = eol_kinds pre ++ eol_kinds rest := by
  induction pre using eol_kinds.induct with
  | case1 => simp [eol_kinds]
  | case2 => simp [eol_kinds_lf_cons, eol_kinds]
  | case3 =>
    cases rest with
    | nil => simp [eol_kinds]
    | cons d r =>
      have hd : d ≠ 10 := by
        intro hd
        exact h ⟨rfl, by simp [hd]⟩
      simp [eol_kinds_cr_cons d r hd, eol_kinds, hd]
  | case4 c h10 h13 =>
    have h10' : c ≠ 10 := fun e => h10 e
    have h13' : c ≠ 13 := fun e => h13 e
    simp [eol_kinds_other_cons c rest h10' h13', eol_kinds, h10', h13']
  | case5 d r ih =>
    have ih' := ih (by simpa [List.getLast?_cons_cons] using h)
    simp only [List.cons_append] at ih' ⊢
    rw [eol_kinds_lf_cons, eol_kinds_lf_cons, ih']
    rfl
  | case6 r _ ih =>
    have ih' := ih (by
      intro hh
      apply h
      refine ⟨?_, hh.2⟩
      cases r with
      | nil => simp at hh
      | cons x xs => simpa [List.getLast?_cons_cons] using hh.1)
    simp only [List.cons_append] at ih' ⊢
    rw [eol_kinds_crlf_cons, eol_kinds_crlf_cons, ih']
    rfl
  | case7 d r hd _ ih =>
    have hd' : d ≠ 10 := fun e => hd e
    have ih' := ih (by simpa [List.getLast?_cons_cons] using h)
    simp only [List.cons_append] at ih' ⊢
    rw [eol_kinds_cr_cons d _ hd', eol_kinds_cr_cons d _ hd', ih']
    rfl
  | case8 c d r h10 h13 ih =>
    have h10' : c ≠ 10 := fun e => h10 e
    have h13' : c ≠ 13 := fun e => h13 e
    have ih' := ih (by simpa [List.getLast?_cons_cons] using h)
    simp only [List.cons_append] at ih' ⊢
    rw [eol_kinds_other_cons c _ h10' h13', eol_kinds_other_cons c _ h10' h13', ih']

/-- A content with a bare LF (an LF not right after a CR) and, later on, a CR
immediately followed by LF has an LF occurrence and a CRLF occurrence. -/
theorem eol_kinds_lf_then_crlf (pre mid tail : List Nat) (hbare : pre.getLast? ≠ some 13) :
    eol_kinds (pre ++ 10 :: (mid ++ 13 :: 10 :: tail)) =
      eol_kinds pre ++ Eol.lf :: (eol_kinds mid ++ Eol.crlf :: eol_kinds tail) := by
  rw [eol_kinds_append pre _ (fun hh => hbare hh.1), eol_kinds_lf_cons,
    eol_kinds_append mid _ (fun hh => by simp at hh), eol_kinds_crlf_cons]

/-- The marker named by occurrences among which there are an LF and a CRLF:
it is LF unless the first three occurrences are all CR or all CRLF. -/
theorem marker_of_kinds_mixed (ks : List Eol) (hlf : Eol.lf ∈ ks) (hcrlf : Eol.crlf ∈ ks) :
    marker_of_kinds ks = Eol.lf ↔
      ¬ (ks.take 3 = [Eol.cr, Eol.cr, Eol.cr] ∨ ks.take 3 = [Eol.crlf, Eol.crlf, Eol.crlf]) := by
  rcases ks with _ | ⟨a, _ | ⟨b, _ | ⟨c, rest⟩⟩⟩
  · simp at hlf
  · simp only [List.mem_singleton] at hlf hcrlf
    rw [← hlf] at hcrlf
    cases hcrlf
  · cases a <;> cases b <;> simp at hlf hcrlf <;> simp [marker_of_kinds]
  · cases a <;> cases b <;> cases c <;> simp [marker_of_kinds]

theorem marker_of_kinds_three (ks : List Eol) (k : Eol) (h : ks.take 3 = [k, k, k]) :
    marker_of_kinds ks = k := by
  unfold marker_of_kinds
  rw [h]
  simp

/-! ## Facts about line navigation -/

theorem Eol.bytes_length_pos (e : Eol) : 0 < e.bytes.length := by
  cases e <;> simp [Eol.bytes]

theorem occurs_at_length (m as : List Nat) (j : Nat) (h : occurs_at m as j) (hm : 0 < m.length) :
    j + m.length ≤ as.length := by
  have := h.length_le
  rw [List.length_drop] at this
  omega

/-- The result of `memmem`: the first occurrence. -/
theorem memmem_some (needle : List Nat) :
    ∀ (hay : List Nat) (j : Nat), memmem hay needle = some j →
      needle <+: hay.drop j ∧ ∀ i, i < j → ¬ needle <+: hay.drop i := by
  intro hay
  induction hay with
  | nil =>
    intro j h
    simp only [memmem] at h
    split at h
    · cases h
      rename_i hp
      exact ⟨by simpa using hp, fun i hi => absurd hi (Nat.not_lt_zero i)⟩
    · cases h
  | cons c rest ih =>
    intro j h
    simp only [memmem] at h
    split at h
    · cases h
      rename_i hp
      exact ⟨by simpa using hp, fun i hi => absurd hi (Nat.not_lt_zero i)⟩
    · rename_i hp
      simp only [Option.map_eq_some'] at h
      obtain ⟨k, hk, rfl⟩ := h
      obtain ⟨h1, h2⟩ := ih k hk
      refine ⟨by simpa using h1, ?_⟩
      intro i hi
      cases i with
      | zero => simpa using hp
      | succ i => simpa using h2 i (by omega)

/-- No result of `memmem`: no occurrence. -/
theorem memmem_none (needle : List Nat) :
    ∀ (hay : List Nat), memmem hay needle = none → ∀ i, ¬ needle <+: hay.drop i := by
  intro hay
  induction hay with
  | nil =>
    intro h i
    simp only [memmem] at h
    split at h
    · cases h
    · rename_i hp
      simpa using hp
  | cons c rest ih =>
    intro h i
    simp only [memmem] at h
    split at h
    · cases h
    · rename_i hp
      simp only [Option.map_eq_none'] at h
      cases i with
      | zero => simpa using hp
      | succ i => simpa using ih h i

/-- The result of the scan of `memrmem`: the last occurrence at or below `n`. -/
theorem memrmem_scan_some (hay needle : List Nat) :
    ∀ (n j : Nat), memrmem_scan hay needle n = some j →
      j ≤ n ∧ needle <+: hay.drop j ∧ ∀ i, j < i → i ≤ n → ¬ needle <+: hay.drop i := by
  intro n
  induction n with
  | zero =>
    intro j h
    simp only [memrmem_scan] at h
    split at h
    · cases h
      rename_i hp
      exact ⟨Nat.le_refl 0, by simpa using hp, fun i h1 h2 => by omega⟩
    · cases h
  | succ n ih =>
    intro j h
    simp only [memrmem_scan] at h
    split at h
    · cases h
      rename_i hp
      exact ⟨Nat.le_refl _, by simpa using hp, fun i h1 h2 => by omega⟩
    · rename_i hp
      obtain ⟨h1, h2, h3⟩ := ih j h
      refine ⟨by omega, h2, ?_⟩
      intro i hji hin
      by_cases hi : i = n + 1
      · subst hi
        simpa using hp
      · exact h3 i hji (by omega)

theorem memrmem_scan_none (hay needle : List Nat) :
    ∀ n : Nat, memrmem_scan hay needle n = none → ∀ i, i ≤ n → ¬ needle <+: hay.drop i := by
  intro n
  induction n with
  | zero =>
    intro h i hi
    simp only [memrmem_scan] at h
    split at h
    · cases h
    · rename_i hp
      have : i = 0 := by omega
      subst this
      simpa using hp
  | succ n ih =>
    intro h i hi
    simp only [memrmem_scan] at h
    split at h
    · cases h
    · rename_i hp
      by_cases hi' : i = n + 1
      · subst hi'
        simpa using hp
      · exact ih h i (by omega)

/-- An occurrence within the first `o` bytes is an occurrence that ends at or
before `o`. -/
theorem occurs_take (m as : List Nat) (o j : Nat) :
    m <+: (as.take o).drop j ↔ occurs_at m as j ∧ m.length ≤ o - j := by
  rw [List.drop_take, List.prefix_take_iff]
  rfl

/-- The value of `estr_end_of_line`: the first occurrence of the marker from
`o` on, or the length of the content when there is none. -/
theorem estr_end_of_line_cases (es : estr) (o : Nat) :
    first_from es.eol.bytes es.as o (estr_end_of_line es o) ∨
      ((∀ j, o ≤ j → ¬ occurs_at es.eol.bytes es.as j) ∧ estr_end_of_line es o = es.as.length) := by
  unfold estr_end_of_line
  cases h : memmem (es.as.drop o) es.eol.bytes with
  | none =>
    right
    refine ⟨?_, rfl⟩
    intro j hj hocc
    have := memmem_none _ _ h (j - o)
    rw [List.drop_drop] at this
    have hjo : o + (j - o) = j := by omega
    rw [hjo] at this
    exact this hocc
  | some k =>
    left
    obtain ⟨h1, h2⟩ := memmem_some _ _ k h
    rw [List.drop_drop] at h1
    show first_from es.eol.bytes es.as o (o + k)
    refine ⟨by omega, h1, ?_⟩
    intro i hik hoi hocc
    have := h2 (i - o) (by omega)
    rw [List.drop_drop] at this
    have hio : o + (i - o) = i := by omega
    rw [hio] at this
    exact this hocc

theorem first_from_unique (m as : List Nat) (o j k : Nat)
    (hj : first_from m as o j) (hk : first_from m as o k) : j = k := by
  obtain ⟨hj1, hj2, hj3⟩ := hj
  obtain ⟨hk1, hk2, hk3⟩ := hk
  by_contra hne
  rcases Nat.lt_or_gt_of_ne hne with h | h
  · exact hk3 j h hj1 hj2
  · exact hj3 k h hk1 hk2

theorem estr_end_of_line_first (es : estr) (o j : Nat)
    (h : first_from es.eol.bytes es.as o j) : estr_end_of_line es o = j := by
  rcases estr_end_of_line_cases es o with h' | ⟨h', _⟩
  · exact first_from_unique _ _ _ _ _ h' h
  · exact absurd h.2.1 (h' j h.1)

/-- The value of `estr_start_of_line`: just after the last occurrence of the
marker that lies entirely before `o`, or 0 when there is none. -/
theorem estr_start_of_line_cases (es : estr) (o : Nat) (ho : o ≤ es.as.length) :
    (∃ j, last_before es.eol.bytes es.as o j ∧
        estr_start_of_line es o = j + es.eol.bytes.length) ∨
      ((∀ j, j + es.eol.bytes.length ≤ o → ¬ occurs_at es.eol.bytes es.as j) ∧
        estr_start_of_line es o = 0) := by
  have hlen : (es.as.take o).length = o := by simp [ho]
  unfold estr_start_of_line memrmem
  rw [hlen]
  by_cases hL : es.eol.bytes.length ≤ o
  · rw [if_pos hL]
    cases h : memrmem_scan (es.as.take o) es.eol.bytes (o - es.eol.bytes.length) with
    | none =>
      right
      refine ⟨?_, rfl⟩
      intro j hj hocc
      have := memrmem_scan_none _ _ _ h j (by omega)
      rw [occurs_take] at this
      exact this ⟨hocc, by omega⟩
    | some k =>
      left
      obtain ⟨h1, h2, h3⟩ := memrmem_scan_some _ _ _ k h
      rw [occurs_take] at h2
      refine ⟨k, ⟨by omega, h2.1, ?_⟩, rfl⟩
      intro i _ hki hio hocc
      have := h3 i hki (by omega)
      rw [occurs_take] at this
      exact this ⟨hocc, by omega⟩
  · rw [if_neg hL]
    right
    exact ⟨fun j hj _ => hL (by omega), rfl⟩

theorem last_before_unique (m as : List Nat) (o j k : Nat) (hm : 0 < m.length)
    (hj : last_before m as o j) (hk : last_before m as o k) : j = k := by
  obtain ⟨hj1, hj2, hj3⟩ := hj
  obtain ⟨hk1, hk2, hk3⟩ := hk
  by_contra hne
  rcases Nat.lt_or_gt_of_ne hne with h | h
  · exact hj3 k (by omega) h hk1 hk2
  · exact hk3 j (by omega) h hj1 hj2

theorem estr_start_of_line_last (es : estr) (o j : Nat) (ho : o ≤ es.as.length)
    (h : last_before es.eol.bytes es.as o j) :
    estr_start_of_line es o = j + es.eol.bytes.length := by
  rcases estr_start_of_line_cases es o ho with ⟨k, hk, he⟩ | ⟨h', _⟩
  · rw [he, last_before_unique _ _ _ _ _ (Eol.bytes_length_pos es.eol) hk h]
  · exact absurd h.2.1 (h' j h.1)

theorem estr_start_of_line_none (es : estr) (o : Nat) (ho : o ≤ es.as.length)
    (h : ∀ j, j + es.eol.bytes.length ≤ o → ¬ occurs_at es.eol.bytes es.as j) :
    estr_start_of_line es o = 0 := by
  rcases estr_start_of_line_cases es o ho with ⟨k, hk, _⟩ | ⟨_, h'⟩
  · exact absurd hk.2.1 (h k hk.1)
  · exact h'

theorem estr_start_of_line_le (es : estr) (o : Nat) (ho : o ≤ es.as.length) :
    estr_start_of_line es o ≤ o := by
  rcases estr_start_of_line_cases es o ho with ⟨k, hk, he⟩ | ⟨_, h'⟩
  · rw [he]; exact hk.1
  · rw [h']; exact Nat.zero_le _

theorem estr_end_of_line_ge (es : estr) (o : Nat) (ho : o ≤ es.as.length) :
    o ≤ estr_end_of_line es o ∧ estr_end_of_line es o ≤ es.as.length := by
  rcases estr_end_of_line_cases es o with h | ⟨_, h'⟩
  · have := occurs_at_length _ _ _ h.2.1 (Eol.bytes_length_pos es.eol)
    exact ⟨h.1, by omega⟩
  · rw [h']; exact ⟨ho, Nat.le_refl _⟩

/-- Where `estr_end_of_line` stops short of the end there is a marker. -/
theorem estr_end_of_line_lt (es : estr) (o : Nat)
    (h : estr_end_of_line es o ≠ es.as.length) :
    first_from es.eol.bytes es.as o (estr_end_of_line es o) := by
  rcases estr_end_of_line_cases es o with h' | ⟨_, h'⟩
  · exact h'
  · exact absurd h' h

theorem estr_prev_line_eq (es : estr) (o : Nat) :
    estr_prev_line es o =
      if estr_start_of_line es o = 0 then SIZE_MAX
      else estr_start_of_line es (estr_start_of_line es o - es.eol.bytes.length) := rfl

theorem estr_next_line_eq (es : estr) (o : Nat) :
    estr_next_line es o =
      if estr_end_of_line es o = es.as.length then SIZE_MAX
      else estr_end_of_line es o + es.eol.bytes.length := rfl

/-- An offset that is not between the CR and the LF of a CRLF marker is not
strictly inside any occurrence of the marker. -/
theorem no_straddle_of_not_inside (es : estr) (o : Nat)
    (hin : es.eol = Eol.crlf → 0 < o → ¬ occurs_at es.eol.bytes es.as (o - 1)) :
    ∀ j, occurs_at es.eol.bytes es.as j → j < o → j + es.eol.bytes.length ≤ o := by
  intro j hocc hj
  cases he : es.eol with
  | lf => simp only [Eol.bytes, List.length_singleton]; omega
  | cr => simp only [Eol.bytes, List.length_singleton]; omega
  | crlf =>
    simp only [Eol.bytes, List.length_cons, List.length_nil]
    by_contra hlt
    have hjo : j = o - 1 := by omega
    subst hjo
    exact hin he (by omega) hocc

/-- Stepping to the next line and then to the previous line gives the start of
the line, from an offset that is not strictly inside a marker occurrence. -/
theorem prev_line_next_line (es : estr) (o : Nat) (ho : o ≤ es.as.length)
    (hnext : estr_next_line es o ≠ SIZE_MAX)
    (hin : ∀ j, occurs_at es.eol.bytes es.as j → j < o → j + es.eol.bytes.length ≤ o) :
    estr_prev_line es (estr_next_line es o) = estr_start_of_line es o := by
  have hL := Eol.bytes_length_pos es.eol
  have hne : estr_end_of_line es o ≠ es.as.length := by
    intro h
    simp [estr_next_line, h] at hnext
  have hf := estr_end_of_line_lt es o hne
  have hlen := occurs_at_length _ _ _ hf.2.1 hL
  have hnl : estr_next_line es o = estr_end_of_line es o + es.eol.bytes.length := by
    rw [estr_next_line_eq, if_neg hne]
  have hso : estr_start_of_line es (estr_end_of_line es o + es.eol.bytes.length) =
      estr_end_of_line es o + es.eol.bytes.length :=
    estr_start_of_line_last es _ _ hlen
      ⟨Nat.le_refl _, hf.2.1, fun i _ h1 h2 => by omega⟩
  have hpl : estr_prev_line es (estr_end_of_line es o + es.eol.bytes.length) =
      estr_start_of_line es (estr_end_of_line es o) := by
    have hnz : estr_end_of_line es o + es.eol.bytes.length ≠ 0 := by omega
    rw [estr_prev_line_eq, hso, if_neg hnz, Nat.add_sub_cancel]
  rw [hnl, hpl]
  have heo : estr_end_of_line es o ≤ es.as.length := by omega
  rcases estr_start_of_line_cases es o ho with ⟨j, hj, he⟩ | ⟨hn, he⟩
  · rw [he]
    refine estr_start_of_line_last es _ j heo ⟨by have := hj.1; have := hf.1; omega, hj.2.1, ?_⟩
    intro i _ hji hie hocc
    by_cases hio : o ≤ i
    · exact hf.2.2 i (by omega) hio hocc
    · exact hj.2.2 i (by omega) hji (hin i hocc (by omega)) hocc
  · rw [he]
    refine estr_start_of_line_none es _ heo ?_
    intro j hje hocc
    by_cases hjo : o ≤ j
    · exact hf.2.2 j (by omega) hjo hocc
    · exact hn j (hin j hocc (by omega)) hocc

/-! ## Facts about replacement -/

theorem astr_insert_replace (as : List Nat) (pos : Nat) (s : List Nat)
    (hpos : pos ≤ as.length) :
    astr_replace_nstr (astr_insert as pos s.length) pos s =
      as.take pos ++ s ++ as.drop pos := by
  have hl : (as.take pos).length = pos := by simp [hpos]
  unfold astr_replace_nstr astr_insert
  have h1 : (as.take pos ++ List.replicate s.length 0 ++ as.drop pos).take pos = as.take pos := by
    rw [List.append_assoc, List.take_append_of_le_length (by omega)]
    rw [List.take_take, Nat.min_self]
  have h2 : (as.take pos ++ List.replicate s.length 0 ++ as.drop pos).drop (pos + s.length) =
      as.drop pos := by
    have hl2 : (as.take pos ++ List.replicate s.length 0).length = pos + s.length := by
      simp [hl]
    rw [← hl2, List.drop_left]
  rw [h1, h2]

theorem memmem_nil_hay (m : List Nat) (hm : 0 < m.length) : memmem [] m = none := by
  cases m with
  | nil => simp at hm
  | cons a as => simp [memmem, List.isPrefixOf]

theorem intercalate_pieces_cons (sep a : List Nat) (names : List (List Nat)) (h : names ≠ []) :
    List.intercalate sep (a :: names) = a ++ sep ++ List.intercalate sep names := by
  cases names with
  | nil => exact absurd rfl h
  | cons b l => simp [List.intercalate, List.intersperse]

theorem split_marker_ne_nil (m : List Nat) (fuel : Nat) (s : List Nat) :
    split_marker m fuel s ≠ [] := by
  cases fuel with
  | zero => simp [split_marker]
  | succ f =>
    rw [split_marker]
    cases memmem s m <;> simp

/-- The content left by the loop of `estr_replace`: the pieces of `s`, joined
by the marker of the destination, are inserted at `pos`. -/
theorem estr_replace_loop_eq (es_eol m : List Nat) (hm : 0 < m.length) :
    ∀ (fuel : Nat) (as : List Nat) (pos : Nat) (s : List Nat),
      s.length ≤ fuel → pos ≤ as.length →
      estr_replace_loop es_eol m fuel as pos s =
        as.take pos ++ List.intercalate es_eol (split_marker m fuel s) ++ as.drop pos := by
  intro fuel
  induction fuel with
  | zero =>
    intro as pos s hs _
    have : s = [] := List.length_eq_zero.1 (by omega)
    subst this
    simp [estr_replace_loop, split_marker, List.intercalate]
  | succ f ih =>
    intro as pos s hs hpos
    rw [estr_replace_loop, split_marker]
    by_cases hs0 : s.length > 0
    · rw [if_pos hs0]
      cases hmm : memmem s m with
      | none =>
        have hd : s.drop s.length = [] := List.drop_length s
        have ht : s.take s.length = s := List.take_length s
        simp only [hd, ht, List.length_nil, gt_iff_lt, Nat.lt_irrefl, if_false]
        have has1 := astr_insert_replace as pos s hpos
        rw [has1, ih _ _ [] (by simp) (by simp; omega)]
        cases f with
        | zero => simp [split_marker, List.intercalate]
        | succ g =>
          simp [split_marker, memmem_nil_hay m hm, List.intercalate, hpos]
      | some j =>
        obtain ⟨hocc, _⟩ := memmem_some m s j hmm
        have hjl : j + m.length ≤ s.length := by
          have := hocc.length_le
          rw [List.length_drop] at this
          omega
        have hlen1 : (s.drop j).length > 0 := by
          rw [List.length_drop]; omega
        have htl : (s.take j).length = j := by simp; omega
        simp only [hlen1, if_true]
        have has1 : astr_replace_nstr (astr_insert as pos j) pos (s.take j) =
            as.take pos ++ s.take j ++ as.drop pos := by
          have := astr_insert_replace as pos (s.take j) hpos
          rw [htl] at this
          exact this
        rw [has1]
        have hl1 : (as.take pos ++ s.take j).length = pos + j := by simp [hpos, htl]
        have has2 : astr_replace_nstr
            (astr_insert (as.take pos ++ s.take j ++ as.drop pos) (pos + j) es_eol.length)
            (pos + j) es_eol =
            as.take pos ++ s.take j ++ es_eol ++ as.drop pos := by
          rw [astr_insert_replace _ _ _ (by rw [List.length_append, hl1]; omega)]
          rw [← hl1, List.take_left, List.drop_left]
        rw [has2, List.drop_drop]
        have hl2 : (as.take pos ++ s.take j ++ es_eol).length = pos + j + es_eol.length := by
          rw [List.length_append, hl1]
        rw [ih _ _ _ (by rw [List.length_drop]; omega)
          (by rw [List.length_append, hl2]; omega)]
        rw [← hl2, List.take_left, List.drop_left,
          intercalate_pieces_cons _ _ _ (split_marker_ne_nil m f _)]
        simp [List.append_assoc]
    · rw [if_neg hs0]
      have : s = [] := List.length_eq_zero.1 (by omega)
      subst this
      simp [memmem_nil_hay m hm, List.intercalate]

theorem memmem_eq_none (m s : List Nat) (h : ∀ i, ¬ m <+: s.drop i) : memmem s m = none := by
  cases hmm : memmem s m with
  | none => rfl
  | some j => exact absurd (memmem_some m s j hmm).1 (h j)

theorem memmem_eq_some (m s : List Nat) (j : Nat) (hj : m <+: s.drop j)
    (hmin : ∀ i, i < j → ¬ m <+: s.drop i) : memmem s m = some j := by
  cases hmm : memmem s m with
  | none => exact absurd hj (memmem_none m s hmm j)
  | some k =>
    obtain ⟨hk, hkmin⟩ := memmem_some m s k hmm
    by_contra hne
    have hne' : k ≠ j := fun e => hne (by rw [e])
    rcases Nat.lt_or_gt_of_ne hne' with h | h
    · exact hmin k h hk
    · exact hkmin j h hj

/-- Joining the pieces of a content with the marker they were cut at gives the
content back. -/
theorem intercalate_split_marker (m : List Nat) (hm : 0 < m.length) :
    ∀ (fuel : Nat) (s : List Nat), s.length ≤ fuel →
      List.intercalate m (split_marker m fuel s) = s := by
  intro fuel
  induction fuel with
  | zero => intro s _; simp [split_marker, List.intercalate]
  | succ f ih =>
    intro s hs
    rw [split_marker]
    cases hmm : memmem s m with
    | none => simp [List.intercalate]
    | some j =>
      obtain ⟨hocc, _⟩ := memmem_some m s j hmm
      have hjl : j + m.length ≤ s.length := by
        have := hocc.length_le
        rw [List.length_drop] at this
        omega
      simp only
      rw [intercalate_pieces_cons _ _ _ (split_marker_ne_nil m f _),
        ih _ (by rw [List.length_drop]; omega)]
      have hm' : m = (s.drop j).take m.length := List.prefix_iff_eq_take.1 hocc
      have hd : s.drop (j + m.length) = (s.drop j).drop m.length := by
        rw [List.drop_drop]
      rw [hd, List.append_assoc]
      nth_rewrite 1 [hm']
      rw [List.take_append_drop, List.take_append_drop]

theorem prefix_drop_single (a : Nat) :
    ∀ (s : List Nat) (i : Nat), [a] <+: s.drop i ↔ s[i]? = some a := by
  intro s
  induction s with
  | nil => intro i; simp
  | cons c cs ih =>
    intro i
    cases i with
    | zero =>
      simp only [List.drop_zero, List.cons_prefix_cons, List.nil_prefix, and_true,
        List.getElem?_cons_zero, Option.some.injEq]
      exact eq_comm
    | succ i => simpa using ih i

theorem prefix_drop_pair (a b : Nat) :
    ∀ (s : List Nat) (i : Nat), [a, b] <+: s.drop i ↔ s[i]? = some a ∧ s[i + 1]? = some b := by
  intro s
  induction s with
  | nil => intro i; simp
  | cons c cs ih =>
    intro i
    cases i with
    | zero =>
      have h := prefix_drop_single b cs 0
      simp only [List.drop_zero] at h
      simp only [List.drop_zero, List.cons_prefix_cons, List.getElem?_cons_zero,
        Option.some.injEq, Nat.zero_add, List.getElem?_cons_succ, h]
      constructor
      · rintro ⟨h1, h2⟩; exact ⟨h1.symm, h2⟩
      · rintro ⟨h1, h2⟩; exact ⟨h1.symm, h2⟩
    | succ i => simpa using ih i

/-- In a content whose CR and LF bytes occur only as CRLF pairs, no piece cut
at the CRLF marker holds a CR or an LF. -/
theorem split_marker_paired :
    ∀ (fuel : Nat) (s : List Nat), s.length ≤ fuel →
      (∀ i, s[i]? = some 13 → s[i + 1]? = some 10) →
      (∀ i, s[i]? = some 10 → ∃ k, i = k + 1 ∧ s[k]? = some 13) →
      ∀ p ∈ split_marker [13, 10] fuel s, 13 ∉ p ∧ 10 ∉ p := by
  intro fuel
  induction fuel with
  | zero =>
    intro s hs _ _ p hp
    have : s = [] := List.length_eq_zero.1 (by omega)
    subst this
    simp only [split_marker, List.mem_singleton] at hp
    subst hp
    simp
  | succ f ih =>
    intro s hs hcr hlf p hp
    rw [split_marker] at hp
    cases hmm : memmem s [13, 10] with
    | none =>
      have hnone := memmem_none _ _ hmm
      simp only [hmm, List.mem_singleton] at hp
      subst hp
      constructor
      · intro hmem
        obtain ⟨i, hi⟩ := List.mem_iff_getElem?.1 hmem
        exact hnone i ((prefix_drop_pair 13 10 p i).2 ⟨hi, hcr i hi⟩)
      · intro hmem
        obtain ⟨i, hi⟩ := List.mem_iff_getElem?.1 hmem
        obtain ⟨k, hk, hk13⟩ := hlf i hi
        subst hk
        exact hnone k ((prefix_drop_pair 13 10 p k).2 ⟨hk13, hi⟩)
    | some j =>
      obtain ⟨hocc, hmin⟩ := memmem_some _ _ j hmm
      have hocc' := (prefix_drop_pair 13 10 s j).1 hocc
      simp only [hmm, List.mem_cons] at hp
      rcases hp with hp | hp
      · subst hp
        constructor
        · intro hmem
          obtain ⟨i, hi⟩ := List.mem_iff_getElem?.1 hmem
          rw [List.getElem?_take] at hi
          split at hi
          · rename_i hij
            exact hmin i hij ((prefix_drop_pair 13 10 s i).2 ⟨hi, hcr i hi⟩)
          · cases hi
        · intro hmem
          obtain ⟨i, hi⟩ := List.mem_iff_getElem?.1 hmem
          rw [List.getElem?_take] at hi
          split at hi
          · rename_i hij
            obtain ⟨k, hk, hk13⟩ := hlf i hi
            subst hk
            exact hmin k (by omega) ((prefix_drop_pair 13 10 s k).2 ⟨hk13, hi⟩)
          · cases hi
      · refine ih (s.drop (j + 2)) ?_ ?_ ?_ p hp
        · have := hocc.length_le
          rw [List.length_drop] at this ⊢
          simp at this
          omega
        · intro i hi
          rw [List.getElem?_drop] at hi ⊢
          exact hcr _ hi
        · intro i hi
          rw [List.getElem?_drop] at hi
          obtain ⟨k, hk, hk13⟩ := hlf _ hi
          cases i with
          | zero =>
            have hk' : k = j + 1 := by omega
            subst hk'
            rw [hocc'.2] at hk13
            cases hk13
          | succ i =>
            refine ⟨i, rfl, ?_⟩
            rw [List.getElem?_drop]
            have hk' : k = j + 2 + i := by omega
            subst hk'
            exact hk13

/-- Pieces without LF, joined by LF and cut again at LF, are the same pieces. -/
theorem split_marker_lf_join :
    ∀ (P : List (List Nat)), P ≠ [] → (∀ p ∈ P, 10 ∉ p) →
      ∀ fuel, (List.intercalate [10] P).length ≤ fuel →
        split_marker [10] fuel (List.intercalate [10] P) = P := by
  intro P
  induction P with
  | nil => intro h; exact absurd rfl h
  | cons p R ih =>
    intro _ hno fuel hf
    have hp : 10 ∉ p := hno p (List.mem_cons_self _ _)
    cases R with
    | nil =>
      have hnone : memmem p [10] = none := by
        refine memmem_eq_none _ _ ?_
        intro i hi
        exact hp (List.mem_iff_getElem?.2 ⟨i, (prefix_drop_single 10 p i).1 hi⟩)
      have hj : List.intercalate [10] [p] = p := by simp [List.intercalate]
      rw [hj]
      cases fuel with
      | zero => rfl
      | succ f => rw [split_marker, hnone]
    | cons q R =>
      have hj : List.intercalate [10] (p :: q :: R) =
          p ++ [10] ++ List.intercalate [10] (q :: R) :=
        intercalate_pieces_cons _ _ _ (by simp)
      rw [hj] at hf ⊢
      have hsome : memmem (p ++ [10] ++ List.intercalate [10] (q :: R)) [10] =
          some p.length := by
        refine memmem_eq_some _ _ _ ?_ ?_
        · rw [List.append_assoc, List.drop_left]
          simp
        · intro i hi hpre
          have := (prefix_drop_single 10 _ i).1 hpre
          rw [List.append_assoc, List.getElem?_append_left hi] at this
          exact hp (List.mem_iff_getElem?.2 ⟨i, this⟩)
      cases fuel with
      | zero => simp at hf
      | succ f =>
        rw [split_marker, hsome]
        simp only [List.length_singleton]
        have ht : (p ++ [10] ++ List.intercalate [10] (q :: R)).take p.length = p := by
          rw [List.append_assoc, List.take_left]
        have hd : (p ++ [10] ++ List.intercalate [10] (q :: R)).drop (p.length + 1) =
            List.intercalate [10] (q :: R) := by
          have hl : (p ++ [10]).length = p.length + 1 := by simp
          rw [← hl, List.drop_left]
        rw [ht, hd, ih (by simp) (fun r hr => hno r (List.mem_cons_of_mem _ hr)) f
          (by simp at hf; omega)]

theorem mem_intercalate (sep : List Nat) (x : Nat) :
    ∀ P : List (List Nat), x ∈ List.intercalate sep P → x ∈ sep ∨ ∃ p ∈ P, x ∈ p := by
  intro P
  induction P with
  | nil => intro h; simp [List.intercalate] at h
  | cons p R ih =>
    intro h
    cases R with
    | nil =>
      have hj : List.intercalate sep [p] = p := by simp [List.intercalate]
      rw [hj] at h
      exact Or.inr ⟨p, List.mem_cons_self _ _, h⟩
    | cons q R =>
      rw [intercalate_pieces_cons _ _ _ (by simp)] at h
      simp only [List.mem_append] at h
      rcases h with (h | h) | h
      · exact Or.inr ⟨p, List.mem_cons_self _ _, h⟩
      · exact Or.inl h
      · rcases ih h with h | ⟨r, hr, hx⟩
        · exact Or.inl h
        · exact Or.inr ⟨r, List.mem_cons_of_mem _ hr, hx⟩

theorem take_drop_append_length (a b : List Nat) (n : Nat) (h : a.length = n) :
    (a ++ b).take n = a ∧ (a ++ b).drop n = b := by
  subst h
  simp

/-- The content after `estr_replace`. -/
theorem estr_replace_as (es : estr) (pos del : Nat) (ins : estr)
    (h : pos + del ≤ es.as.length) :
    (estr_replace es pos del ins).as =
      es.as.take pos ++ List.intercalate es.eol.bytes (pieces ins.eol.bytes ins.as) ++
        es.as.drop (pos + del) := by
  have hrem : (astr_remove es.as pos del).length = es.as.length - del := by
    simp [astr_remove]; omega
  have hl : (es.as.take pos).length = pos := by simp; omega
  unfold estr_replace pieces
  simp only
  rw [estr_replace_loop_eq _ _ (Eol.bytes_length_pos ins.eol) _ _ _ _ (Nat.le_refl _)
    (by omega)]
  unfold astr_remove
  have htd := take_drop_append_length (es.as.take pos) (es.as.drop (pos + del)) pos hl
  rw [htd.1, htd.2]

/-- Two occurrences of an end-of-line marker do not overlap. -/
theorem Eol.occurs_apart (e : Eol) (s : List Nat) (i j : Nat)
    (hi : e.bytes <+: s.drop i) (hj : e.bytes <+: s.drop j) (hij : i < j) :
    i + e.bytes.length ≤ j := by
  cases e with
  | lf => simp only [Eol.bytes, List.length_singleton]; omega
  | cr => simp only [Eol.bytes, List.length_singleton]; omega
  | crlf =>
    simp only [Eol.bytes, List.length_cons, List.length_nil]
    by_contra hlt
    have hji : j = i + 1 := by omega
    subst hji
    have h1 := (prefix_drop_pair 13 10 s i).1 hi
    have h2 := (prefix_drop_pair 13 10 s (i + 1)).1 hj
    rw [h1.2] at h2
    have := h2.1
    cases this

theorem split_marker_nil (m : List Nat) (hm : 0 < m.length) (fuel : Nat) :
    split_marker m fuel [] = [[]] := by
  cases fuel with
  | zero => rfl
  | succ f => rw [split_marker, memmem_nil_hay m hm]

theorem getLast?_cons_pieces (a : List Nat) (l : List (List Nat)) (h : l ≠ []) :
    (a :: l).getLast? = l.getLast? := by
  cases l with
  | nil => exact absurd rfl h
  | cons b l => simp [List.getLast?_cons_cons]

/-- A content that ends with its marker has an empty last piece. -/
theorem split_marker_last (e : Eol) :
    ∀ (fuel : Nat) (s pre : List Nat), s = pre ++ e.bytes → s.length ≤ fuel →
      (split_marker e.bytes fuel s).getLast? = some [] := by
  intro fuel
  induction fuel with
  | zero =>
    intro s pre hs hlen
    have := Eol.bytes_length_pos e
    rw [hs, List.length_append] at hlen
    omega
  | succ f ih =>
    intro s pre hs hlen
    have hL := Eol.bytes_length_pos e
    have hend : e.bytes <+: s.drop pre.length := by
      rw [hs, List.drop_left]
    rw [split_marker]
    cases hmm : memmem s e.bytes with
    | none => exact absurd hend (memmem_none _ _ hmm _)
    | some j =>
      obtain ⟨hocc, hmin⟩ := memmem_some _ _ j hmm
      simp only
      have hjle : j ≤ pre.length := by
        by_contra hgt
        exact hmin pre.length (by omega) hend
      rw [getLast?_cons_pieces _ _ (split_marker_ne_nil _ _ _)]
      by_cases hj : j = pre.length
      · have hnil : s.drop (j + e.bytes.length) = [] := by
          refine List.drop_eq_nil_of_le ?_
          rw [hs, List.length_append]
          omega
        rw [hnil, split_marker_nil _ hL]
        rfl
      · have hap := Eol.occurs_apart e s j pre.length hocc hend (by omega)
        refine ih _ (pre.drop (j + e.bytes.length)) ?_ ?_
        · rw [hs, List.drop_append_of_le_length hap]
        · rw [List.length_drop]
          omega

/-- A content that starts with its marker has an empty first piece. -/
theorem pieces_head (m rest : List Nat) :
    (pieces m (m ++ rest)).head? = some [] := by
  unfold pieces
  cases hl : (m ++ rest).length with
  | zero =>
    have : m ++ rest = [] := List.length_eq_zero.1 hl
    rw [this]
    rfl
  | succ f =>
    have hsome : memmem (m ++ rest) m = some 0 :=
      memmem_eq_some _ _ 0 (by simp) (fun i hi => absurd hi (Nat.not_lt_zero i))
    rw [split_marker, hsome]
    rfl

/-! ## Facts about the redisplay -/

theorem size_sub_le (a b : Nat) (h : b ≤ a) : size_sub a b = a - b := by
  simp [size_sub, h]

/-- With an effective width of at least 3 the test of `term_redisplay` divides
by a non-zero block size. -/
theorem scroll_test_eq (as : List Nat) (t o lineo ew lp : Nat) (hew : 3 ≤ ew) :
    scroll_test as t o lineo ew lp =
      some (decide (point_col as t o lineo lp ≥ ew - 1 ∨
        lp / (ew / 3) + 2 < lineo / (ew / 3))) := by
  have hb : ¬ ew / 3 = 0 := by
    have : 1 ≤ ew / 3 := (Nat.le_div_iff_mul_le (by decide)).2 (by omega)
    omega
  unfold scroll_test
  rw [size_sub_le ew 1 (by omega)]
  by_cases h : point_col as t o lineo lp ≥ ew - 1
  · simp [h]
  · simp [h, hb]

theorem scroll_test_top (as : List Nat) (t o lineo ew : Nat) (hew : 3 ≤ ew) :
    scroll_test as t o lineo ew lineo = some false := by
  rw [scroll_test_eq as t o lineo ew lineo hew]
  have h0 : point_col as t o lineo lineo = 0 := by
    simp [point_col, line_col_loop]
  simp only [h0, Option.some.injEq, decide_eq_false_iff_not, not_or]
  omega

/-- The outer loop of `term_redisplay` entered at `lp` (effective width at
least 3): it ends, the start column is one more than the greatest index at or
below `lp` that passes the test, or 0 when none does, and `col` is the width
measured from the start column. -/
theorem start_column_loop_spec (as : List Nat) (t o lineo ew : Nat) (hew : 3 ≤ ew) :
    ∀ (lp lastcol : Nat), lastcol = point_col as t o lineo (lp + 1) → lastcol + 1 < ew →
      ∃ sc col, start_column_loop as t o lineo ew lp lastcol = some (sc, col) ∧
        sc ≤ lp + 1 ∧ col = point_col as t o lineo sc ∧ col + 1 < ew ∧
        (∀ l, sc ≤ l → l ≤ lp → scroll_test as t o lineo ew l = some false) ∧
        (sc ≠ 0 → scroll_test as t o lineo ew (sc - 1) = some true) := by
  intro lp
  induction lp with
  | zero =>
    intro lastcol hlast hlt
    have ht := scroll_test_eq as t o lineo ew 0 hew
    rw [start_column_loop]
    by_cases hc : point_col as t o lineo 0 ≥ ew - 1 ∨ 0 / (ew / 3) + 2 < lineo / (ew / 3)
    · rw [ht, decide_eq_true hc]
      refine ⟨1, lastcol, rfl, Nat.le_refl _, hlast, hlt, ?_, ?_⟩
      · intro l h1 h2; omega
      · intro _; rw [ht, decide_eq_true hc]
    · rw [ht, decide_eq_false hc]
      refine ⟨0, _, rfl, Nat.zero_le _, rfl, ?_, ?_, ?_⟩
      · have := not_or.1 hc; omega
      · intro l _ h2
        have : l = 0 := by omega
        subst this
        rw [ht, decide_eq_false hc]
      · intro h; exact absurd rfl h
  | succ lp ih =>
    intro lastcol hlast hlt
    have ht := scroll_test_eq as t o lineo ew (lp + 1) hew
    rw [start_column_loop]
    by_cases hc : point_col as t o lineo (lp + 1) ≥ ew - 1 ∨
        (lp + 1) / (ew / 3) + 2 < lineo / (ew / 3)
    · rw [ht, decide_eq_true hc]
      refine ⟨lp + 1 + 1, lastcol, rfl, Nat.le_refl _, hlast, hlt, ?_, ?_⟩
      · intro l h1 h2; omega
      · intro _
        rw [Nat.add_sub_cancel, ht, decide_eq_true hc]
    · rw [ht, decide_eq_false hc]
      obtain ⟨sc, col, h1, h2, h3, h4, h5, h6⟩ :=
        ih (point_col as t o lineo (lp + 1)) rfl (by have := not_or.1 hc; omega)
      refine ⟨sc, col, h1, by omega, h3, h4, ?_, h6⟩
      intro l hl1 hl2
      by_cases hl : l = lp + 1
      · subst hl
        rw [ht, decide_eq_false hc]
      · exact h5 l hl1 (by omega)

/-- The first part of `term_redisplay` for an effective width of at least 3. -/
theorem term_redisplay_scroll_spec (wp : Window) (hew : 3 ≤ wp.ewidth)
    (hlo : window_lineo wp ≠ SIZE_MAX) :
    ∃ sc col, term_redisplay_scroll wp = some ({ wp with start_column := sc }, col) ∧
      sc ≤ window_lineo wp ∧
      col = point_col wp.bp.text.as wp.bp.tab_width (window_line_o wp) (window_lineo wp) sc ∧
      col + 1 < wp.ewidth ∧
      (∀ l, sc ≤ l → l ≤ window_lineo wp →
        scroll_test wp.bp.text.as wp.bp.tab_width (window_line_o wp) (window_lineo wp)
          wp.ewidth l = some false) ∧
      (sc ≠ 0 →
        scroll_test wp.bp.text.as wp.bp.tab_width (window_line_o wp) (window_lineo wp)
          wp.ewidth (sc - 1) = some true) := by
  have h0 : (0 : Nat) = point_col wp.bp.text.as wp.bp.tab_width (window_line_o wp)
      (window_lineo wp) (window_lineo wp + 1) := by
    simp [point_col, line_col_loop]
  obtain ⟨sc, col, h1, h2, h3, h4, h5, h6⟩ :=
    start_column_loop_spec wp.bp.text.as wp.bp.tab_width (window_line_o wp) (window_lineo wp)
      wp.ewidth hew (window_lineo wp) 0 h0 (by omega)
  refine ⟨sc, col, ?_, ?_, h3, h4, h5, h6⟩
  · simp [term_redisplay_scroll, h1, hlo]
  · by_contra hgt
    have hsc : sc = window_lineo wp + 1 := by omega
    have := h6 (by omega)
    rw [hsc, Nat.add_sub_cancel, scroll_test_top _ _ _ _ _ hew] at this
    cases this

theorem line_col_loop_mono (as : List Nat) (t o : Nat) :
    ∀ (n p col : Nat), col ≤ line_col_loop as t o n p col := by
  intro n
  induction n with
  | zero => intro p col; exact Nat.le_refl _
  | succ n ih =>
    intro p col
    rw [line_col_loop]
    exact Nat.le_trans (Nat.le_add_right _ _) (ih _ _)

theorem line_col_loop_add (as : List Nat) (t o : Nat) :
    ∀ (k n p col : Nat),
      line_col_loop as t o (k + n) p col =
        line_col_loop as t o n (p + k) (line_col_loop as t o k p col) := by
  intro k
  induction k with
  | zero => intro n p col; simp [line_col_loop]
  | succ k ih =>
    intro n p col
    have : k + 1 + n = (k + n) + 1 := by omega
    rw [this, line_col_loop, line_col_loop, ih]
    have : p + 1 + k = p + (k + 1) := by omega
    rw [this]

/-- The body loop of `draw_line` goes through the first `k` characters without
leaving when their width stays below the effective width: what is drawn from
the character `i + k` on starts at the column `line_col_loop ... k i x`. -/
theorem draw_line_loop_split (wp : Window) (o : Nat) (r : Region) (highlight : Bool) (t : Nat) :
    ∀ (k n i x : Nat), line_col_loop wp.bp.text.as t o k i x < wp.ewidth →
      ∃ pre, draw_line_loop wp o r highlight t (k + n) i x =
        (pre ++ (draw_line_loop wp o r highlight t n (i + k)
            (line_col_loop wp.bp.text.as t o k i x)).1,
          (draw_line_loop wp o r highlight t n (i + k)
            (line_col_loop wp.bp.text.as t o k i x)).2) ∧
        x + written_width pre = line_col_loop wp.bp.text.as t o k i x := by
  intro k
  induction k with
  | zero =>
    intro n i x _
    exact ⟨[], by simp [line_col_loop], by simp [line_col_loop, written_width]⟩
  | succ k ih =>
    intro n i x h
    rw [line_col_loop] at h ⊢
    have hx : ¬ x ≥ wp.ewidth := by
      have h1 := line_col_loop_mono wp.bp.text.as t o k (i + 1)
        (x + (make_char_printable (astr_get wp.bp.text.as (o + i)) x t).length)
      omega
    obtain ⟨pre, hpre, hw⟩ := ih n (i + 1) _ h
    have e1 : k + 1 + n = (k + n) + 1 := by omega
    have e2 : i + 1 + k = i + (k + 1) := by omega
    rw [e1, draw_line_loop, if_neg hx]
    simp only
    rw [hpre, e2]
    refine ⟨TermOp.attrset (line_font highlight o i r) ::
      TermOp.addstr (make_char_printable (astr_get wp.bp.text.as (o + i)) x t) :: pre, rfl, ?_⟩
    rw [← hw]
    simp only [written_width]
    omega

/-- The final `x` of the body loop of `draw_line` on a line whose characters
from `i` on are narrower than the effective width: their width. -/
theorem draw_line_loop_x (wp : Window) (o : Nat) (r : Region) (highlight : Bool) (t : Nat)
    (k i x : Nat) (h : line_col_loop wp.bp.text.as t o k i x < wp.ewidth) :
    (draw_line_loop wp o r highlight t k i x).2 = line_col_loop wp.bp.text.as t o k i x := by
  obtain ⟨pre, hpre, _⟩ := draw_line_loop_split wp o r highlight t k 0 i x h
  rw [Nat.add_zero] at hpre
  rw [hpre]
  rfl

/-- The turns of the second loop of `draw_window`. -/
theorem draw_window_rows_spec (wp : Window) (r : Region) (highlight : Bool)
    (t term_width : Nat) :
    ∀ (n i o : Nat),
      (draw_window_rows wp r highlight t term_width n i o).1.length = n ∧
      ∀ k, k < n →
        (draw_window_rows wp r highlight t term_width n i o).1[k]? =
          some (draw_window_row wp r highlight t term_width (i + k)
            (row_offset wp.bp.text k o)).1 := by
  intro n
  induction n with
  | zero => intro i o; exact ⟨rfl, fun k hk => absurd hk (Nat.not_lt_zero k)⟩
  | succ n ih =>
    intro i o
    rw [draw_window_rows]
    simp only
    obtain ⟨h1, h2⟩ := ih (i + 1) (draw_window_row wp r highlight t term_width i o).2
    refine ⟨by simp [h1], ?_⟩
    intro k hk
    cases k with
    | zero => simp [row_offset]
    | succ k =>
      have hrow : (draw_window_row wp r highlight t term_width i o).2 =
          (if o = SIZE_MAX then o else estr_next_line wp.bp.text o) := by
        unfold draw_window_row
        split <;> rfl
      have := h2 k (by omega)
      rw [List.getElem?_cons_succ, this, hrow, row_offset]
      have e : i + 1 + k = i + (k + 1) := by omega
      rw [e]

/-- The start of a line is its own line start. -/
theorem estr_start_of_line_idem (es : estr) (x : Nat) (hx : x ≤ es.as.length) :
    estr_start_of_line es (estr_start_of_line es x) = estr_start_of_line es x := by
  have hL := Eol.bytes_length_pos es.eol
  have hle := estr_start_of_line_le es x hx
  rcases estr_start_of_line_cases es x hx with ⟨j, hj, he⟩ | ⟨_, he⟩
  · rw [he]
    exact estr_start_of_line_last es _ j (by omega)
      ⟨Nat.le_refl _, hj.2.1, fun i _ h1 h2 => by omega⟩
  · rw [he]
    exact estr_start_of_line_none es 0 (Nat.zero_le _) (fun j hj => by omega)

/-- The assertion of the first loop of `draw_window` holds: walking back from
the start of a line never meets the sentinel. -/
theorem draw_window_first_line_some (es : estr) (hmax : es.as.length < SIZE_MAX) :
    ∀ (i x : Nat), x ≤ es.as.length →
      ∃ o, draw_window_first_line es i (estr_start_of_line es x) = some o ∧
        o ≤ es.as.length := by
  intro i
  induction i with
  | zero =>
    intro x hx
    exact ⟨_, rfl, Nat.le_trans (estr_start_of_line_le es x hx) hx⟩
  | succ i ih =>
    intro x hx
    have hL := Eol.bytes_length_pos es.eol
    have hle := estr_start_of_line_le es x hx
    rw [draw_window_first_line]
    by_cases h0 : estr_start_of_line es x > 0
    · rw [if_pos h0]
      have hne : ¬ estr_start_of_line es x = 0 := by omega
      have hprev : estr_prev_line es (estr_start_of_line es x) =
          estr_start_of_line es (estr_start_of_line es x - es.eol.bytes.length) := by
        rw [estr_prev_line_eq, estr_start_of_line_idem es x hx, if_neg hne]
      have hx' : estr_start_of_line es x - es.eol.bytes.length ≤ es.as.length := by omega
      have hle' := estr_start_of_line_le es _ hx'
      have hns : estr_prev_line es (estr_start_of_line es x) ≠ SIZE_MAX := by
        rw [hprev]; omega
      rw [if_pos hns, hprev]
      exact ih _ hx'
    · rw [if_neg h0]
      exact ⟨_, rfl, by omega⟩

/-! ## Further facts about the redisplay, line navigation and the trie -/

/-- With an effective width of 0 or 2 the first turn of the loop of
`term_redisplay` divides by zero. -/
theorem scroll_test_top_narrow (as : List Nat) (t o lineo ew : Nat) (hew : ew = 0 ∨ ew = 2) :
    scroll_test as t o lineo ew lineo = none := by
  have h0 : point_col as t o lineo lineo = 0 := by
    simp [point_col, line_col_loop]
  unfold scroll_test
  rw [h0]
  rcases hew with h | h <;> subst h <;> simp [size_sub, SIZE_MAX]

/-- With an effective width of 1 the first turn of the loop of
`term_redisplay` leaves the loop without dividing. -/
theorem scroll_test_one (as : List Nat) (t o lineo lp : Nat) :
    scroll_test as t o lineo 1 lp = some true := by
  simp [scroll_test, size_sub]

/-- The loop of `term_redisplay` entered at `lp = lineo` gives what its first
test gives when that test does not come out false. -/
theorem start_column_loop_first (as : List Nat) (t o lineo ew lp lastcol : Nat) :
    (scroll_test as t o lineo ew lp = none →
      start_column_loop as t o lineo ew lp lastcol = none) ∧
    (scroll_test as t o lineo ew lp = some true →
      start_column_loop as t o lineo ew lp lastcol = some (lp + 1, lastcol)) := by
  cases lp with
  | zero =>
    constructor <;> intro h <;> rw [start_column_loop, h]
  | succ lp =>
    constructor <;> intro h <;> rw [start_column_loop, h]

set_option maxRecDepth 100000 in
/-- The conversion `%o` on a byte value gives its octal digits without leading
zeros. -/
theorem toDigits_octal_of_byte : ∀ b, b < 256 → Nat.toDigits 8 b = octal_of_byte b := by
  decide

/-- A tab drawn at column `x` ends at the least multiple of the tab width
above `x`. -/
theorem tab_stop_least (x w : Nat) (hw : 1 ≤ w) :
    w ∣ x + (w - x % w) ∧ x < x + (w - x % w) ∧
      ∀ m, w ∣ m → x < m → x + (w - x % w) ≤ m := by
  have hmod : x % w < w := Nat.mod_lt x (by omega)
  have hdm : w * (x / w) + x % w = x := Nat.div_add_mod x w
  have hsum : x + (w - x % w) = w * (x / w + 1) := by
    rw [Nat.mul_add, Nat.mul_one]
    omega
  refine ⟨⟨x / w + 1, hsum⟩, by omega, ?_⟩
  rintro m ⟨k, rfl⟩ hlt
  rw [hsum]
  apply Nat.mul_le_mul_left
  by_contra hk
  have hk' : k ≤ x / w := by omega
  have : w * k ≤ w * (x / w) := Nat.mul_le_mul_left w hk'
  omega

/-- The function `make_char_printable` on the `int` value of a byte against
the reference rendering of that byte. -/
theorem make_char_printable_eq_ref (b x w : Nat) (hb : b < 256) (c : Int)
    (hc : c = (b : Int) ∨ c = (b : Int) - 256) (hrange : -128 ≤ c) :
    make_char_printable c x w = make_char_printable_ref b x w := by
  rcases hc with hc | hc
  · subst hc
    unfold make_char_printable make_char_printable_ref isprint
    by_cases h9 : b = 9
    · subst h9; simp
    · have h9' : ¬ ((b : Int) = 9) := by omega
      rw [if_neg h9', if_neg h9]
      by_cases hp : 32 ≤ b ∧ b ≤ 126
      · have hp' : (32 : Int) ≤ (b : Int) ∧ (b : Int) ≤ 126 := by omega
        simp [hp, hp']
      · have hp' : ¬ ((32 : Int) ≤ (b : Int) ∧ (b : Int) ≤ 126) := by omega
        rw [if_neg hp]
        simp only [hp', decide_False, Bool.false_eq_true, if_false]
        by_cases h0 : b = 0
        · subst h0; simp
        · have h0' : ¬ ((b : Int) = 0) := by omega
          rw [if_neg h0', if_neg h0]
          by_cases hk : 1 ≤ b ∧ b ≤ 26
          · have hk' : (b : Int) > 0 ∧ (b : Int) ≤ 26 := by omega
            simp [hk, hk']
          · have hk' : ¬ ((b : Int) > 0 ∧ (b : Int) ≤ 26) := by omega
            rw [if_neg hk', if_neg hk]
            have hm : ((b : Int) % 256).toNat = b := by omega
            rw [hm, toDigits_octal_of_byte b hb]
  · have hb128 : 128 ≤ b := by omega
    have hm : (c % 256).toNat = b := by omega
    have h9 : ¬ c = 9 := by omega
    have hp : ¬ ((32 : Int) ≤ c ∧ c ≤ 126) := by omega
    have h0 : ¬ c = 0 := by omega
    have hk : ¬ (c > 0 ∧ c ≤ 26) := by omega
    unfold make_char_printable make_char_printable_ref isprint
    rw [if_neg h9]
    simp only [hp, decide_False, Bool.false_eq_true, if_false]
    rw [if_neg h0, if_neg hk, hm, toDigits_octal_of_byte b hb]
    have g9 : ¬ b = 9 := by omega
    have gp : ¬ (32 ≤ b ∧ b ≤ 126) := by omega
    have g0 : ¬ b = 0 := by omega
    have gk : ¬ (1 ≤ b ∧ b ≤ 26) := by omega
    rw [if_neg g9, if_neg gp, if_neg g0, if_neg gk]

/-- The reference rendering is never empty. -/
theorem make_char_printable_ref_ne_nil (b x w : Nat) (hw : 1 ≤ w) :
    make_char_printable_ref b x w ≠ [] := by
  unfold make_char_printable_ref
  have hmod : x % w < w := Nat.mod_lt x (by omega)
  split_ifs with h1 h2 h3 h4
  · intro h
    have := congrArg List.length h
    simp at this
    omega
  all_goals simp

/-- The offset before a line start is the end of the line before: stepping to
the next line from the previous line's start gives the line start back. -/
theorem next_line_prev_line (es : estr) (o : Nat) (ho : o ≤ es.as.length)
    (hprev : estr_prev_line es o ≠ SIZE_MAX) :
    estr_next_line es (estr_prev_line es o) = estr_start_of_line es o ∧
      estr_prev_line es o < estr_start_of_line es o := by
  have hL := Eol.bytes_length_pos es.eol
  rcases estr_start_of_line_cases es o ho with ⟨j, hj, he⟩ | ⟨_, he⟩
  · have hjo : j ≤ es.as.length := by have := hj.1; omega
    have hne : ¬ j + es.eol.bytes.length = 0 := by omega
    have hp : estr_prev_line es o = estr_start_of_line es j := by
      rw [estr_prev_line_eq, he, if_neg hne, Nat.add_sub_cancel]
    have hple := estr_start_of_line_le es j hjo
    have hfirst : first_from es.eol.bytes es.as (estr_start_of_line es j) j := by
      refine ⟨hple, hj.2.1, ?_⟩
      intro i hij hpi hocc
      have hapart := Eol.occurs_apart es.eol es.as i j hocc hj.2.1 hij
      rcases estr_start_of_line_cases es j hjo with ⟨k, hk, hke⟩ | ⟨hn, _⟩
      · exact hk.2.2 i hij (by omega) hapart hocc
      · exact hn i hapart hocc
    have hend := estr_end_of_line_first es _ j hfirst
    have hlen := occurs_at_length _ _ _ hj.2.1 hL
    have hjne : ¬ j = es.as.length := by omega
    rw [hp, estr_next_line_eq, hend, if_neg hjne, he]
    exact ⟨rfl, by omega⟩
  · exfalso
    apply hprev
    rw [estr_prev_line_eq, he, if_pos rfl]

/-- The count of marker occurrences does not change over a stretch without
occurrence. -/
theorem countP_range_gap (p : Nat → Bool) (a : Nat) :
    ∀ b, a ≤ b → (∀ i, a ≤ i → i < b → p i = false) →
      (List.range b).countP p = (List.range a).countP p := by
  intro b
  induction b with
  | zero =>
    intro hab _
    have : a = 0 := by omega
    rw [this]
  | succ b ih =>
    intro hab hgap
    by_cases h : a = b + 1
    · rw [h]
    · have hb := hgap b (by omega) (by omega)
      rw [List.range_succ, List.countP_append, ih (by omega) (fun i h1 h2 => hgap i h1 (by omega))]
      simp [hb]

theorem countP_range_mono (p : Nat → Bool) (a b : Nat) (hab : a ≤ b) :
    (List.range a).countP p ≤ (List.range b).countP p := by
  induction b with
  | zero =>
    have : a = 0 := by omega
    rw [this]
  | succ b ih =>
    by_cases h : a = b + 1
    · rw [h]
    · have := ih (by omega)
      rw [List.range_succ, List.countP_append]
      omega

theorem countP_range_succ (p : Nat → Bool) (j : Nat) (h : p j = true) :
    (List.range (j + 1)).countP p = (List.range j).countP p + 1 := by
  rw [List.range_succ, List.countP_append]
  simp [h]

/-- The line that starts just after the marker occurrence at `j` has one line
more before it than the line of `j`. -/
theorem lines_before_after_marker (es : estr) (j : Nat)
    (hj : occurs_at es.eol.bytes es.as j) :
    lines_before es (j + es.eol.bytes.length) = lines_before es j + 1 := by
  have hL := Eol.bytes_length_pos es.eol
  unfold lines_before
  have e1 : j + es.eol.bytes.length + 1 - es.eol.bytes.length = j + 1 := by omega
  rw [e1, countP_range_succ _ j (by simpa using hj)]
  congr 1
  apply countP_range_gap _ _ j (by omega)
  intro i h1 h2
  simp only [decide_eq_false_iff_not]
  intro hocc
  have := Eol.occurs_apart es.eol es.as i j hocc hj h2
  omega

/-- The start of a line has as many lines before it as every offset of the
line. -/
theorem lines_before_start_of_line (es : estr) (o : Nat) (ho : o ≤ es.as.length) :
    lines_before es (estr_start_of_line es o) = lines_before es o := by
  have hL := Eol.bytes_length_pos es.eol
  rcases estr_start_of_line_cases es o ho with ⟨j, hj, he⟩ | ⟨hn, he⟩
  · rw [he]
    unfold lines_before
    have e1 : j + es.eol.bytes.length + 1 - es.eol.bytes.length = j + 1 := by omega
    rw [e1]
    symm
    apply countP_range_gap _ _ _ (by have := hj.1; omega)
    intro i h1 h2
    simp only [decide_eq_false_iff_not]
    exact hj.2.2 i (by omega) (by omega) (by omega)
  · rw [he]
    unfold lines_before
    have e1 : 0 + 1 - es.eol.bytes.length = 0 := by omega
    rw [e1]
    symm
    apply countP_range_gap _ _ _ (Nat.zero_le _)
    intro i _ h2
    simp only [decide_eq_false_iff_not]
    exact hn i (by omega)

/-- The value of `estr_start_of_line` is the start of a line. -/
theorem line_start_start_of_line (es : estr) (o : Nat) (ho : o ≤ es.as.length) :
    line_start es (estr_start_of_line es o) := by
  have hL := Eol.bytes_length_pos es.eol
  rcases estr_start_of_line_cases es o ho with ⟨j, hj, he⟩ | ⟨_, he⟩
  · exact Or.inr ⟨j, by omega, hj.2.1, he⟩
  · exact Or.inl he

/-- Two starts of lines with the same number of lines before them are the
same offset. -/
theorem line_start_unique (es : estr) (r s : Nat) (hr : line_start es r)
    (hs : line_start es s) (h : lines_before es r = lines_before es s) : r = s := by
  have hL := Eol.bytes_length_pos es.eol
  have key : ∀ a b, line_start es b → a < b → lines_before es a < lines_before es b := by
    intro a b hb hab
    rcases hb with h0 | ⟨j, _, hj, hbj⟩
    · omega
    · have hmono := countP_range_mono (fun j => decide (occurs_at es.eol.bytes es.as j))
        (a + 1 - es.eol.bytes.length) j (by omega)
      have hsucc := countP_range_succ (fun j => decide (occurs_at es.eol.bytes es.as j)) j
        (by simpa using hj)
      have e1 : b + 1 - es.eol.bytes.length = j + 1 := by omega
      unfold lines_before
      rw [e1]
      omega
  by_contra hne
  rcases Nat.lt_or_gt_of_ne hne with hlt | hgt
  · have := key r s hs hlt; omega
  · have := key s r hr hgt; omega

/-- The backward walk of `draw_window` from the start of the line of `x`, with
`i` lines to go back: its assertion holds, and it ends at the start of the
line that has `min i n` lines fewer before it, `n` being the number of lines
before the line of `x`. -/
theorem draw_window_first_line_spec (es : estr) (hlen : es.as.length ≤ SIZE_MAX) :
    ∀ (i x : Nat), x ≤ es.as.length →
      ∃ r, draw_window_first_line es i (estr_start_of_line es x) = some r ∧
        line_start es r ∧ r ≤ x ∧
        lines_before es r = lines_before es x - min i (lines_before es x) := by
  intro i
  induction i with
  | zero =>
    intro x hx
    refine ⟨_, rfl, line_start_start_of_line es x hx, estr_start_of_line_le es x hx, ?_⟩
    rw [lines_before_start_of_line es x hx]
    simp
  | succ i ih =>
    intro x hx
    have hL := Eol.bytes_length_pos es.eol
    have hle := estr_start_of_line_le es x hx
    rw [draw_window_first_line]
    rcases estr_start_of_line_cases es x hx with ⟨j, hj, he⟩ | ⟨_, he⟩
    · have hpos : estr_start_of_line es x > 0 := by omega
      have hne : ¬ estr_start_of_line es x = 0 := by omega
      have hjx : j ≤ es.as.length := by have := hj.1; omega
      have hprev : estr_prev_line es (estr_start_of_line es x) = estr_start_of_line es j := by
        rw [estr_prev_line_eq, estr_start_of_line_idem es x hx, if_neg hne, he,
          Nat.add_sub_cancel]
      have hlej := estr_start_of_line_le es j hjx
      have hns : estr_prev_line es (estr_start_of_line es x) ≠ SIZE_MAX := by
        rw [hprev]
        have := hj.1
        omega
      rw [if_pos hpos, if_pos hns, hprev]
      obtain ⟨r, h1, h2, h3, h4⟩ := ih j hjx
      refine ⟨r, h1, h2, by have := hj.1; omega, ?_⟩
      have hcount : lines_before es x = lines_before es j + 1 := by
        rw [← lines_before_start_of_line es x hx, he, lines_before_after_marker es j hj.2.1]
      rw [h4, hcount]
      omega
    · have hnp : ¬ estr_start_of_line es x > 0 := by omega
      rw [if_neg hnp, he]
      refine ⟨0, rfl, Or.inl rfl, Nat.zero_le _, ?_⟩
      have h0 := lines_before_start_of_line es x hx
      rw [he] at h0
      have hz : lines_before es 0 = 0 := by
        unfold lines_before
        have e1 : 0 + 1 - es.eol.bytes.length = 0 := by omega
        rw [e1]
        rfl
      rw [← h0, hz]
      simp

/-- The lookup of a chord list reads the branch vector of the node only. -/
theorem search_key_vec_congr (t u : Binding) (h : t.vec = u.vec) (s : List Nat) :
    search_key t s = search_key u s := by
  cases s with
  | nil => simp [search_key_nil]
  | cons k rest => simp only [search_key_cons, search_node_eq, h]

theorem search_key_no_child (p : Binding) (hv : p.vec = []) (s : List Nat) :
    search_key p s = none := by
  cases s with
  | nil => exact search_key_nil p
  | cons k rest => simp [search_key_cons, search_node_eq, hv]

/-- The lookup of a chord list whose first chord is not `k` only reads
children other than the one with the key `k`. -/
theorem search_key_other_child (t u : Binding) (k k' : Nat) (rest : List Nat) (hk : k ≠ k')
    (h : ∀ x, x ≠ k → search_node t x = search_node u x) :
    search_key t (k' :: rest) = search_key u (k' :: rest) := by
  rw [search_key_cons, search_key_cons, h k' (fun e => hk e.symm)]

/-- A bind of the chord list `keys` changes no lookup but those of the
beginnings of `keys`. -/
theorem bind_key_vec_frame (keys : List Nat) (func : Option Nat) :
    ∀ (tree t : Binding) (s : List Nat), bind_key_vec tree keys func = some t →
      s ≠ [] → ¬ s <+: keys → search_key t s = search_key tree s := by
  induction keys with
  | nil => intro tree t s h; simp [bind_key_vec] at h
  | cons k rest ih =>
    intro tree t s h hs hnp
    cases s with
    | nil => exact absurd rfl hs
    | cons k' srest =>
      have hrest : k' = k → srest ≠ [] ∧ ¬ srest <+: rest := by
        intro hk
        subst hk
        constructor
        · intro he
          apply hnp
          rw [he]
          simp
        · intro hp
          apply hnp
          obtain ⟨z, hz⟩ := hp
          exact ⟨z, by simp [← hz]⟩
      unfold bind_key_vec at h
      cases hsn : search_node tree k with
      | none =>
        simp only [hsn] at h
        by_cases hk : k' = k
        · obtain ⟨hne, hnp'⟩ := hrest hk
          subst hk
          rw [search_key_cons tree, hsn]
          split at h
          · cases h
            have hf := find_insert_sorted_self
              { key := k', func := func, vec := [], vecmax := 1 } tree.vec hsn
            rw [search_key_cons, search_node_eq]
            simp only [add_node, node_new]
            simp only [node_new] at hf
            rw [hf]
            simp only [hne, if_false]
            exact search_key_no_child _ rfl srest
          · simp only [Option.map_eq_some'] at h
            obtain ⟨q, hq, rfl⟩ := h
            have hqk : q.key = k' := bind_key_vec_key rest func _ q hq
            have hf := find_insert_sorted_self q tree.vec (by rw [hqk]; exact hsn)
            rw [hqk] at hf
            rw [search_key_cons, search_node_eq]
            simp only [add_node]
            rw [hf]
            simp only [hne, if_false]
            rw [ih _ q srest hq hne hnp']
            exact search_key_no_child _ rfl srest
        · apply search_key_other_child _ _ k k' srest (fun e => hk e.symm)
          intro x hx
          split at h
          · cases h
            simp only [search_node_eq, add_node]
            exact find_insert_sorted_other _ x tree.vec (fun e => hx e.symm)
          · simp only [Option.map_eq_some'] at h
            obtain ⟨q, hq, rfl⟩ := h
            have hqk : q.key = k := bind_key_vec_key rest func _ q hq
            simp only [search_node_eq, add_node]
            exact find_insert_sorted_other q x tree.vec (by rw [hqk]; exact fun e => hx e.symm)
      | some s0 =>
        simp only [hsn] at h
        have hsk : s0.key = k := search_node_key tree s0 k hsn
        by_cases hk : k' = k
        · obtain ⟨hne, hnp'⟩ := hrest hk
          subst hk
          rw [search_key_cons tree, hsn]
          simp only [hne, if_false]
          split at h
          · simp only [Option.map_eq_some'] at h
            obtain ⟨q, hq, rfl⟩ := h
            have hqk : q.key = k' := (bind_key_vec_key rest func _ q hq).trans hsk
            have hf := find_replace_node_self q s0 k' tree.vec hqk hsn
            rw [search_key_cons, search_node_eq]
            simp only
            rw [hf]
            simp only [hne, if_false]
            exact ih s0 q srest hq hne hnp'
          · cases h
            have hf := find_replace_node_self { s0 with func := func } s0 k' tree.vec hsk hsn
            rw [search_key_cons, search_node_eq]
            simp only
            rw [hf]
            simp only [hne, if_false]
            exact search_key_vec_congr { s0 with func := func } s0 rfl srest
        · apply search_key_other_child _ _ k k' srest (fun e => hk e.symm)
          intro x hx
          split at h
          · simp only [Option.map_eq_some'] at h
            obtain ⟨q, hq, rfl⟩ := h
            have hqk : q.key = k := (bind_key_vec_key rest func _ q hq).trans hsk
            simp only [search_node_eq]
            exact find_replace_node_other q k x tree.vec hqk (fun e => hx e.symm)
          · cases h
            simp only [search_node_eq]
            exact find_replace_node_other _ k x tree.vec hsk (fun e => hx e.symm)

/-- Every trie made by binds of non-empty chord lists from the empty root has
ascending branch vectors. -/
theorem bind_all_ascending (binds : List (List Nat × Option Nat))
    (hne : ∀ b ∈ binds, b.1 ≠ []) :
    ∃ t, bind_all init_bindings binds = some t ∧ ∀ n ∈ t.nodes, keys_ascending n.vec := by
  obtain ⟨t, ht⟩ := bind_all_some binds init_bindings hne
  refine ⟨t, ht, ?_⟩
  refine bind_all_induction (fun t => ∀ n ∈ t.nodes, keys_ascending n.vec)
    (fun tree keys func t hP h => bind_key_vec_ascending keys func tree t hP h)
    binds init_bindings t ?_ ht
  intro n hn
  simp only [init_bindings, nodes_eq, node_new, nodes_of_vec, List.mem_singleton] at hn
  subst hn
  simp [keys_ascending]

/-- When the loop of `completion_scan` reads all the chords of `input` and
returns a command. -/
theorem completion_scan_loop_all (bindings : Binding) (f : Nat) :
    ∀ (input keys : List Nat),
      ((completion_scan_loop bindings keys input).map (fun r => (r.func, r.keys, r.input)) =
          some (some f, keys ++ input, [])) ↔
        ((∃ p, search_key bindings (keys ++ input) = some p ∧ p.func = some f) ∧
          ∀ m, m < input.length →
            ∃ q, search_key bindings (keys ++ input.take m) = some q ∧ q.func = none) := by
  intro input
  induction input with
  | nil =>
    intro keys
    simp only [List.append_nil, List.length_nil, Nat.not_lt_zero, false_implies, implies_true,
      and_true]
    unfold completion_scan_loop scan_lookup
    cases hk : search_key bindings keys with
    | none => simp
    | some p =>
      cases hf : p.func with
      | none => simp [hf]
      | some g => simp [hf]
  | cons c rest ih =>
    intro keys
    have hsplit : keys ++ c :: rest = (keys ++ [c]) ++ rest := by simp
    unfold completion_scan_loop
    cases hl : scan_lookup bindings keys with
    | some g =>
      simp only [Option.map_some', Option.some.injEq, Prod.mk.injEq]
      constructor
      · rintro ⟨_, _, h⟩
        cases h
      · rintro ⟨_, hpre⟩
        obtain ⟨q, hq, hqf⟩ := hpre 0 (by simp)
        simp only [List.take_zero, List.append_nil] at hq
        rw [scan_lookup_continue bindings keys q hq hqf] at hl
        cases hl
    | none =>
      simp only
      have hq : ∃ q, search_key bindings keys = some q ∧ q.func = none := by
        unfold scan_lookup at hl
        cases hk : search_key bindings keys with
        | none => simp [hk] at hl
        | some q =>
          cases hf : q.func with
          | none => exact ⟨q, rfl, hf⟩
          | some g => simp [hk, hf] at hl
      rw [hsplit, ih (keys ++ [c])]
      constructor
      · rintro ⟨hp, hpre⟩
        refine ⟨hp, ?_⟩
        intro m hm
        cases m with
        | zero => simpa using hq
        | succ m =>
          have := hpre m (by simpa using hm)
          simpa [List.take_succ_cons] using this
      · rintro ⟨hp, hpre⟩
        refine ⟨hp, ?_⟩
        intro m hm
        have := hpre (m + 1) (by simpa using hm)
        simpa [List.take_succ_cons] using this

/-- Typing `s` invokes `f` exactly when `s` resolves to a node that carries
`f`. -/
theorem invokes_iff_resolves (t : Binding) (s : List Nat) (f : Nat) :
    invokes t s f ↔ ∃ p, resolves t s p ∧ p.func = some f := by
  cases s with
  | nil =>
    simp only [invokes, false_iff]
    rintro ⟨p, hp, _⟩
    exact resolves_ne_nil t [] p hp rfl
  | cons k rest =>
    have h := completion_scan_loop_all t f rest [k]
    simp only [List.singleton_append] at h
    have hinv : invokes t (k :: rest) f ↔
        (completion_scan_loop t [k] rest).map (fun r => (r.func, r.keys, r.input)) =
          some (some f, k :: rest, []) := Iff.rfl
    rw [hinv, h]
    constructor
    · rintro ⟨⟨p, hp, hpf⟩, hpre⟩
      refine ⟨p, ⟨hp, by simp [hpf], ?_⟩, hpf⟩
      intro m hm hml
      cases m with
      | zero => omega
      | succ m =>
        have := hpre m (by simpa using hml)
        simpa [List.take_succ_cons] using this
    · rintro ⟨p, ⟨hp, _, hpre⟩, hpf⟩
      refine ⟨⟨p, hp, hpf⟩, ?_⟩
      intro m hm
      have := hpre (m + 1) (by omega) (by simpa using hm)
      simpa [List.take_succ_cons] using this

/-- Every chord sequence reported by the walk over a branch vector goes on from
`path` with the key of a member of the vector. -/
theorem walk_paths_vec_head (vec : List Binding) (path : List Nat)
    (hasc : keys_ascending vec) (hall : ∀ c ∈ vec, ∀ n ∈ c.nodes, keys_ascending n.vec)
    (s : List Nat) (p : Binding) (h : (s, p) ∈ walk_paths_vec vec path) :
    ∃ d ∈ vec, ∃ x, s = path ++ d.key :: x := by
  obtain ⟨r, hr, hres⟩ := (mem_walk_paths_vec vec ⟨0, none, vec, 0⟩ path rfl hasc hall s p).1 h
  cases r with
  | nil => exact absurd rfl (resolves_ne_nil _ [] p hres)
  | cons k rest =>
    obtain ⟨d, hd, _⟩ := (resolves_cons _ k rest p).1 hres
    have hdk : d.key = k := search_node_key _ d k hd
    have hdm : d ∈ vec := search_node_mem ⟨0, none, vec, 0⟩ d k hd
    exact ⟨d, hdm, rest, by rw [hr, hdk]⟩

mutual
/-- In a trie with ascending branch vectors, the walk over a branch vector
reports the chord sequences in ascending lexicographic order. -/
theorem lex_walk_paths_vec :
    ∀ (vec : List Binding) (path : List Nat),
      keys_ascending vec → (∀ c ∈ vec, ∀ n ∈ c.nodes, keys_ascending n.vec) →
      ((walk_paths_vec vec path).map Prod.fst).Pairwise (List.Lex (fun a b : Nat => a < b))
  | [], path, _, _ => by simp [walk_paths_vec]
  | c :: cs, path, hasc, hall => by
    have hlt := (keys_ascending_cons c cs hasc).1
    have hcs := (keys_ascending_cons c cs hasc).2
    have hallT : ∀ d ∈ cs, ∀ n ∈ d.nodes, keys_ascending n.vec :=
      fun d hd => hall d (List.mem_cons_of_mem _ hd)
    have hallH := hall c (List.mem_cons_self _ _)
    rw [walk_paths_vec, List.map_append, List.pairwise_append]
    refine ⟨?_, lex_walk_paths_vec cs path hcs hallT, ?_⟩
    · by_cases hf : c.func ≠ none
      · simp [if_pos hf]
      · rw [if_neg hf]
        exact lex_walk_paths_tree c (path ++ [c.key]) hallH
    · intro a ha b hb
      obtain ⟨⟨a1, p1⟩, hm1, rfl⟩ := List.mem_map.1 ha
      obtain ⟨⟨b1, p2⟩, hm2, rfl⟩ := List.mem_map.1 hb
      simp only
      have hhead : ∃ x, a1 = path ++ c.key :: x := by
        by_cases hf : c.func ≠ none
        · rw [if_pos hf] at hm1
          simp only [List.mem_singleton, Prod.mk.injEq] at hm1
          exact ⟨[], hm1.1⟩
        · rw [if_neg hf] at hm1
          obtain ⟨r, hr, _⟩ := (mem_walk_paths_tree c (path ++ [c.key]) hallH a1 p1).1 hm1
          exact ⟨r, by simp [hr]⟩
      obtain ⟨x, hx⟩ := hhead
      obtain ⟨d, hd, y, hy⟩ := walk_paths_vec_head cs path hcs hallT b1 p2 hm2
      rw [hx, hy]
      exact List.Lex.append_left _ (List.Lex.rel (hlt d hd)) path
/-- In a trie with ascending branch vectors, the walk below a node reports the
chord sequences in ascending lexicographic order. -/
theorem lex_walk_paths_tree :
    ∀ (t : Binding) (path : List Nat), (∀ n ∈ t.nodes, keys_ascending n.vec) →
      ((walk_paths_tree t path).map Prod.fst).Pairwise (List.Lex (fun a b : Nat => a < b))
  | ⟨k, f, vec, m⟩, path, h => by
    rw [walk_paths_tree]
    have h' := (forall_nodes_iff _ _).1 h
    exact lex_walk_paths_vec vec path h'.1 h'.2
end

/-! ## Claims -/

/-- C1: for every trie, every non-empty chord sequence `s` and every non-null
command `f`, `bind_key_vec (root, s, f)` succeeds and `search_key (root, s)`
then returns a node whose command is `f`; binding `s` to `f` and then to `g`
leaves `s` resolving to `g`. -/
theorem C1_bind_then_search (root : Binding) (s : List Nat) (f g : Nat) (hs : s ≠ []) :
    (∃ t, bind_key_vec root s (some f) = some t ∧
        ∃ p, search_key t s = some p ∧ p.func = some f) ∧
    (∃ t u, bind_key_vec root s (some f) = some t ∧ bind_key_vec t s (some g) = some u ∧
        ∃ p, search_key u s = some p ∧ p.func = some g) := by
  obtain ⟨t, ht, hp⟩ := bind_key_vec_search s (some f) root hs
  obtain ⟨u, hu, hq⟩ := bind_key_vec_search s (some g) t hs
  exact ⟨⟨t, ht, hp⟩, ⟨t, u, ht, hu, hq⟩⟩

/-- Witness for C1: the sequence `C-x C-f` bound in the empty root. -/
theorem C1_bind_then_search_witness :
    ([632, 614] : List Nat) ≠ [] ∧
    ((∃ t, bind_key_vec init_bindings [632, 614] (some 1) = some t ∧
        ∃ p, search_key t [632, 614] = some p ∧ p.func = some 1) ∧
    (∃ t u, bind_key_vec init_bindings [632, 614] (some 1) = some t ∧
        bind_key_vec t [632, 614] (some 2) = some u ∧
        ∃ p, search_key u [632, 614] = some p ∧ p.func = some 2)) :=
  ⟨by decide, C1_bind_then_search init_bindings [632, 614] 1 2 (by decide)⟩

/-- C2: starting from the empty root of `init_bindings`, any finite sequence of
`bind_key_vec` calls with non-empty chord sequences succeeds, and in the
resulting trie the child vector of every node is strictly ascending by key. -/
theorem C2_children_strictly_ascending (binds : List (List Nat × Option Nat))
    (hne : ∀ b ∈ binds, b.1 ≠ []) :
    ∃ t, bind_all init_bindings binds = some t ∧ ∀ n ∈ t.nodes, keys_ascending n.vec := by
  obtain ⟨t, ht⟩ := bind_all_some binds init_bindings hne
  refine ⟨t, ht, ?_⟩
  refine bind_all_induction (fun t => ∀ n ∈ t.nodes, keys_ascending n.vec)
    (fun tree keys func t hP h => bind_key_vec_ascending keys func tree t hP h)
    binds init_bindings t ?_ ht
  intro n hn
  simp only [init_bindings, nodes_eq, node_new, nodes_of_vec, List.mem_singleton] at hn
  subst hn
  simp [keys_ascending]

/-- Witness for C2: three binds, the last two inserted in front of the first. -/
theorem C2_children_strictly_ascending_witness :
    (∀ b ∈ ([([632, 614], some 1), ([632, 3], some 2), ([97], some 3)] :
        List (List Nat × Option Nat)), b.1 ≠ []) ∧
    ∃ t, bind_all init_bindings [([632, 614], some 1), ([632, 3], some 2), ([97], some 3)]
        = some t ∧ ∀ n ∈ t.nodes, keys_ascending n.vec :=
  ⟨by decide, C2_children_strictly_ascending _ (by decide)⟩

/-- Counterexample to C3 as stated: after binding `C-x C-f` and then `C-x`, the
node of `C-x` carries a command and still has its child. -/
theorem C3_counterexample :
    ∃ t n, bind_all init_bindings [([632, 614], some 1), ([632], some 2)] = some t ∧
      n ∈ nodes_of_vec t.vec ∧ n.func = some 2 ∧ n.vec.length = 1 ∧
      ¬ (is_leaf n ∨ is_prefix_node n) := by
  refine ⟨_, ⟨632, some 2, [⟨614, some 1, [], 1⟩], 5⟩, rfl, ?_, rfl, rfl, by decide⟩
  simp [nodes_of_vec, Binding.nodes, replace_node, add_node, node_new, insert_sorted]

/-- C3, amended: starting from the empty root, after any finite sequence of
`bind_key_vec` calls with non-empty chord sequences and non-null commands,
every non-root node has a command or at least one child; and when no call of
the sequence binds a chord sequence whose node already has children, every
non-root node is either a leaf (command, no child) or a prefix node (no
command, at least one child), never both. -/
theorem C3_leaf_or_prefix_node (binds : List (List Nat × Nat)) (hne : ∀ b ∈ binds, b.1 ≠ []) :
    ∃ t, bind_all init_bindings (binds.map (fun b => (b.1, some b.2))) = some t ∧
      (∀ n ∈ nodes_of_vec t.vec, n.func ≠ none ∨ n.vec.length ≥ 1) ∧
      (binds_on_childless init_bindings binds = true →
        ∀ n ∈ nodes_of_vec t.vec, (is_leaf n ∨ is_prefix_node n) ∧ ¬ (is_leaf n ∧ is_prefix_node n)) := by
  obtain ⟨t, ht⟩ := bind_all_some (binds.map (fun b => (b.1, some b.2))) init_bindings
    (by
      intro b hb
      obtain ⟨a, ha, rfl⟩ := List.mem_map.1 hb
      exact hne a ha)
  refine ⟨t, ht, ?_, ?_⟩
  · intro n hn
    obtain ⟨c, hc, hn⟩ := (mem_nodes_of_vec n t.vec).1 hn
    exact bind_all_commands_induction
      (fun t => ∀ c ∈ t.vec, ∀ n ∈ c.nodes, n.func ≠ none ∨ n.vec.length ≥ 1)
      (fun tree keys f u hP hu => bind_key_vec_nonempty_nodes keys f tree u hP hu)
      binds init_bindings t (by simp [init_bindings, node_new]) ht c hc n hn
  · intro hok n hn
    obtain ⟨c, hc, hn⟩ := (mem_nodes_of_vec n t.vec).1 hn
    have h := bind_all_leaf_xor binds init_bindings t
      (by simp [init_bindings, node_new]) hok ht c hc n hn
    refine ⟨h, ?_⟩
    rintro ⟨hl, hp⟩
    exact hl.1 hp.1

/-- Witness for C3: three binds, none onto a node that has children. -/
theorem C3_leaf_or_prefix_node_witness :
    (∀ b ∈ ([([632, 614], 1), ([632, 3], 2), ([97], 3)] : List (List Nat × Nat)), b.1 ≠ []) ∧
    ∃ t, bind_all init_bindings
        (([([632, 614], 1), ([632, 3], 2), ([97], 3)] : List (List Nat × Nat)).map
          (fun b => (b.1, some b.2))) = some t ∧
      (∀ n ∈ nodes_of_vec t.vec, n.func ≠ none ∨ n.vec.length ≥ 1) ∧
      (∀ n ∈ nodes_of_vec t.vec, (is_leaf n ∨ is_prefix_node n) ∧ ¬ (is_leaf n ∧ is_prefix_node n)) := by
  refine ⟨by decide, ?_⟩
  obtain ⟨t, ht, h1, h2⟩ :=
    C3_leaf_or_prefix_node [([632, 614], 1), ([632, 3], 2), ([97], 3)] (by decide)
  exact ⟨t, ht, h1, h2 (by decide)⟩

/-- Counterexample to C4 as stated: in the trie that already binds `C-x C-f`,
binding `C-x` and then `C-x C-c` leaves the node of `C-x` with its command. -/
theorem C4_counterexample :
    ∃ t0 t1 t2 p, bind_key_vec init_bindings [632, 614] (some 1) = some t0 ∧
      bind_key_vec t0 [632] (some 2) = some t1 ∧
      bind_key_vec t1 [632, 611] (some 3) = some t2 ∧
      search_key t2 [632] = some p ∧ p.func = some 2 :=
  ⟨_, _, _, _, rfl, rfl, rfl, rfl, rfl⟩

/-- C4, amended: for every trie, every non-empty chord sequence `s1` whose node
is absent from the trie or has no children, and every sequence `s2 = s1 ++ ext`
having `s1` as a strict prefix: binding `s1` to a command `f` and then `s2` to
a command `g` succeeds, `search_key (s1)` then returns a node with no command
and `search_key (s2)` returns a node whose command is `g`. -/
theorem C4_strict_prefix_node (root : Binding) (s1 ext : List Nat) (f g : Nat)
    (hs1 : s1 ≠ []) (hext : ext ≠ [])
    (hchild : ∀ p, search_key root s1 = some p → p.vec.length = 0) :
    ∃ t1 t2, bind_key_vec root s1 (some f) = some t1 ∧
      bind_key_vec t1 (s1 ++ ext) (some g) = some t2 ∧
      (∃ p, search_key t2 s1 = some p ∧ p.func = none) ∧
      (∃ q, search_key t2 (s1 ++ ext) = some q ∧ q.func = some g) := by
  obtain ⟨t1, ht1, _⟩ := bind_key_vec_search s1 (some f) root hs1
  obtain ⟨t2, ht2, hq⟩ := bind_key_vec_search (s1 ++ ext) (some g) t1 (by simp [hs1])
  obtain ⟨p, hp, hz⟩ := bind_key_vec_childless s1 (some f) root t1 hchild ht1
  exact ⟨t1, t2, ht1, ht2,
    bind_key_vec_extension_clears s1 ext (some g) hext t1 t2 p hp hz ht2, hq⟩

/-- Witness for C4: `C-x` then `C-x C-f` in a trie that binds only `a`. -/
theorem C4_strict_prefix_node_witness :
    ∃ t0, bind_key_vec init_bindings [97] (some 9) = some t0 ∧
      ([632] : List Nat) ≠ [] ∧ ([614] : List Nat) ≠ [] ∧
      (∀ p, search_key t0 [632] = some p → p.vec.length = 0) ∧
      ∃ t1 t2, bind_key_vec t0 [632] (some 1) = some t1 ∧
        bind_key_vec t1 ([632] ++ [614]) (some 2) = some t2 ∧
        (∃ p, search_key t2 [632] = some p ∧ p.func = none) ∧
        (∃ q, search_key t2 ([632] ++ [614]) = some q ∧ q.func = some 2) := by
  refine ⟨_, rfl, by decide, by decide, ?_, ?_⟩
  · intro p hp
    simp [search_key, search_node, add_node, node_new, insert_sorted] at hp
  · exact C4_strict_prefix_node _ [632] [614] 1 2 (by decide) (by decide)
      (by
        intro p hp
        simp [search_key, search_node, add_node, node_new, insert_sorted] at hp)

/-- C5: for every trie, first chord `k` and stream `more` of further chords:
if the chord lists `k`, `k more[0]`, ... made of fewer than `n` further chords
all reach a node without command, and `k more[0..n)` reaches no node or a node
with a command, then `completion_scan` reads exactly these `n` further chords,
returns the command of that node (no command when there is no node), stores
the chords read in `*keys`, and leaves the trie as it was; `process_key` then
calls that command, or reports the chords read as undefined when there is
none. -/
theorem C5_completion_scan (bindings : Binding) (k : Nat) (more : List Nat) (n : Nat)
    (hn : n ≤ more.length)
    (hpre : ∀ m, m < n → ∃ p, search_key bindings (k :: more.take m) = some p ∧ p.func = none)
    (hstop : ∀ p, search_key bindings (k :: more.take n) = some p → p.func ≠ none) :
    completion_scan bindings k more =
      some { func := (search_key bindings (k :: more.take n)).bind Binding.func
             keys := k :: more.take n
             input := more.drop n
             bindings := bindings } ∧
    (k ≠ KBD_NOKEY → ¬ (k &&& KBD_META ≠ 0 ∧ isdigit (k &&& 0xff) = true) →
      process_key bindings k more =
        some (match (search_key bindings (k :: more.take n)).bind Binding.func with
          | some f => Dispatch.executed f (k :: more.take n) (more.drop n)
          | none => Dispatch.undefined (k :: more.take n) (more.drop n))) := by
  have h := completion_scan_loop_stops bindings more [k] n hn
    (by simpa using hpre) (by simpa using hstop)
  have h' : completion_scan bindings k more =
      some { func := (search_key bindings (k :: more.take n)).bind Binding.func
             keys := k :: more.take n
             input := more.drop n
             bindings := bindings } := by
    simpa [completion_scan] using h
  refine ⟨h', ?_⟩
  intro hkey hmeta
  unfold process_key
  rw [if_neg hkey, if_neg hmeta, h']
  cases (search_key bindings (k :: more.take n)).bind Binding.func <;> rfl

/-- Witness for C5: `C-x C-f a` typed in the trie that binds `C-x C-f`. -/
theorem C5_completion_scan_witness :
    1 ≤ ([614, 97] : List Nat).length ∧
    (∀ m, m < 1 → ∃ p, search_key bindings_cx_cf (632 :: ([614, 97] : List Nat).take m) = some p ∧
      p.func = none) ∧
    (∀ p, search_key bindings_cx_cf (632 :: ([614, 97] : List Nat).take 1) = some p →
      p.func ≠ none) ∧
    completion_scan bindings_cx_cf 632 [614, 97] =
      some { func := some 1, keys := [632, 614], input := [97], bindings := bindings_cx_cf } ∧
    process_key bindings_cx_cf 632 [614, 97] = some (Dispatch.executed 1 [632, 614] [97]) := by
  have h1 : ∀ m, m < 1 →
      ∃ p, search_key bindings_cx_cf (632 :: ([614, 97] : List Nat).take m) = some p ∧
        p.func = none := by
    intro m hm
    have hm0 : m = 0 := by omega
    subst hm0
    exact ⟨_, rfl, rfl⟩
  have h2 : ∀ p, search_key bindings_cx_cf (632 :: ([614, 97] : List Nat).take 1) = some p →
      p.func ≠ none := by
    intro p hp
    have : some ({ key := 614, func := some 1, vec := [], vecmax := 1 } : Binding) = some p := hp
    cases this
    simp
  have h := C5_completion_scan bindings_cx_cf 632 [614, 97] 1 (by decide) h1 h2
  exact ⟨by decide, h1, h2, h.1, h.2 (by decide) (by decide)⟩

/-- Counterexample to C6 as stated: in a trie that binds `C-x C-g`, the
dispatch of `C-x` waits on a prefix node, reads the cancel chord, and calls
the bound command. -/
theorem C6_counterexample :
    ∃ t, bind_key_vec init_bindings [632, KBD_CANCEL] (some 1) = some t ∧
      scan_lookup t [632] = none ∧
      process_key t 632 [KBD_CANCEL] = some (Dispatch.executed 1 [632, KBD_CANCEL] []) :=
  ⟨_, rfl, rfl, rfl⟩

/-- C6, amended: for every trie and every multi-chord dispatch in progress
(every chord list read so far reaches a node without command), when the next
chord read is `KBD_CANCEL` and the trie has no node for the chords read so far
followed by `KBD_CANCEL`, `completion_scan` returns no command and
`process_key` calls none: it reports the sequence as undefined. -/
theorem C6_cancel_chord (bindings : Binding) (key : Nat) (pre more : List Nat)
    (hkey : key ≠ KBD_NOKEY)
    (hmeta : ¬ (key &&& KBD_META ≠ 0 ∧ isdigit (key &&& 0xff) = true))
    (hpre : ∀ m, m ≤ pre.length →
      ∃ p, search_key bindings (key :: pre.take m) = some p ∧ p.func = none)
    (hnone : search_key bindings (key :: (pre ++ [KBD_CANCEL])) = none) :
    completion_scan bindings key (pre ++ KBD_CANCEL :: more) =
      some { func := none, keys := key :: (pre ++ [KBD_CANCEL]), input := more,
             bindings := bindings } ∧
    process_key bindings key (pre ++ KBD_CANCEL :: more) =
      some (Dispatch.undefined (key :: (pre ++ [KBD_CANCEL])) more) := by
  have h := completion_scan_no_node bindings key KBD_CANCEL pre more hpre hnone
  refine ⟨h, ?_⟩
  unfold process_key
  rw [if_neg hkey, if_neg hmeta, h]

/-- Witness for C6: `C-x C-g` typed in the trie that binds only `C-x C-f`. -/
theorem C6_cancel_chord_witness :
    (632 : Nat) ≠ KBD_NOKEY ∧
    ¬ ((632 : Nat) &&& KBD_META ≠ 0 ∧ isdigit ((632 : Nat) &&& 0xff) = true) ∧
    (∀ m, m ≤ ([] : List Nat).length →
      ∃ p, search_key bindings_cx_cf (632 :: ([] : List Nat).take m) = some p ∧ p.func = none) ∧
    search_key bindings_cx_cf (632 :: ([] ++ [KBD_CANCEL])) = none ∧
    completion_scan bindings_cx_cf 632 ([] ++ KBD_CANCEL :: [97]) =
      some { func := none, keys := 632 :: ([] ++ [KBD_CANCEL]), input := [97],
             bindings := bindings_cx_cf } ∧
    process_key bindings_cx_cf 632 ([] ++ KBD_CANCEL :: [97]) =
      some (Dispatch.undefined (632 :: ([] ++ [KBD_CANCEL])) [97]) := by
  have h1 : (632 : Nat) ≠ KBD_NOKEY := by decide
  have h2 : ¬ ((632 : Nat) &&& KBD_META ≠ 0 ∧ isdigit ((632 : Nat) &&& 0xff) = true) := by
    decide
  have h3 : ∀ m, m ≤ ([] : List Nat).length →
      ∃ p, search_key bindings_cx_cf (632 :: ([] : List Nat).take m) = some p ∧
        p.func = none := by
    intro m _
    rw [List.take_nil]
    exact ⟨_, rfl, rfl⟩
  have h4 : search_key bindings_cx_cf (632 :: ([] ++ [KBD_CANCEL])) = none := rfl
  exact ⟨h1, h2, h3, h4, C6_cancel_chord bindings_cx_cf 632 [] [97] h1 h2 h3 h4⟩

/-- Counterexample to C7 as stated: after binding `C-x C-f` to command 1 and
then `C-x` to command 2, `search_key` still yields command 1 for `C-x C-f`, but
`walk_bindings` makes a single call, for the node of `C-x`, and never passes a
node carrying command 1. -/
theorem C7_counterexample :
    ∃ t p, bind_all init_bindings [([632, 614], some 1), ([632], some 2)] = some t ∧
      search_key t [632, 614] = some p ∧ p.func = some 1 ∧
      ∀ cts : Nat → List Char,
        (walk_bindings cts t).map (fun e => e.2.func) = [some 2] :=
  ⟨_, _, rfl, rfl, rfl, fun _ => rfl⟩

/-- C7, amended: for every trie produced by binds (from the empty root, with
non-empty chord sequences) and every naming of chords with non-empty names,
`walk_bindings` calls its callback on a list of distinct chord sequences, each
passed as its chord names joined by single blanks together with its node; the
sequences listed are exactly the `s` for which `search_key (s)` yields a node
with a command while every shorter non-empty beginning of `s` yields a node
without command (a command-carrying node below another command-carrying node
is not listed); and `where-is` reports, joined by ", ", exactly the listed
sequences whose command is the queried one. -/
theorem C7_walk_bindings (cts : Nat → List Char) (hname : ∀ k, cts k ≠ [])
    (binds : List (List Nat × Option Nat)) (hne : ∀ b ∈ binds, b.1 ≠ []) :
    ∃ t, bind_all init_bindings binds = some t ∧
      ∃ l : List (List Nat × Binding),
        walk_bindings cts t = l.map (fun e => (chord_names cts e.1, e.2)) ∧
        (l.map Prod.fst).Nodup ∧
        (∀ s p, (s, p) ∈ l ↔
          (search_key t s = some p ∧ p.func ≠ none ∧
            ∀ m, 0 < m → m < s.length →
              ∃ q, search_key t (s.take m) = some q ∧ q.func = none)) ∧
        ∀ f, where_is_bindings cts t f =
          List.intercalate [',', ' ']
            ((l.filter (fun e => decide (e.2.func = some f))).map
              (fun e => chord_names cts e.1)) := by
  obtain ⟨t, ht⟩ := bind_all_some binds init_bindings hne
  have hasc : ∀ n ∈ t.nodes, keys_ascending n.vec := by
    refine bind_all_induction (fun t => ∀ n ∈ t.nodes, keys_ascending n.vec)
      (fun tree keys func t hP h => bind_key_vec_ascending keys func tree t hP h)
      binds init_bindings t ?_ ht
    intro n hn
    simp only [init_bindings, nodes_eq, node_new, nodes_of_vec, List.mem_singleton] at hn
    subst hn
    simp [keys_ascending]
  exact ⟨t, ht, walk_bindings_ascending cts hname t hasc⟩

/-- Witness for C7: two binds, every chord named by the character of its code. -/
theorem C7_walk_bindings_witness :
    (∀ k : Nat, (fun k => [Char.ofNat k]) k ≠ []) ∧
    (∀ b ∈ ([([120, 102], some 1), ([97], some 2)] : List (List Nat × Option Nat)), b.1 ≠ []) ∧
    ∃ t, bind_all init_bindings [([120, 102], some 1), ([97], some 2)] = some t ∧
      ∃ l : List (List Nat × Binding),
        walk_bindings (fun k => [Char.ofNat k]) t =
          l.map (fun e => (chord_names (fun k => [Char.ofNat k]) e.1, e.2)) ∧
        (l.map Prod.fst).Nodup ∧
        (∀ s p, (s, p) ∈ l ↔
          (search_key t s = some p ∧ p.func ≠ none ∧
            ∀ m, 0 < m → m < s.length →
              ∃ q, search_key t (s.take m) = some q ∧ q.func = none)) ∧
        ∀ f, where_is_bindings (fun k => [Char.ofNat k]) t f =
          List.intercalate [',', ' ']
            ((l.filter (fun e => decide (e.2.func = some f))).map
              (fun e => chord_names (fun k => [Char.ofNat k]) e.1)) :=
  ⟨fun k => by simp, by decide,
    C7_walk_bindings (fun k => [Char.ofNat k]) (fun k => by simp) _ (by decide)⟩

/-- C8: for every byte content, the marker detected by `estr_new_astr` is the
one named by the end-of-line occurrences classified from left to right (CR
immediately followed by LF is one CRLF occurrence, any other LF is LF, any
other CR is CR), of which only the first three count: LF when there is none,
LF when one of the first three differs in kind from the first, otherwise the
kind of the first. Contents with the same first three occurrences get the
same marker, and the content itself is kept. -/
theorem C8_estr_new_astr_first_three (as : List Nat) :
    (estr_new_astr as).as = as ∧
    (estr_new_astr as).eol = marker_of_kinds (eol_kinds as) ∧
    (estr_new_astr as).eol =
      (match (eol_kinds as).take 3 with
        | [] => Eol.lf
        | k :: more => if ∀ j ∈ more, j = k then k else Eol.lf) ∧
    ∀ bs : List Nat, (eol_kinds bs).take 3 = (eol_kinds as).take 3 →
      (estr_new_astr bs).eol = (estr_new_astr as).eol := by
  refine ⟨rfl, estr_new_astr_eol as, ?_, ?_⟩
  · rw [estr_new_astr_eol, marker_of_kinds]
    cases (eol_kinds as).take 3 with
    | nil => rfl
    | cons k more => simp [List.all_eq_true]
  · intro bs h
    rw [estr_new_astr_eol, estr_new_astr_eol, marker_of_kinds, marker_of_kinds, h]

/-- C9: `estr_new_astr` detects the kind of the line endings of a content whose
line endings are all of one kind: LF for a content with an LF and no CR; CRLF
for a content with a CR in which every CR is immediately followed by LF and
every LF immediately preceded by CR; CR for a content with a CR and no LF; and
LF for a content with neither CR nor LF, the empty one included. -/
theorem C9_single_kind (as : List Nat) :
    (10 ∈ as → 13 ∉ as → (estr_new_astr as).eol = Eol.lf) ∧
    (13 ∈ as → (∀ i, as[i]? = some 13 → as[i + 1]? = some 10) →
      (∀ i, as[i]? = some 10 → ∃ j, i = j + 1 ∧ as[j]? = some 13) →
      (estr_new_astr as).eol = Eol.crlf) ∧
    (13 ∈ as → 10 ∉ as → (estr_new_astr as).eol = Eol.cr) ∧
    (10 ∉ as → 13 ∉ as → (estr_new_astr as).eol = Eol.lf) ∧
    (estr_new_astr []).eol = Eol.lf := by
  refine ⟨?_, ?_, ?_, ?_, rfl⟩
  · intro h10 h13
    rw [estr_new_astr_eol]
    exact marker_of_kinds_uniform _ _ (eol_kinds_ne_nil as (Or.inl h10)) (eol_kinds_no_cr as h13)
  · intro h13 hcr hlf
    rw [estr_new_astr_eol]
    exact marker_of_kinds_uniform _ _ (eol_kinds_ne_nil as (Or.inr h13))
      (eol_kinds_paired as hcr hlf)
  · intro h13 h10
    rw [estr_new_astr_eol]
    exact marker_of_kinds_uniform _ _ (eol_kinds_ne_nil as (Or.inr h13)) (eol_kinds_no_lf as h10)
  · intro h10 h13
    rw [estr_new_astr_eol, eol_kinds_eq_nil as h10 h13]
    rfl

/-- Witness for C9: the contents "a\nb\n", "a\r\nb\r\n", "a\rb" and "ab". -/
theorem C9_single_kind_witness :
    (estr_new_astr [97, 10, 98, 10]).eol = Eol.lf ∧
    (estr_new_astr [97, 13, 10, 98, 13, 10]).eol = Eol.crlf ∧
    (estr_new_astr [97, 13, 98]).eol = Eol.cr ∧
    (estr_new_astr [97, 98]).eol = Eol.lf := by
  refine ⟨(C9_single_kind [97, 10, 98, 10]).1 (by decide) (by decide), ?_,
    (C9_single_kind [97, 13, 98]).2.2.1 (by decide) (by decide),
    (C9_single_kind [97, 98]).2.2.2.1 (by decide) (by decide)⟩
  refine (C9_single_kind [97, 13, 10, 98, 13, 10]).2.1 (by decide) ?_ ?_
  · intro i hi
    have hlt : i < 6 := by
      by_contra hge
      rw [List.getElem?_eq_none (by simpa using hge)] at hi
      cases hi
    interval_cases i <;> simp at hi ⊢
  · intro i hi
    have hlt : i < 6 := by
      by_contra hge
      rw [List.getElem?_eq_none (by simpa using hge)] at hi
      cases hi
    interval_cases i <;> simp at hi ⊢

/-- Counterexample to C10 as stated: the content "a\rb\rc\rd\ne\r\n" has three
CR line endings, then a bare LF, then a CRLF, and its marker is CR. -/
theorem C10_counterexample :
    eol_kinds [97, 13, 98, 13, 99, 13, 100, 10, 101, 13, 10] =
      [Eol.cr, Eol.cr, Eol.cr, Eol.lf, Eol.crlf] ∧
    (estr_new_astr [97, 13, 98, 13, 99, 13, 100, 10, 101, 13, 10]).eol = Eol.cr := by
  decide

/-- C10, amended: for every content that contains a bare LF line ending (an LF
that does not follow a CR immediately) followed later by a CRLF line ending,
`estr_new_astr` gives the LF marker, unless the first three end-of-line
occurrences of the content are all CR or all CRLF: the scan stops after the
third occurrence, and the marker is then CR, respectively CRLF. -/
theorem C10_lf_then_crlf (pre mid tail : List Nat) (hbare : pre.getLast? ≠ some 13) :
    ((estr_new_astr (pre ++ 10 :: (mid ++ 13 :: 10 :: tail))).eol = Eol.lf ↔
      ¬ ((eol_kinds (pre ++ 10 :: (mid ++ 13 :: 10 :: tail))).take 3 =
            [Eol.cr, Eol.cr, Eol.cr] ∨
          (eol_kinds (pre ++ 10 :: (mid ++ 13 :: 10 :: tail))).take 3 =
            [Eol.crlf, Eol.crlf, Eol.crlf])) ∧
    ((eol_kinds (pre ++ 10 :: (mid ++ 13 :: 10 :: tail))).take 3 = [Eol.cr, Eol.cr, Eol.cr] →
      (estr_new_astr (pre ++ 10 :: (mid ++ 13 :: 10 :: tail))).eol = Eol.cr) ∧
    ((eol_kinds (pre ++ 10 :: (mid ++ 13 :: 10 :: tail))).take 3 =
        [Eol.crlf, Eol.crlf, Eol.crlf] →
      (estr_new_astr (pre ++ 10 :: (mid ++ 13 :: 10 :: tail))).eol = Eol.crlf) := by
  have hk := eol_kinds_lf_then_crlf pre mid tail hbare
  have hlf : Eol.lf ∈ eol_kinds (pre ++ 10 :: (mid ++ 13 :: 10 :: tail)) := by
    rw [hk]; simp
  have hcrlf : Eol.crlf ∈ eol_kinds (pre ++ 10 :: (mid ++ 13 :: 10 :: tail)) := by
    rw [hk]; simp
  rw [estr_new_astr_eol]
  exact ⟨marker_of_kinds_mixed _ hlf hcrlf, marker_of_kinds_three _ _, marker_of_kinds_three _ _⟩

/-- Witness for C10: the content "a\rb\r\nc\rd\ne\r\n", whose first three
line endings are CR, CRLF and CR: the bare LF is the fourth, and the marker is
LF; and the content "a\nb\r\n". -/
theorem C10_lf_then_crlf_witness :
    ([97, 13, 98, 13, 10, 99, 13, 100] : List Nat).getLast? ≠ some 13 ∧
    eol_kinds [97, 13, 98, 13, 10, 99, 13, 100, 10, 101, 13, 10] =
      [Eol.cr, Eol.crlf, Eol.cr, Eol.lf, Eol.crlf] ∧
    (estr_new_astr [97, 13, 98, 13, 10, 99, 13, 100, 10, 101, 13, 10]).eol = Eol.lf ∧
    (estr_new_astr [97, 10, 98, 13, 10]).eol = Eol.lf :=
  ⟨by decide, by decide,
    (C10_lf_then_crlf [97, 13, 98, 13, 10, 99, 13, 100] [101] [] (by decide)).1.2 (by decide),
    (C10_lf_then_crlf [97] [98] [] (by decide)).1.2 (by decide)⟩

/-- C11: for every encoded text, whatever its marker, and every offset `o` up
to the length of the content, `estr_start_of_line (o) ≤ o ≤ estr_end_of_line (o)
≤ length`, so the subtraction in `estr_line_len` does not wrap around. -/
theorem C11_line_bounds (es : estr) (o : Nat) (ho : o ≤ es.as.length) :
    estr_start_of_line es o ≤ o ∧ o ≤ estr_end_of_line es o ∧
    estr_end_of_line es o ≤ es.as.length ∧
    estr_start_of_line es o ≤ estr_end_of_line es o ∧
    estr_line_len es o = estr_end_of_line es o - estr_start_of_line es o := by
  have h1 := estr_start_of_line_le es o ho
  have h2 := estr_end_of_line_ge es o ho
  refine ⟨h1, h2.1, h2.2, by omega, ?_⟩
  unfold estr_line_len size_sub
  rw [if_pos (by omega)]

/-- Witness for C11: offset 4 of "ab\r\ncd\r\n" with the CRLF marker. -/
theorem C11_line_bounds_witness :
    4 ≤ ({ as := [97, 98, 13, 10, 99, 100, 13, 10], eol := Eol.crlf } : estr).as.length ∧
    estr_start_of_line { as := [97, 98, 13, 10, 99, 100, 13, 10], eol := Eol.crlf } 4 = 4 ∧
    estr_end_of_line { as := [97, 98, 13, 10, 99, 100, 13, 10], eol := Eol.crlf } 4 = 6 ∧
    estr_line_len { as := [97, 98, 13, 10, 99, 100, 13, 10], eol := Eol.crlf } 4 = 2 := by
  have h := C11_line_bounds { as := [97, 98, 13, 10, 99, 100, 13, 10], eol := Eol.crlf } 4
    (by decide)
  refine ⟨by decide, by decide, by decide, ?_⟩
  rw [h.2.2.2.2]
  decide

/-- Counterexample to C12 as stated: in "\r\nab\r\n" with the CRLF marker, at
offset 1 (between the CR and the LF of the first marker) the next line is at 6,
the line before that one starts at 2, but the line of offset 1 starts at 0. -/
theorem C12_counterexample :
    estr_next_line { as := [13, 10, 97, 98, 13, 10], eol := Eol.crlf } 1 = 6 ∧
    estr_prev_line { as := [13, 10, 97, 98, 13, 10], eol := Eol.crlf } 6 = 2 ∧
    estr_start_of_line { as := [13, 10, 97, 98, 13, 10], eol := Eol.crlf } 1 = 0 := by
  decide

/-- C12, amended: for every encoded text and every offset `o` up to the length
of the content that is not between the CR and the LF of a CRLF marker (no
condition for the LF and CR markers), when `estr_next_line (o)` is not the
sentinel, `estr_prev_line (estr_next_line (o)) = estr_start_of_line (o)`. -/
theorem C12_next_then_prev (es : estr) (o : Nat) (ho : o ≤ es.as.length)
    (hnext : estr_next_line es o ≠ SIZE_MAX)
    (hin : es.eol = Eol.crlf → 0 < o → ¬ occurs_at es.eol.bytes es.as (o - 1)) :
    estr_prev_line es (estr_next_line es o) = estr_start_of_line es o :=
  prev_line_next_line es o ho hnext (no_straddle_of_not_inside es o hin)

/-- Witness for C12: offset 3 of "ab\r\ncd\r\n" with the CRLF marker. -/
theorem C12_next_then_prev_witness :
    3 ≤ ({ as := [97, 98, 13, 10, 99, 100, 13, 10], eol := Eol.crlf } : estr).as.length ∧
    estr_next_line { as := [97, 98, 13, 10, 99, 100, 13, 10], eol := Eol.crlf } 2 ≠ SIZE_MAX ∧
    estr_prev_line { as := [97, 98, 13, 10, 99, 100, 13, 10], eol := Eol.crlf }
      (estr_next_line { as := [97, 98, 13, 10, 99, 100, 13, 10], eol := Eol.crlf } 2) =
      estr_start_of_line { as := [97, 98, 13, 10, 99, 100, 13, 10], eol := Eol.crlf } 2 :=
  ⟨by decide, by decide,
    C12_next_then_prev { as := [97, 98, 13, 10, 99, 100, 13, 10], eol := Eol.crlf } 2
      (by decide) (by decide) (fun _ _ => by decide)⟩

/-- C13: for every encoded text with marker `m` and every offset `o` up to the
length: `estr_end_of_line (o)` is the offset of the first occurrence of `m`
that starts at or after `o`, or the content length when there is none;
`estr_start_of_line (o)` is the offset just after the last occurrence of `m`
that ends at or before `o`, or 0 when there is none. A boundary is always an
occurrence of `m`. -/
theorem C13_line_boundaries (es : estr) (o : Nat) (ho : o ≤ es.as.length) :
    (first_from es.eol.bytes es.as o (estr_end_of_line es o) ∨
      ((∀ j, o ≤ j → ¬ occurs_at es.eol.bytes es.as j) ∧
        estr_end_of_line es o = es.as.length)) ∧
    ((∃ j, last_before es.eol.bytes es.as o j ∧
        estr_start_of_line es o = j + es.eol.bytes.length) ∨
      ((∀ j, j + es.eol.bytes.length ≤ o → ¬ occurs_at es.eol.bytes es.as j) ∧
        estr_start_of_line es o = 0)) ∧
    (∀ j, first_from es.eol.bytes es.as o j → estr_end_of_line es o = j) ∧
    (∀ j, last_before es.eol.bytes es.as o j →
      estr_start_of_line es o = j + es.eol.bytes.length) :=
  ⟨estr_end_of_line_cases es o, estr_start_of_line_cases es o ho,
    fun j h => estr_end_of_line_first es o j h,
    fun j h => estr_start_of_line_last es o j ho h⟩

/-- Witness for C13: offset 5 of "a\rb\r\nc\n" with the LF marker, where the
CR bytes are ordinary content. -/
theorem C13_line_boundaries_witness :
    5 ≤ ({ as := [97, 13, 98, 13, 10, 99, 10], eol := Eol.lf } : estr).as.length ∧
    estr_end_of_line { as := [97, 13, 98, 13, 10, 99, 10], eol := Eol.lf } 5 = 6 ∧
    estr_start_of_line { as := [97, 13, 98, 13, 10, 99, 10], eol := Eol.lf } 5 = 5 ∧
    estr_start_of_line { as := [97, 13, 98, 13, 10, 99, 10], eol := Eol.lf } 4 = 0 := by
  have h := C13_line_boundaries { as := [97, 13, 98, 13, 10, 99, 10], eol := Eol.lf } 5
    (by decide)
  exact ⟨by decide, h.2.2.1 6 (by decide), h.2.2.2 4 (by decide), by decide⟩

/-- C14: for every encoded text (of a length below `SIZE_MAX`) and offset `o`
up to the length: `estr_prev_line (o)` is the sentinel `SIZE_MAX` exactly when
no marker occurrence lies entirely before `o`, and otherwise is the start of
the line that the last such occurrence ends (just after the last occurrence
lying entirely before that one, or 0); `estr_next_line (o)` is the sentinel
exactly when no marker occurrence starts at or after `o`, and otherwise is the
offset just after the first such occurrence. -/
theorem C14_prev_next_line (es : estr) (o : Nat) (ho : o ≤ es.as.length)
    (hmax : es.as.length < SIZE_MAX) :
    (estr_prev_line es o = SIZE_MAX ↔
      ∀ j, j + es.eol.bytes.length ≤ o → ¬ occurs_at es.eol.bytes es.as j) ∧
    (∀ j, last_before es.eol.bytes es.as o j →
      estr_prev_line es o = estr_start_of_line es j ∧
      ((∃ k, last_before es.eol.bytes es.as j k ∧
          estr_prev_line es o = k + es.eol.bytes.length) ∨
        ((∀ k, k + es.eol.bytes.length ≤ j → ¬ occurs_at es.eol.bytes es.as k) ∧
          estr_prev_line es o = 0))) ∧
    (estr_next_line es o = SIZE_MAX ↔ ∀ j, o ≤ j → ¬ occurs_at es.eol.bytes es.as j) ∧
    (∀ j, first_from es.eol.bytes es.as o j →
      estr_next_line es o = j + es.eol.bytes.length) := by
  have hL := Eol.bytes_length_pos es.eol
  refine ⟨?_, ?_, ?_, ?_⟩
  · constructor
    · intro h
      rcases estr_start_of_line_cases es o ho with ⟨j, hj, he⟩ | ⟨hn, _⟩
      · exfalso
        have hne : ¬ j + es.eol.bytes.length = 0 := by omega
        have hle := estr_start_of_line_le es j (by have := hj.1; omega)
        rw [estr_prev_line_eq, he, if_neg hne, Nat.add_sub_cancel] at h
        have := hj.1
        omega
      · exact hn
    · intro h
      rw [estr_prev_line_eq, estr_start_of_line_none es o ho h, if_pos rfl]
  · intro j hj
    have he := estr_start_of_line_last es o j ho hj
    have hne : ¬ j + es.eol.bytes.length = 0 := by omega
    have hp : estr_prev_line es o = estr_start_of_line es j := by
      rw [estr_prev_line_eq, he, if_neg hne, Nat.add_sub_cancel]
    refine ⟨hp, ?_⟩
    rw [hp]
    exact estr_start_of_line_cases es j (by have := hj.1; omega)
  · constructor
    · intro h
      rcases estr_end_of_line_cases es o with hf | ⟨hn, _⟩
      · exfalso
        have hlen := occurs_at_length _ _ _ hf.2.1 hL
        have hne : estr_end_of_line es o ≠ es.as.length := by omega
        rw [estr_next_line_eq, if_neg hne] at h
        omega
      · exact hn
    · intro h
      rcases estr_end_of_line_cases es o with hf | ⟨_, he⟩
      · exact absurd hf.2.1 (h _ hf.1)
      · rw [estr_next_line_eq, he, if_pos rfl]
  · intro j hj
    have he := estr_end_of_line_first es o j hj
    have hlen := occurs_at_length _ _ _ hj.2.1 hL
    have hne : ¬ j = es.as.length := by omega
    rw [estr_next_line_eq, he, if_neg hne]

/-- Witness for C14: offset 4 of "ab\ncd\nef" with the LF marker. -/
theorem C14_prev_next_line_witness :
    4 ≤ ({ as := [97, 98, 10, 99, 100, 10, 101, 102], eol := Eol.lf } : estr).as.length ∧
    ({ as := [97, 98, 10, 99, 100, 10, 101, 102], eol := Eol.lf } : estr).as.length < SIZE_MAX ∧
    estr_prev_line { as := [97, 98, 10, 99, 100, 10, 101, 102], eol := Eol.lf } 4 = 0 ∧
    estr_next_line { as := [97, 98, 10, 99, 100, 10, 101, 102], eol := Eol.lf } 4 = 6 ∧
    estr_prev_line { as := [97, 98, 10, 99, 100, 10, 101, 102], eol := Eol.lf } 1 = SIZE_MAX ∧
    estr_next_line { as := [97, 98, 10, 99, 100, 10, 101, 102], eol := Eol.lf } 7 = SIZE_MAX := by
  have h := C14_prev_next_line { as := [97, 98, 10, 99, 100, 10, 101, 102], eol := Eol.lf } 4
    (by decide) (by decide)
  refine ⟨by decide, by decide, ?_, h.2.2.2 5 (by decide), by decide, by decide⟩
  rw [(h.2.1 2 (by decide)).1]
  decide

/-- C15: for every destination `es`, insertion `ins` and `pos`, `del` with
`pos + del ≤ length (es)`: the content of `estr_replace (es, pos, del, ins)` is
`es[0..pos) ++ J ++ es[pos+del..)`, where `J` is the content of `ins` cut at
the left-to-right, non-overlapping occurrences of the marker of `ins` and
joined again with the marker of `es` (an insertion that starts or ends with its
marker has an empty first or last piece; joined with its own marker the pieces
give the insertion back). The marker of `es` is kept, and `estr_cat (es, ins)`
is the case `pos = length (es)`, `del = 0`. -/
theorem C15_estr_replace (es : estr) (pos del : Nat) (ins : estr)
    (h : pos + del ≤ es.as.length) :
    (estr_replace es pos del ins).as =
      es.as.take pos ++ List.intercalate es.eol.bytes (pieces ins.eol.bytes ins.as) ++
        es.as.drop (pos + del) ∧
    (estr_replace es pos del ins).eol = es.eol ∧
    List.intercalate ins.eol.bytes (pieces ins.eol.bytes ins.as) = ins.as ∧
    (∀ rest, ins.as = ins.eol.bytes ++ rest →
      (pieces ins.eol.bytes ins.as).head? = some []) ∧
    (∀ pre, ins.as = pre ++ ins.eol.bytes →
      (pieces ins.eol.bytes ins.as).getLast? = some []) ∧
    estr_cat es ins = estr_replace es es.as.length 0 ins ∧
    (estr_cat es ins).as =
      es.as ++ List.intercalate es.eol.bytes (pieces ins.eol.bytes ins.as) := by
  refine ⟨estr_replace_as es pos del ins h, rfl,
    intercalate_split_marker _ (Eol.bytes_length_pos ins.eol) _ _ (Nat.le_refl _),
    ?_, ?_, rfl, ?_⟩
  · intro rest hr
    rw [hr]
    exact pieces_head _ _
  · intro pre hp
    exact split_marker_last ins.eol _ ins.as pre hp (Nat.le_refl _)
  · have := estr_replace_as es es.as.length 0 ins (by omega)
    rw [estr_cat, this]
    simp

/-- Witness for C15: "\r\na\r\nb\r\n" (CRLF) put in place of the LF of
"hello\nworld" gives "hello\na\nb\nworld". -/
theorem C15_estr_replace_witness :
    5 + 1 ≤ ({ as := [104, 101, 108, 108, 111, 10, 119, 111, 114, 108, 100],
               eol := Eol.lf } : estr).as.length ∧
    pieces [13, 10] [13, 10, 97, 13, 10, 98, 13, 10] = [[], [97], [98], []] ∧
    (estr_replace { as := [104, 101, 108, 108, 111, 10, 119, 111, 114, 108, 100],
                    eol := Eol.lf } 5 1
        { as := [13, 10, 97, 13, 10, 98, 13, 10], eol := Eol.crlf }).as =
      [104, 101, 108, 108, 111, 10, 97, 10, 98, 10, 119, 111, 114, 108, 100] := by
  have h := C15_estr_replace
    { as := [104, 101, 108, 108, 111, 10, 119, 111, 114, 108, 100], eol := Eol.lf } 5 1
    { as := [13, 10, 97, 13, 10, 98, 13, 10], eol := Eol.crlf } (by decide)
  refine ⟨by decide, by decide, ?_⟩
  rw [h.1]
  decide

/-- C16: for every LF-convention destination without CR byte and every
insertion with the CRLF marker whose CR and LF bytes occur only as CRLF pairs
(and `pos + del ≤ length (es)`): the result of `estr_replace` has no CR byte;
the inserted segment, cut at LF, has the very pieces of the insertion cut at
CRLF, so as many lines, with the same payload bytes in the same order; and no
payload holds a CR or an LF. -/
theorem C16_replace_normalizes (es ins : estr) (pos del : Nat)
    (h : pos + del ≤ es.as.length)
    (hes : es.eol = Eol.lf) (hcr : 13 ∉ es.as) (hins : ins.eol = Eol.crlf)
    (hp1 : ∀ i, ins.as[i]? = some 13 → ins.as[i + 1]? = some 10)
    (hp2 : ∀ i, ins.as[i]? = some 10 → ∃ k, i = k + 1 ∧ ins.as[k]? = some 13) :
    13 ∉ (estr_replace es pos del ins).as ∧
    (∃ J, (estr_replace es pos del ins).as = es.as.take pos ++ J ++ es.as.drop (pos + del) ∧
      J = List.intercalate [10] (pieces [13, 10] ins.as) ∧
      pieces [10] J = pieces [13, 10] ins.as) ∧
    (∀ p ∈ pieces [13, 10] ins.as, 13 ∉ p ∧ 10 ∉ p) := by
  have hP := split_marker_paired ins.as.length ins.as (Nat.le_refl _) hp1 hp2
  have has := estr_replace_as es pos del ins h
  rw [hes, hins] at has
  simp only [Eol.bytes] at has
  refine ⟨?_, ⟨_, has, rfl, ?_⟩, hP⟩
  · rw [has]
    simp only [List.mem_append, not_or]
    refine ⟨⟨fun hm => hcr (List.mem_of_mem_take hm), ?_⟩,
      fun hm => hcr (List.mem_of_mem_drop hm)⟩
    intro hm
    rcases mem_intercalate _ _ _ hm with h10 | ⟨p, hp, hx⟩
    · simp at h10
    · exact (hP p hp).1 hx
  · exact split_marker_lf_join _ (split_marker_ne_nil _ _ _) (fun p hp => (hP p hp).2) _
      (Nat.le_refl _)

/-- Witness for C16: "a\r\nb" (CRLF) inserted at offset 2 of "xy\nz" (LF). -/
theorem C16_replace_normalizes_witness :
    (estr_replace { as := [120, 121, 10, 122], eol := Eol.lf } 2 0
        { as := [97, 13, 10, 98], eol := Eol.crlf }).as = [120, 121, 97, 10, 98, 10, 122] ∧
    13 ∉ (estr_replace { as := [120, 121, 10, 122], eol := Eol.lf } 2 0
        { as := [97, 13, 10, 98], eol := Eol.crlf }).as ∧
    pieces [10] [97, 10, 98] = pieces [13, 10] [97, 13, 10, 98] := by
  have h := C16_replace_normalizes { as := [120, 121, 10, 122], eol := Eol.lf }
    { as := [97, 13, 10, 98], eol := Eol.crlf } 2 0 (by decide) rfl (by decide) rfl
    (by
      intro i hi
      have hlt : i < 4 := by
        by_contra hge
        rw [List.getElem?_eq_none (by simpa using hge)] at hi
        cases hi
      interval_cases i <;> simp at hi ⊢)
    (by
      intro i hi
      have hlt : i < 4 := by
        by_contra hge
        rw [List.getElem?_eq_none (by simpa using hge)] at hi
        cases hi
      interval_cases i <;> simp at hi ⊢)
  exact ⟨by decide, h.1, by decide⟩

/-- Counterexample to C17 as stated: a focused window of effective width 10 on
a terminal of width 10, the line "abcdefghi" of printed width 9, point at its
end. The start column computed is 3, and the row of that line ends with the
`$` written at column 0. -/
theorem C17_counterexample :
    line_col_loop [97, 98, 99, 100, 101, 102, 103, 104, 105] 8 0
      (estr_line_len { as := [97, 98, 99, 100, 101, 102, 103, 104, 105], eol := Eol.lf } 0)
      0 0 = 9 ∧
    (term_redisplay_scroll
        (window_on [97, 98, 99, 100, 101, 102, 103, 104, 105] 9 10)).map
      (fun res => (res.1.start_column, res.2)) = some (3, 6) ∧
    [TermOp.move 0 0, TermOp.addstr ['$']] <:+
      (draw_window_row
        { window_on [97, 98, 99, 100, 101, 102, 103, 104, 105] 9 10 with start_column := 3 }
        { start := 0, finish := 0 } false 8 10 0 0).1 := by
  decide

/-- C17, amended: in `term_redisplay`, for every focused window (effective
width `ew` equal to the terminal width) and every position of point on a line
such that every stretch of the line that ends at point, printed from column 0,
is narrower than `ew - 1`, the index of point on the line is below
`3 * (ew / 3)`, and the printed width of the whole line is below `ew`: the
start column computed is 0, and the row of that line is drawn without the `$`
at its right edge and without the `$` at column 0. -/
theorem C17_line_fits (wp : Window) (term_width line : Nat) (r : Region) (highlight : Bool)
    (hfocus : wp.ewidth = term_width)
    (hlo : window_lineo wp ≠ SIZE_MAX)
    (ho : window_line_o wp ≠ SIZE_MAX)
    (hcol : ∀ lp, lp ≤ window_lineo wp →
      point_col wp.bp.text.as wp.bp.tab_width (window_line_o wp) (window_lineo wp) lp + 1 <
        wp.ewidth)
    (hblock : window_lineo wp < 3 * (wp.ewidth / 3))
    (hfit : line_col_loop wp.bp.text.as wp.bp.tab_width (window_line_o wp)
      (estr_line_len wp.bp.text (window_line_o wp)) 0 0 < wp.ewidth) :
    term_redisplay_scroll wp =
      some ({ wp with start_column := 0 },
        point_col wp.bp.text.as wp.bp.tab_width (window_line_o wp) (window_lineo wp) 0) ∧
    draw_window_row { wp with start_column := 0 } r highlight wp.bp.tab_width term_width line
        (window_line_o wp) =
      ([TermOp.move line 0, TermOp.clrtoeol, TermOp.move line 0] ++
        (draw_line_loop { wp with start_column := 0 } (window_line_o wp) r highlight
          wp.bp.tab_width (estr_line_len wp.bp.text (window_line_o wp)) 0 0).1 ++
        [TermOp.addstr (List.replicate
            (wp.ewidth - line_col_loop wp.bp.text.as wp.bp.tab_width (window_line_o wp)
              (estr_line_len wp.bp.text (window_line_o wp)) 0 0) ' '),
          TermOp.attrset Font.FONT_NORMAL],
        estr_next_line wp.bp.text (window_line_o wp)) := by
  have hew : 3 ≤ wp.ewidth := by
    by_contra hlt
    have : wp.ewidth / 3 = 0 := Nat.div_eq_of_lt (by omega)
    rw [this] at hblock
    omega
  have hb : 0 < wp.ewidth / 3 := by
    by_contra h0
    have : wp.ewidth / 3 = 0 := by omega
    rw [this] at hblock
    omega
  constructor
  · obtain ⟨sc, col, h1, h2, h3, _, _, h6⟩ := term_redisplay_scroll_spec wp hew hlo
    have hsc : sc = 0 := by
      by_contra hne
      have htrue := h6 hne
      rw [scroll_test_eq _ _ _ _ _ _ hew] at htrue
      have hc := hcol (sc - 1) (by omega)
      have hdiv : window_lineo wp / (wp.ewidth / 3) < 3 :=
        (Nat.div_lt_iff_lt_mul hb).2 hblock
      have hfalse : ¬ (point_col wp.bp.text.as wp.bp.tab_width (window_line_o wp)
          (window_lineo wp) (sc - 1) ≥ wp.ewidth - 1 ∨
          (sc - 1) / (wp.ewidth / 3) + 2 < window_lineo wp / (wp.ewidth / 3)) := by
        rintro (h | h)
        · omega
        · have h2 := Nat.lt_of_le_of_lt
            (Nat.le_add_left 2 ((sc - 1) / (wp.ewidth / 3))) h
          omega
      rw [decide_eq_false hfalse] at htrue
      cases htrue
    subst hsc
    rw [h1, h3]
  · have hx := draw_line_loop_x { wp with start_column := 0 } (window_line_o wp) r highlight
      wp.bp.tab_width (estr_line_len wp.bp.text (window_line_o wp)) 0 0 hfit
    have hlt : ¬ line_col_loop wp.bp.text.as wp.bp.tab_width (window_line_o wp)
        (estr_line_len wp.bp.text (window_line_o wp)) 0 0 ≥ term_width := by omega
    have habs : Int.natAbs ((wp.ewidth : Int) -
        (line_col_loop wp.bp.text.as wp.bp.tab_width (window_line_o wp)
          (estr_line_len wp.bp.text (window_line_o wp)) 0 0 : Int)) =
        wp.ewidth - line_col_loop wp.bp.text.as wp.bp.tab_width (window_line_o wp)
          (estr_line_len wp.bp.text (window_line_o wp)) 0 0 := by
      omega
    unfold draw_window_row draw_line
    simp only [if_neg ho, Nat.sub_zero, Nat.lt_irrefl, gt_iff_lt, if_false, List.append_nil]
    rw [hx, if_neg hlt, habs]
    simp

/-- Witness for C17: a focused window of width 20 on the line "abc", point at
index 2. -/
theorem C17_line_fits_witness :
    term_redisplay_scroll (window_on [97, 98, 99] 2 20) =
      some ({ window_on [97, 98, 99] 2 20 with start_column := 0 },
        point_col [97, 98, 99] 8 0 2 0) ∧
    (draw_window_row { window_on [97, 98, 99] 2 20 with start_column := 0 }
        { start := 0, finish := 0 } false 8 20 0 0).1 =
      [TermOp.move 0 0, TermOp.clrtoeol, TermOp.move 0 0,
        TermOp.attrset Font.FONT_NORMAL, TermOp.addstr ['a'],
        TermOp.attrset Font.FONT_NORMAL, TermOp.addstr ['b'],
        TermOp.attrset Font.FONT_NORMAL, TermOp.addstr ['c'],
        TermOp.attrset Font.FONT_NORMAL,
        TermOp.addstr (List.replicate 17 ' '), TermOp.attrset Font.FONT_NORMAL] := by
  have h := C17_line_fits (window_on [97, 98, 99] 2 20) 20 0 { start := 0, finish := 0 } false
    rfl (by decide) (by decide)
    (by
      intro lp hlp
      have h2 : window_lineo (window_on [97, 98, 99] 2 20) = 2 := by decide
      rw [h2] at hlp
      interval_cases lp <;> decide)
    (by decide) (by decide)
  exact ⟨h.1, by decide⟩

/-- C18: in `term_redisplay`, for every focused window of effective width
`ew ≥ 3` (on a text shorter than `SIZE_MAX`, point within it) whose point has
characters of printed width at least `ew` before it on its line: the start
column computed is not 0, and `draw_window` then ends every row on which it
draws a line with the `$` written at column 0. -/
theorem C18_truncated_line (wp : Window) (hew : 3 ≤ wp.ewidth)
    (hpt : wp.o ≤ wp.bp.text.as.length) (hmax : wp.bp.text.as.length < SIZE_MAX)
    (hpast : wp.ewidth ≤
      point_col wp.bp.text.as wp.bp.tab_width (window_line_o wp) (window_lineo wp) 0) :
    ∃ sc col, term_redisplay_scroll wp = some ({ wp with start_column := sc }, col) ∧
      sc ≠ 0 ∧
      ∀ (topline term_width : Nat) (hn : Bool),
        ∃ (w : Window) (rows : List (List TermOp)) (o0 : Nat) (r : Region) (hl : Bool),
          draw_window topline { wp with start_column := sc } true hn term_width =
            some (w, rows.flatten) ∧
          rows.length = wp.eheight ∧
          ∀ k, k < wp.eheight →
            rows[k]? = some
              (if row_offset wp.bp.text k o0 = SIZE_MAX then
                [TermOp.move (topline + k) 0, TermOp.clrtoeol]
              else
                [TermOp.move (topline + k) 0, TermOp.clrtoeol] ++
                  draw_line (topline + k) sc { wp with start_column := sc }
                    (row_offset wp.bp.text k o0) r hl wp.bp.tab_width term_width ++
                  [TermOp.move (topline + k) 0, TermOp.addstr ['$']]) := by
  have hst := estr_start_of_line_le wp.bp.text wp.o hpt
  have hlo : window_lineo wp ≠ SIZE_MAX := by
    unfold window_lineo
    rw [size_sub_le _ _ hst]
    omega
  obtain ⟨sc, col, h1, _, _, _, h5, _⟩ := term_redisplay_scroll_spec wp hew hlo
  have hsc : sc ≠ 0 := by
    intro h0
    have hfalse := h5 0 (by omega) (Nat.zero_le _)
    rw [scroll_test_eq _ _ _ _ _ _ hew] at hfalse
    have htrue : point_col wp.bp.text.as wp.bp.tab_width (window_line_o wp)
        (window_lineo wp) 0 ≥ wp.ewidth - 1 ∨
        0 / (wp.ewidth / 3) + 2 < window_lineo wp / (wp.ewidth / 3) := Or.inl (by omega)
    rw [decide_eq_true htrue] at hfalse
    cases hfalse
  refine ⟨sc, col, h1, hsc, ?_⟩
  intro topline term_width hn
  obtain ⟨o0, ho0, _⟩ := draw_window_first_line_some wp.bp.text hmax wp.topdelta wp.o hpt
  have hspec := draw_window_rows_spec { wp with start_column := sc }
    ((calculate_highlight_region { wp with start_column := sc } true hn).getD
      { start := 0, finish := 0 })
    (calculate_highlight_region { wp with start_column := sc } true hn).isSome
    wp.bp.tab_width term_width wp.eheight topline o0
  refine ⟨{ wp with
      start_column := sc
      all_displayed := decide ((draw_window_rows { wp with start_column := sc }
        ((calculate_highlight_region { wp with start_column := sc } true hn).getD
          { start := 0, finish := 0 })
        (calculate_highlight_region { wp with start_column := sc } true hn).isSome
        wp.bp.tab_width term_width wp.eheight topline o0).2 ≥ wp.bp.text.as.length) },
    (draw_window_rows { wp with start_column := sc }
      ((calculate_highlight_region { wp with start_column := sc } true hn).getD
        { start := 0, finish := 0 })
      (calculate_highlight_region { wp with start_column := sc } true hn).isSome
      wp.bp.tab_width term_width wp.eheight topline o0).1, o0,
    (calculate_highlight_region { wp with start_column := sc } true hn).getD
      { start := 0, finish := 0 },
    (calculate_highlight_region { wp with start_column := sc } true hn).isSome,
    ?_, hspec.1, ?_⟩
  · unfold draw_window
    simp only [ho0]
  · intro k hk
    rw [hspec.2 k hk]
    unfold draw_window_row
    have hpos : sc > 0 := by omega
    by_cases hso : row_offset wp.bp.text k o0 = SIZE_MAX
    · simp only [hso, if_true]
    · simp only [hso, if_false, hpos, if_true]

/-- Witness for C18: a window of width 6 on the line "abcdefghij", point at
index 8. -/
theorem C18_truncated_line_witness :
    3 ≤ (window_on [97, 98, 99, 100, 101, 102, 103, 104, 105, 106] 8 6).ewidth ∧
    (window_on [97, 98, 99, 100, 101, 102, 103, 104, 105, 106] 8 6).ewidth ≤
      point_col [97, 98, 99, 100, 101, 102, 103, 104, 105, 106] 8 0 8 0 ∧
    ∃ sc col, term_redisplay_scroll
        (window_on [97, 98, 99, 100, 101, 102, 103, 104, 105, 106] 8 6) =
        some ({ window_on [97, 98, 99, 100, 101, 102, 103, 104, 105, 106] 8 6 with
          start_column := sc }, col) ∧ sc ≠ 0 := by
  obtain ⟨sc, col, h1, h2, _⟩ := C18_truncated_line
    (window_on [97, 98, 99, 100, 101, 102, 103, 104, 105, 106] 8 6)
    (by decide) (by decide) (by decide) (by decide)
  exact ⟨by decide, by decide, sc, col, h1, h2⟩

/-- C20: for every line, tab width of at least 1, index of point (an index,
so below `SIZE_MAX`) and effective width `ew ≥ 3`: the column `col` that `term_redisplay` passes to its final
`term_move` is the sum of the printed widths (`make_char_printable`, each at
its running column, from column 0) of the characters from the start column
chosen up to point, point excluded; and the body loop of `draw_line`, drawing
from that start column, has written `col` characters (the calls `pre`) when it
reaches the character at point, which it draws with `x = col`. -/
theorem C20_cursor_column (wp : Window) (hew : 3 ≤ wp.ewidth) (_ht : 1 ≤ wp.bp.tab_width)
    (hlo : window_lineo wp < SIZE_MAX) :
    ∃ sc col, term_redisplay_scroll wp = some ({ wp with start_column := sc }, col) ∧
      sc ≤ window_lineo wp ∧
      col = line_col_loop wp.bp.text.as wp.bp.tab_width (window_line_o wp)
        (window_lineo wp - sc) sc 0 ∧
      ∀ (r : Region) (highlight : Bool) (n : Nat),
        ∃ pre, draw_line_loop { wp with start_column := sc } (window_line_o wp) r highlight
            wp.bp.tab_width ((window_lineo wp - sc) + n) sc 0 =
          (pre ++ (draw_line_loop { wp with start_column := sc } (window_line_o wp) r
              highlight wp.bp.tab_width n (window_lineo wp) col).1,
            (draw_line_loop { wp with start_column := sc } (window_line_o wp) r highlight
              wp.bp.tab_width n (window_lineo wp) col).2) ∧
          written_width pre = col := by
  obtain ⟨sc, col, h1, h2, h3, h4, _, _⟩ :=
    term_redisplay_scroll_spec wp hew (Nat.ne_of_lt hlo)
  refine ⟨sc, col, h1, h2, h3, ?_⟩
  intro r highlight n
  have hlt : line_col_loop wp.bp.text.as wp.bp.tab_width (window_line_o wp)
      (window_lineo wp - sc) sc 0 < wp.ewidth := by
    have : col = line_col_loop wp.bp.text.as wp.bp.tab_width (window_line_o wp)
        (window_lineo wp - sc) sc 0 := h3
    omega
  obtain ⟨pre, hpre, hw⟩ := draw_line_loop_split { wp with start_column := sc }
    (window_line_o wp) r highlight wp.bp.tab_width (window_lineo wp - sc) n sc 0 hlt
  have e : sc + (window_lineo wp - sc) = window_lineo wp := by omega
  rw [e] at hpre
  have h3' : line_col_loop wp.bp.text.as wp.bp.tab_width (window_line_o wp)
      (window_lineo wp - sc) sc 0 = col := h3.symm
  have hw' : line_col_loop { wp with start_column := sc }.bp.text.as wp.bp.tab_width
      (window_line_o wp) (window_lineo wp - sc) sc 0 = col := h3'
  rw [hw'] at hpre hw
  exact ⟨pre, hpre, by omega⟩

/-- Witness for C20: a window of width 6 on the line "ab\tdefghij" (a tab at
index 2), point at index 8. -/
theorem C20_cursor_column_witness :
    3 ≤ (window_on [97, 98, 9, 100, 101, 102, 103, 104, 105, 106] 8 6).ewidth ∧
    1 ≤ (window_on [97, 98, 9, 100, 101, 102, 103, 104, 105, 106] 8 6).bp.tab_width ∧
    ∃ sc col, term_redisplay_scroll
        (window_on [97, 98, 9, 100, 101, 102, 103, 104, 105, 106] 8 6) =
        some ({ window_on [97, 98, 9, 100, 101, 102, 103, 104, 105, 106] 8 6 with
          start_column := sc }, col) ∧
      col = line_col_loop [97, 98, 9, 100, 101, 102, 103, 104, 105, 106] 8
        (window_line_o (window_on [97, 98, 9, 100, 101, 102, 103, 104, 105, 106] 8 6))
        (window_lineo (window_on [97, 98, 9, 100, 101, 102, 103, 104, 105, 106] 8 6) - sc)
        sc 0 := by
  obtain ⟨sc, col, h1, _, h3, _⟩ := C20_cursor_column
    (window_on [97, 98, 9, 100, 101, 102, 103, 104, 105, 106] 8 6) (by decide) (by decide)
    (by decide)
  exact ⟨by decide, by decide, sc, col, h1, h3⟩

/-- C21: for every line, index `p` of point on it (an index, so below
`SIZE_MAX`) and effective width `ew ≥ 3`, with the block size `b = ew / 3`:
the start column `s` chosen by `term_redisplay` is at most `p` and lies at most
two blocks before the block of point, `p / b - s / b ≤ 2`. -/
theorem C21_block_jump (wp : Window) (hew : 3 ≤ wp.ewidth)
    (hlo : window_lineo wp < SIZE_MAX) :
    ∃ sc col, term_redisplay_scroll wp = some ({ wp with start_column := sc }, col) ∧
      sc ≤ window_lineo wp ∧
      sc / (wp.ewidth / 3) ≤ window_lineo wp / (wp.ewidth / 3) ∧
      window_lineo wp / (wp.ewidth / 3) - sc / (wp.ewidth / 3) ≤ 2 := by
  obtain ⟨sc, col, h1, h2, _, _, h5, _⟩ :=
    term_redisplay_scroll_spec wp hew (Nat.ne_of_lt hlo)
  refine ⟨sc, col, h1, h2, Nat.div_le_div_right h2, ?_⟩
  have hfalse := h5 sc (Nat.le_refl _) h2
  rw [scroll_test_eq _ _ _ _ _ _ hew] at hfalse
  have hdec := Option.some.inj hfalse
  have hnot := of_decide_eq_false hdec
  have h3 := (not_or.1 hnot).2
  omega

/-- Witness for C21: a window of width 6 (blocks of 2) on the line
"abcdefghij", point at index 8: the start column is 4, two blocks before the
block of point. -/
theorem C21_block_jump_witness :
    3 ≤ (window_on [97, 98, 99, 100, 101, 102, 103, 104, 105, 106] 8 6).ewidth ∧
    (term_redisplay_scroll
        (window_on [97, 98, 99, 100, 101, 102, 103, 104, 105, 106] 8 6)).map
      (fun res => res.1.start_column) = some 4 ∧
    ∃ sc col, term_redisplay_scroll
        (window_on [97, 98, 99, 100, 101, 102, 103, 104, 105, 106] 8 6) =
        some ({ window_on [97, 98, 99, 100, 101, 102, 103, 104, 105, 106] 8 6 with
          start_column := sc }, col) ∧
      sc ≤ window_lineo (window_on [97, 98, 99, 100, 101, 102, 103, 104, 105, 106] 8 6) ∧
      sc / ((window_on [97, 98, 99, 100, 101, 102, 103, 104, 105, 106] 8 6).ewidth / 3) ≤
        window_lineo (window_on [97, 98, 99, 100, 101, 102, 103, 104, 105, 106] 8 6) /
          ((window_on [97, 98, 99, 100, 101, 102, 103, 104, 105, 106] 8 6).ewidth / 3) ∧
      window_lineo (window_on [97, 98, 99, 100, 101, 102, 103, 104, 105, 106] 8 6) /
          ((window_on [97, 98, 99, 100, 101, 102, 103, 104, 105, 106] 8 6).ewidth / 3) -
        sc / ((window_on [97, 98, 99, 100, 101, 102, 103, 104, 105, 106] 8 6).ewidth / 3)
        ≤ 2 :=
  ⟨by decide, by decide,
    C21_block_jump (window_on [97, 98, 99, 100, 101, 102, 103, 104, 105, 106] 8 6)
      (by decide) (by decide)⟩

/-- Counterexample to C22 as stated: a focused window of effective width 2 on
an empty buffer. The width is not zero, yet the first turn of the loop of
`term_redisplay` evaluates `lp / (ew / 3)` with `ew / 3 = 0`. -/
theorem C22_counterexample :
    (window_on [] 0 2).ewidth ≠ 0 ∧
    scroll_test [] 8 0 0 2 0 = none ∧
    (term_redisplay_scroll (window_on [] 0 2)).isSome = false := by
  decide

/-- C22, amended: for every focused window, buffer line and position of point
(its index on the line below `SIZE_MAX`), the computation of the start column
in `term_redisplay` ends without dividing by zero exactly when the effective
width is 1 or at least 3; with an effective width of 0 or 2 its first turn
divides by `ew / 3 = 0`. -/
theorem C22_scroll_defined (wp : Window) (hlo : window_lineo wp < SIZE_MAX) :
    (term_redisplay_scroll wp).isSome = true ↔ (wp.ewidth = 1 ∨ 3 ≤ wp.ewidth) := by
  have hne : ¬ window_lineo wp = SIZE_MAX := Nat.ne_of_lt hlo
  constructor
  · intro h
    by_contra hc
    have hew : wp.ewidth = 0 ∨ wp.ewidth = 2 := by omega
    have hnone := (start_column_loop_first wp.bp.text.as wp.bp.tab_width (window_line_o wp)
      (window_lineo wp) wp.ewidth (window_lineo wp) 0).1
      (scroll_test_top_narrow _ _ _ _ _ hew)
    simp [term_redisplay_scroll, hne, hnone] at h
  · rintro (h | h)
    · have hsome := (start_column_loop_first wp.bp.text.as wp.bp.tab_width (window_line_o wp)
        (window_lineo wp) wp.ewidth (window_lineo wp) 0).2
        (by rw [h]; exact scroll_test_one _ _ _ _ _)
      simp [term_redisplay_scroll, hne, hsome]
    · obtain ⟨sc, col, h1, _⟩ := term_redisplay_scroll_spec wp h hne
      rw [h1]
      rfl

/-- Witness for C22: widths 1 and 3 on the line "abc", point at index 2. -/
theorem C22_scroll_defined_witness :
    window_lineo (window_on [97, 98, 99] 2 3) < SIZE_MAX ∧
    (term_redisplay_scroll (window_on [97, 98, 99] 2 3)).isSome = true ∧
    (term_redisplay_scroll (window_on [97, 98, 99] 2 1)).isSome = true ∧
    (term_redisplay_scroll (window_on [97, 98, 99] 2 2)).isSome = false :=
  ⟨by decide,
    (C22_scroll_defined (window_on [97, 98, 99] 2 3) (by decide)).2 (Or.inr (by decide)),
    by decide, by decide⟩

/-- C25: for every byte `c` (as the `int` that `astr_get` gives, signed or
unsigned), column `x` and tab width `w ≥ 1`, `make_char_printable (c, x, w)`
is the reference rendering of the byte value `c & 0xff`: for a tab
`w - x mod w` blanks, so that `x` plus the length of the output is the least
multiple of `w` above `x`; for a printable byte that byte; for NUL "^@"; for
the other bytes from 1 to 26 a caret and the letter `'A' + c - 1`; for every
other byte a backslash and the octal digits of `c & 0xff` without leading
zeros. The output is never empty. -/
theorem C25_make_char_printable (c : Int) (x w : Nat) (hc : -128 ≤ c ∧ c ≤ 255)
    (hw : 1 ≤ w) :
    make_char_printable c x w = make_char_printable_ref (c % 256).toNat x w ∧
    (c = 9 →
      (make_char_printable c x w).length = w - x % w ∧
      w ∣ x + (make_char_printable c x w).length ∧
      x < x + (make_char_printable c x w).length ∧
      ∀ m, w ∣ m → x < m → x + (make_char_printable c x w).length ≤ m) ∧
    make_char_printable c x w ≠ [] := by
  have hb : (c % 256).toNat < 256 := by omega
  have hcb : c = (((c % 256).toNat : Nat) : Int) ∨ c = (((c % 256).toNat : Nat) : Int) - 256 := by
    omega
  have href := make_char_printable_eq_ref (c % 256).toNat x w hb c hcb hc.1
  refine ⟨href, ?_, ?_⟩
  · intro h9
    subst h9
    have hlen : (make_char_printable 9 x w).length = w - x % w := by
      simp [make_char_printable]
    rw [hlen]
    exact ⟨rfl, tab_stop_least x w hw⟩
  · rw [href]
    exact make_char_printable_ref_ne_nil _ x w hw

/-- Witness for C25: the byte 200 read as a signed `char` (`-56`), drawn as a
backslash and the octal digits 310; and a tab at column 3 with tab width 8. -/
theorem C25_make_char_printable_witness :
    make_char_printable (-56) 3 8 = ['\\', '3', '1', '0'] ∧
    make_char_printable 9 3 8 = [' ', ' ', ' ', ' ', ' '] ∧
    make_char_printable (-56) 3 8 = make_char_printable_ref 200 3 8 :=
  ⟨by decide, by decide, (C25_make_char_printable (-56) 3 8 (by decide) (by decide)).1⟩

/-- C29: in `draw_window`, for every buffer text (of a length that a `size_t`
holds), every window offset up to the length of the text and every
`topdelta`, the assertion of the backward walk never fails: the start of a
line other than the first has a previous line, `estr_prev_line` is not the
sentinel there; and the walk ends at the start of the line that lies
`min (topdelta, n)` lines above the line of the window offset, `n` being the
number of lines before that line. The start of a line is fixed by the number
of lines before it. -/
theorem C29_backward_walk (es : estr) (o topdelta : Nat) (ho : o ≤ es.as.length)
    (hlen : es.as.length ≤ SIZE_MAX) :
    (∀ x, x ≤ es.as.length → estr_start_of_line es x > 0 →
      estr_prev_line es (estr_start_of_line es x) ≠ SIZE_MAX) ∧
    ∃ r, draw_window_first_line es topdelta (estr_start_of_line es o) = some r ∧
      line_start es r ∧ r ≤ o ∧
      lines_before es r = lines_before es o - min topdelta (lines_before es o) ∧
      ∀ s, line_start es s → lines_before es s = lines_before es r → s = r := by
  constructor
  · intro x hx hpos
    obtain ⟨r, h1, _⟩ := draw_window_first_line_spec es hlen 1 x hx
    rw [draw_window_first_line, if_pos hpos] at h1
    intro hs
    rw [if_neg (not_not.2 hs)] at h1
    cases h1
  · obtain ⟨r, h1, h2, h3, h4⟩ := draw_window_first_line_spec es hlen topdelta o ho
    exact ⟨r, h1, h2, h3, h4, fun s hs he => line_start_unique es s r hs h2 he⟩

/-- Witness for C29: the text "a\nb\nc\nd" with the LF marker, window offset 5
(on the third line) and `topdelta` 1: the walk ends at offset 2, the start of
the second line; with `topdelta` 7 it ends at offset 0. -/
theorem C29_backward_walk_witness :
    draw_window_first_line { as := [97, 10, 98, 10, 99, 10, 100], eol := Eol.lf } 1
      (estr_start_of_line { as := [97, 10, 98, 10, 99, 10, 100], eol := Eol.lf } 5) = some 2 ∧
    draw_window_first_line { as := [97, 10, 98, 10, 99, 10, 100], eol := Eol.lf } 7
      (estr_start_of_line { as := [97, 10, 98, 10, 99, 10, 100], eol := Eol.lf } 5) = some 0 ∧
    lines_before { as := [97, 10, 98, 10, 99, 10, 100], eol := Eol.lf } 5 = 2 ∧
    ∃ r, draw_window_first_line { as := [97, 10, 98, 10, 99, 10, 100], eol := Eol.lf } 1
        (estr_start_of_line { as := [97, 10, 98, 10, 99, 10, 100], eol := Eol.lf } 5) =
        some r ∧
      lines_before { as := [97, 10, 98, 10, 99, 10, 100], eol := Eol.lf } r =
        lines_before { as := [97, 10, 98, 10, 99, 10, 100], eol := Eol.lf } 5 -
          min 1 (lines_before { as := [97, 10, 98, 10, 99, 10, 100], eol := Eol.lf } 5) := by
  obtain ⟨r, h1, _, _, h4, _⟩ :=
    (C29_backward_walk { as := [97, 10, 98, 10, 99, 10, 100], eol := Eol.lf } 5 1
      (by decide) (by decide)).2
  exact ⟨by decide, by decide, by decide, r, h1, h4⟩

/-- C30: for every encoded text (any of the three markers, offsets inside a
CRLF pair included) and every offset `o` up to the length such that
`estr_prev_line (o)` is not the sentinel:
`estr_next_line (estr_prev_line (o)) = estr_start_of_line (o)` and
`estr_prev_line (o) < estr_start_of_line (o)`; and `estr_next_line (o) > o`
whenever it is not the sentinel. -/
theorem C30_prev_then_next (es : estr) (o : Nat) (ho : o ≤ es.as.length)
    (hprev : estr_prev_line es o ≠ SIZE_MAX) :
    estr_next_line es (estr_prev_line es o) = estr_start_of_line es o ∧
    estr_prev_line es o < estr_start_of_line es o ∧
    (estr_next_line es o ≠ SIZE_MAX → o < estr_next_line es o) := by
  have hL := Eol.bytes_length_pos es.eol
  have h := next_line_prev_line es o ho hprev
  refine ⟨h.1, h.2, ?_⟩
  intro hnext
  rw [estr_next_line_eq] at hnext ⊢
  by_cases he : estr_end_of_line es o = es.as.length
  · rw [if_pos he] at hnext
    exact absurd rfl hnext
  · rw [if_neg he]
    have := (estr_end_of_line_ge es o ho).1
    omega

/-- Witness for C30: the text "\r\nab\r\n" with the CRLF marker at offset 3,
and at offset 5, between the CR and the LF of the second marker. -/
theorem C30_prev_then_next_witness :
    estr_prev_line { as := [13, 10, 97, 98, 13, 10], eol := Eol.crlf } 3 = 0 ∧
    estr_next_line { as := [13, 10, 97, 98, 13, 10], eol := Eol.crlf } 0 = 2 ∧
    estr_start_of_line { as := [13, 10, 97, 98, 13, 10], eol := Eol.crlf } 5 = 2 ∧
    estr_next_line { as := [13, 10, 97, 98, 13, 10], eol := Eol.crlf }
        (estr_prev_line { as := [13, 10, 97, 98, 13, 10], eol := Eol.crlf } 5) =
      estr_start_of_line { as := [13, 10, 97, 98, 13, 10], eol := Eol.crlf } 5 :=
  ⟨by decide, by decide, by decide,
    (C30_prev_then_next { as := [13, 10, 97, 98, 13, 10], eol := Eol.crlf } 5
      (by decide) (by decide)).1⟩

/-- C28: for every trie, every non-empty chord sequence `s`, command `f` and
every non-empty chord sequence `t` that is not an initial segment of `s`
(neither `s` nor a beginning of `s`): `bind_key_vec (root, s, f)` succeeds and
leaves the result of `search_key (root, t)` unchanged; `t` is found after the
bind iff it was found before, and then at the same node, with the same command. -/
theorem C28_bind_frame (root : Binding) (s t : List Nat) (f : Nat) (hs : s ≠ [])
    (ht : t ≠ []) (hnp : ¬ t <+: s) :
    ∃ root1, bind_key_vec root s (some f) = some root1 ∧
      search_key root1 t = search_key root t ∧
      ((search_key root1 t).isSome = (search_key root t).isSome) ∧
      (search_key root1 t).map Binding.func = (search_key root t).map Binding.func := by
  obtain ⟨root1, h1, _⟩ := bind_key_vec_search s (some f) root hs
  have hframe := bind_key_vec_frame s (some f) root root1 t h1 ht hnp
  exact ⟨root1, h1, hframe, by rw [hframe], by rw [hframe]⟩

/-- Witness for C28: in the trie with `C-x C-f` bound to command 1, binding
`C-x C-s` (632, 627) to command 2 leaves the lookup of `C-x C-f` as it was. -/
theorem C28_bind_frame_witness :
    (search_key bindings_cx_cf [632, 614]).map Binding.func = some (some 1) ∧
    ∃ root1, bind_key_vec bindings_cx_cf [632, 627] (some 2) = some root1 ∧
      (search_key root1 [632, 614]).map Binding.func =
        (search_key bindings_cx_cf [632, 614]).map Binding.func := by
  obtain ⟨root1, h1, _, _, h4⟩ :=
    C28_bind_frame bindings_cx_cf [632, 627] [632, 614] 2 (by decide) (by decide) (by decide)
  exact ⟨by decide, root1, h1, h4⟩

/-- C27: for every trie produced by binds (from the empty root, with non-empty
chord sequences), `walk_bindings` calls its callback on a list of chord
sequences, each passed as its chord names together with its node, such that a
sequence `s` is listed with a node carrying the command `f` if and only if
typing `s` invokes `f` through `completion_scan`; no sequence is listed twice,
and the sequences are listed in ascending lexicographic order of chord values. -/
theorem C27_walk_matches_dispatch (cts : Nat → List Char)
    (binds : List (List Nat × Option Nat)) (hne : ∀ b ∈ binds, b.1 ≠ []) :
    ∃ t, bind_all init_bindings binds = some t ∧
      ∃ l : List (List Nat × Binding),
        walk_bindings cts t = l.map (fun e => (chord_names cts e.1, e.2)) ∧
        (∀ s f, (∃ p, (s, p) ∈ l ∧ p.func = some f) ↔ invokes t s f) ∧
        (l.map Prod.fst).Nodup ∧
        (l.map Prod.fst).Pairwise (List.Lex (fun a b : Nat => a < b)) := by
  obtain ⟨t, ht, hasc⟩ := bind_all_ascending binds hne
  have h' := (forall_nodes_iff _ _).1 hasc
  have hmem : ∀ s p, (s, p) ∈ walk_paths_vec t.vec [] ↔ resolves t s p := by
    intro s p
    rw [mem_walk_paths_vec t.vec t [] rfl h'.1 h'.2 s p]
    simp
  refine ⟨t, ht, walk_paths_vec t.vec [], walk_bindings_eq_paths cts t, ?_,
    nodup_walk_paths_vec t.vec [] h'.1 h'.2, lex_walk_paths_vec t.vec [] h'.1 h'.2⟩
  intro s f
  rw [invokes_iff_resolves]
  constructor
  · rintro ⟨p, hp, hpf⟩
    exact ⟨p, (hmem s p).1 hp, hpf⟩
  · rintro ⟨p, hp, hpf⟩
    exact ⟨p, (hmem s p).2 hp, hpf⟩

/-- Witness for C27: the binds of `x f` to command 1 and of `a` to command 2,
every chord named by the character of its code; typing `x f` invokes
command 1. -/
theorem C27_walk_matches_dispatch_witness :
    (∀ b ∈ ([([120, 102], some 1), ([97], some 2)] : List (List Nat × Option Nat)), b.1 ≠ []) ∧
    (∃ t, bind_all init_bindings [([120, 102], some 1), ([97], some 2)] = some t ∧
      invokes t [120, 102] 1 ∧
      (walk_bindings (fun k => [Char.ofNat k]) t).map (fun e => (e.1, e.2.func)) =
        [(['a'], some 2), (['x', ' ', 'f'], some 1)]) ∧
    ∃ t, bind_all init_bindings [([120, 102], some 1), ([97], some 2)] = some t ∧
      ∃ l : List (List Nat × Binding),
        walk_bindings (fun k => [Char.ofNat k]) t =
          l.map (fun e => (chord_names (fun k => [Char.ofNat k]) e.1, e.2)) ∧
        (∀ s f, (∃ p, (s, p) ∈ l ∧ p.func = some f) ↔ invokes t s f) ∧
        (l.map Prod.fst).Nodup ∧
        (l.map Prod.fst).Pairwise (List.Lex (fun a b : Nat => a < b)) :=
  ⟨by decide, ⟨_, rfl, by decide, by decide⟩,
    C27_walk_matches_dispatch (fun k => [Char.ofNat k]) _ (by decide)⟩

/-- C23, the code at a failing input: a window at offset 50 of a buffer of 100
bytes, neither the top nor the bottom of the buffer in view. The claim gives
`100 * 50 / 100 = 50`, the code shows 0: `window_o (wp) / get_buffer_size
(bp)` is divided as `size_t` before the result is converted and multiplied by
100, so the number shown is `100 * (o / n)`, which is 0 for every offset before
the end of the buffer. -/
theorem C23_screen_pos_at_half :
    window_cr_sample.o = 50 ∧ window_cr_sample.bp.text.as.length = 100 ∧
    100 * 50 / 100 = 50 ∧
    make_screen_pos window_cr_sample false false = some [' ', '0', '%'] ∧
    ∀ wp : Window, wp.o < wp.bp.text.as.length →
      make_screen_pos wp false false = some [' ', '0', '%'] := by
  refine ⟨rfl, by decide, by decide, by decide, ?_⟩
  intro wp h
  have hn : ¬ wp.bp.text.as.length = 0 := by omega
  have hq : wp.o / wp.bp.text.as.length = 0 := Nat.div_eq_of_lt h
  simp only [make_screen_pos, Bool.and_self, Bool.false_eq_true, if_false, if_neg hn, hq]
  decide

/-- C24, the code at a failing input: the status line of a window that is not
the focused one and shows a buffer with the CR marker, while the buffer of the
focused window, `cur_bp`, has the LF marker. The tag written is ":", that of
`cur_bp`; the claim gives "(Mac)". For every window the tag is chosen by the
marker of `cur_bp`. -/
theorem C24_status_line_other_window :
    window_cr_sample.bp.text.eol = Eol.cr ∧ buffer_lf_sample.text.eol = Eol.lf ∧
    draw_status_line 3 window_cr_sample buffer_lf_sample false false 50 0 false =
      some [TermOp.attrset Font.FONT_REVERSE, TermOp.move 3 0,
        TermOp.addstr ['-'], TermOp.addstr ['-'], TermOp.addstr ['-'],
        TermOp.move 3 0,
        TermOp.addstr
          ['-', '-', ':', '-', '-', ' ', ' ', 'a', ' ', ' ', ' ', ' ', ' ', ' ', ' ', ' ',
            ' ', ' ', ' ', ' ', ' ', ' ', ' ', ' ', ' ', ' ', '0', '%', ' ', '(', '5', '1',
            ',', '0', ')', ' ', ' ', ' ', ' ', '(', 'F', 'u', 'n', 'd', 'a', 'm', 'e', 'n',
            't', 'a', 'l', ')'],
        TermOp.attrset Font.FONT_NORMAL] ∧
    ∀ (line : Nat) (wp : Window) (cur_bp : Buffer) (tv bv : Bool) (pt_n goalc : Nat)
      (dm : Bool) (ops : List TermOp),
      draw_status_line line wp cur_bp tv bv pt_n goalc dm = some ops →
      ∃ rest, TermOp.addstr (['-', '-'] ++ eol_type cur_bp ++ rest) ∈ ops := by
  refine ⟨rfl, rfl, by decide, ?_⟩
  intro line wp cur_bp tv bv pt_n goalc dm ops h
  unfold draw_status_line at h
  cases hp : make_screen_pos wp tv bv with
  | none => simp [hp] at h
  | some pos =>
    simp only [hp, Option.some.injEq] at h
    subst h
    refine ⟨pad_left 2 (make_mode_line_flags wp) ++ [' ', ' '] ++
      pad_right 15 wp.bp.name ++ [' ', ' ', ' '] ++ pos ++ [' '] ++
      pad_right 9 (['('] ++ Nat.toDigits 10 (pt_n + 1) ++ [','] ++ Nat.toDigits 10 goalc ++
        [')']) ++
      [' ', '(', 'F', 'u', 'n', 'd', 'a', 'm', 'e', 'n', 't', 'a', 'l'] ++
      (if wp.bp.autofill then [' ', 'F', 'i', 'l', 'l'] else []) ++
      (if wp.bp.overwrite then [' ', 'O', 'v', 'w', 'r', 't'] else []) ++
      (if dm then [' ', 'D', 'e', 'f'] else []) ++
      (if wp.bp.isearch then [' ', 'I', 's', 'e', 'a', 'r', 'c', 'h'] else []) ++ [')'], ?_⟩
    have htext : status_line_text wp cur_bp pos pt_n goalc dm =
        ['-', '-'] ++ eol_type cur_bp ++
          (pad_left 2 (make_mode_line_flags wp) ++ [' ', ' '] ++
          pad_right 15 wp.bp.name ++ [' ', ' ', ' '] ++ pos ++ [' '] ++
          pad_right 9 (['('] ++ Nat.toDigits 10 (pt_n + 1) ++ [','] ++ Nat.toDigits 10 goalc ++
            [')']) ++
          [' ', '(', 'F', 'u', 'n', 'd', 'a', 'm', 'e', 'n', 't', 'a', 'l'] ++
          (if wp.bp.autofill then [' ', 'F', 'i', 'l', 'l'] else []) ++
          (if wp.bp.overwrite then [' ', 'O', 'v', 'w', 'r', 't'] else []) ++
          (if dm then [' ', 'D', 'e', 'f'] else []) ++
          (if wp.bp.isearch then [' ', 'I', 's', 'e', 'a', 'r', 'c', 'h'] else []) ++ [')']) := by
      simp only [status_line_text, List.append_assoc]
    rw [← htext]
    simp

/-- C26, the code at a failing input: the keys `C-u - C-u 5 x`. The claim (and
the documentation of the command) has the second `C-u`, read after the minus
sign, end the entry with the argument -1 and leave `5 x` unread. The code
multiplies by 4 there, since no digit was read, and reads on: the argument is
-5 and only `x` is left; without the `5` the argument is -4. A `C-u` read
after digits does end the entry. -/
theorem C26_minus_then_cu :
    (universal_argument (KBD_CTRL ||| 117) [45, KBD_CTRL ||| 117, 53, 120]).map
      (fun r => (r.last_uniarg, r.input)) = some (some (-5), [120]) ∧
    (universal_argument (KBD_CTRL ||| 117) [45, KBD_CTRL ||| 117, 120]).map
      (fun r => (r.last_uniarg, r.input)) = some (some (-4), [120]) ∧
    (universal_argument (KBD_CTRL ||| 117) [45, 49, 50, KBD_CTRL ||| 117, 53, 120]).map
      (fun r => (r.last_uniarg, r.input)) = some (some (-12), [53, 120]) := by
  decide

end Zile
